import Mathlib

/-!
Verification of the weighted-graph optimization core of the repository
(`prac3.py`: A* search; `prac6.py`: Kruskal and Prim MST constructors;
`prac8.py`: Kruskal with a `UnionFind` class).

Shallow embedding conventions:
* Python nodes are embedded as `ℕ` (nodes are opaque hashable identifiers;
  the Prim heap additionally compares them, which `ℕ`'s order provides).
* Python `float` weights are embedded as `ℚ` (exact arithmetic; the spec's
  "within floating-point tolerance" becomes exact equality).
* Python dicts used only through get/set/membership are embedded as
  `ℕ → Option α` maps or association lists; Python sets as lists used
  modulo membership.
* `heapq` heaps are embedded as lists with `popMin`, which removes the
  least element in the lexicographic order on `(ℚ, ℕ, ℕ)` triples —
  exactly the observable behaviour of `heapq.heappop` on tuples.
* `while` loops are embedded with an explicit fuel parameter; the fuel
  actually supplied is proved sufficient, so the embedded function agrees
  with the terminating Python run.
* Accessing a dict key that is absent raises `KeyError` in Python; the
  union-find embeddings use total maps instead, so theorems about them
  carry the well-formedness hypotheses (all touched nodes registered)
  under which Python never raises.
-/

/-- An undirected weighted edge `(u, v, w)` as the Python triples in
`prac6.py`/`prac8.py`. -/
abbrev Edg : Type := ℕ × ℕ × ℚ

/-- Heap entries: `(priority, a, b)` triples ordered lexicographically.
In `a_star` these are `(f_score, push_count, node)`; in `prim_mst` they are
`(weight, from_node, to_node)`. -/
abbrev HEntry : Type := ℚ × ℕ × ℕ

/-- Strict lexicographic comparison of heap entries, as Python compares
tuples. -/
def hLt (a b : HEntry) : Prop :=
  a.1 < b.1 ∨ (a.1 = b.1 ∧ (a.2.1 < b.2.1 ∨ (a.2.1 = b.2.1 ∧ a.2.2 < b.2.2)))

/-- Reflexive lexicographic comparison of heap entries. -/
def hLe (a b : HEntry) : Prop := hLt a b ∨ a = b

instance : DecidablePred (fun p : HEntry × HEntry => hLt p.1 p.2) := by
  unfold hLt; infer_instance

instance (a b : HEntry) : Decidable (hLt a b) := by unfold hLt; infer_instance

instance (a b : HEntry) : Decidable (hLe a b) := by unfold hLe; infer_instance

/-- The least entry of `e :: es` in the lexicographic order (first
occurrence among equals, which are identical values). -/
def minEntry (e : HEntry) (es : List HEntry) : HEntry :=
  es.foldl (fun m x => if hLt x m then x else m) e

/-- Remove the first occurrence of `a` from `l`. -/
def rmFirst {α : Type} [DecidableEq α] : List α → α → List α
  | [], _ => []
  | x :: xs, a => if x = a then xs else x :: rmFirst xs a

/-- `popMin` models `heapq.heappop`: it removes and returns the least
element of the heap viewed as a multiset of tuples. -/
def popMin (l : List HEntry) : Option (HEntry × List HEntry) :=
  match l with
  | [] => none
  | e :: es => some (minEntry e es, rmFirst l (minEntry e es))

namespace Prac3

/-! ### `src/prac3.py` — A* search

`PyVal` models the dynamically-typed neighbour entries that
`_get_neighbors_with_cost` (lines 21-38) inspects with `isinstance`. -/

/-- A Python value as far as `_get_neighbors_with_cost` can observe it.
The code only ever distinguishes primitive scalars, two-element
tuples/lists (the candidate weighted pairs), and everything else; other
tuples and objects are opaque hashable values (`pother`), other lists are
opaque unhashable values (`plistOther`). -/
inductive PyVal : Type
  | pint : ℤ → PyVal
  | pfloat : ℚ → PyVal
  | pstr : String → PyVal
  | pbool : Bool → PyVal
  | ptuple2 : PyVal → PyVal → PyVal
  | plist2 : PyVal → PyVal → PyVal
  | pother : ℕ → PyVal
  | plistOther : ℕ → PyVal
deriving DecidableEq

/-- `isinstance(v, (int, float, str, bool))`.  In Python `bool` is a
subclass of `int`, so `pbool` is matched by `int` as well. -/
def isPrimitive : PyVal → Bool
  | .pint _ => true
  | .pfloat _ => true
  | .pstr _ => true
  | .pbool _ => true
  | _ => false

/-- `isinstance(v, (int, float))`; `bool` is an `int` subclass. -/
def isNumeric : PyVal → Bool
  | .pint _ => true
  | .pfloat _ => true
  | .pbool _ => true
  | _ => false

/-- `float(v)` on a value for which `isNumeric` holds. -/
def toFloat : PyVal → ℚ
  | .pint n => (n : ℚ)
  | .pfloat q => q
  | .pbool b => if b then 1 else 0
  | _ => 0

/-- The two-element tuple/list shape check together with its components. -/
def pairParts : PyVal → Option (PyVal × PyVal)
  | .ptuple2 a b => some (a, b)
  | .plist2 a b => some (a, b)
  | _ => none

/-- The disambiguation test of `_get_neighbors_with_cost` line 32: a
two-element tuple/list whose second element is numeric and whose first
element is not a primitive scalar. -/
def weightedShape (v : PyVal) : Bool :=
  match pairParts v with
  | some (a, b) => isNumeric b && !(isPrimitive a)
  | none => false

/-- Whether a Python value can be a dict key / set member (`hashable`).
Lists are unhashable; tuples are hashable iff their elements are. -/
def hashable : PyVal → Bool
  | .plist2 _ _ => false
  | .plistOther _ => false
  | .ptuple2 a b => hashable a && hashable b
  | _ => true

/-- A neighbour entry that is neither usable as a bare node (unhashable)
nor a well-formed weighted pair under the disambiguation rule. -/
def Malformed (v : PyVal) : Prop := hashable v = false ∧ weightedShape v = false

instance (v : PyVal) : Decidable (Malformed v) := by unfold Malformed; infer_instance

/-- `_get_neighbors_with_cost(graph, node)` (`prac3.py` lines 21-38):
normalises each raw entry of `graph.get(node, [])` into a
`(neighbor, cost)` pair. -/
def get_neighbors_with_cost (graph : List (PyVal × List PyVal)) (node : PyVal) :
    List (PyVal × ℚ) :=
  ((graph.lookup node).getD []).map (fun nbr =>
    match pairParts nbr with
    | some (a, b) =>
        if isNumeric b && !(isPrimitive a) then (a, toFloat b) else (nbr, 1)
    | none => (nbr, 1))

/-! The search itself (`a_star`, lines 50-88) consumes the normalised
`(neighbor, cost)` pairs.  We embed it over an adjacency association list
`G : List (ℕ × List (ℕ × ℚ))` (the spec's Weighted Graph model); the raw
normalisation layer is analysed separately above. -/

/-- `graph.get(node, [])` for the normalised adjacency dict. -/
def nbrs (G : List (ℕ × List (ℕ × ℚ))) (x : ℕ) : List (ℕ × ℚ) :=
  (G.lookup x).getD []

/-- Pointwise update of a dict embedded as a total map to `Option`. -/
def upd {α : Type} (m : ℕ → Option α) (k : ℕ) (v : α) : ℕ → Option α :=
  fun x => if x = k then some v else m x

/-- The mutable state of the `a_star` main loop. -/
structure AState : Type where
  openS : List HEntry
  cameFrom : ℕ → Option ℕ
  g : ℕ → Option ℚ
  f : ℕ → Option ℚ
  closed : List ℕ
  cnt : ℕ

/-- One execution of the neighbour-relaxation body (lines 73-85) for a
single `(neighbor, cost)` pair. -/
def relax1 (goal : ℕ) (h : ℕ → ℕ → ℚ) (current : ℕ) (st : AState)
    (nc : ℕ × ℚ) : AState :=
  if nc.1 ∈ st.closed then st
  else
    match st.g current with
    | none => st
    | some gc =>
      let t := gc + nc.2
      let better : Bool :=
        match st.g nc.1 with
        | none => true
        | some gn => decide (t < gn)
      if better then
        { openS := st.openS ++ [(t + h nc.1 goal, st.cnt, nc.1)]
          cameFrom := upd st.cameFrom nc.1 current
          g := upd st.g nc.1 t
          f := upd st.f nc.1 (t + h nc.1 goal)
          closed := st.closed
          cnt := st.cnt + 1 }
      else st

/-- The full neighbour loop of one `a_star` iteration. -/
def relaxAll (G : List (ℕ × List (ℕ × ℚ))) (goal : ℕ) (h : ℕ → ℕ → ℚ)
    (current : ℕ) (st : AState) : AState :=
  (nbrs G current).foldl (relax1 goal h current) st

/-- `reconstruct_path` (lines 41-47), with fuel bounding the `while`
loop.  Returns `none` on fuel exhaustion (which the invariants rule out
for the states `a_star` produces). -/
def reconstruct_path (cf : ℕ → Option ℕ) : ℕ → ℕ → Option (List ℕ)
  | fuel, cur =>
    match cf cur with
    | none => some [cur]
    | some prev =>
      match fuel with
      | 0 => none
      | fuel' + 1 => (reconstruct_path cf fuel' prev).map (fun p => p ++ [cur])

/-- The `while open_set:` loop of `a_star` (lines 65-88), fuelled. -/
def aStarLoop (G : List (ℕ × List (ℕ × ℚ))) (goal : ℕ) (h : ℕ → ℕ → ℚ) :
    ℕ → AState → Option (List ℕ)
  | 0, _ => none
  | fuel + 1, st =>
    match popMin st.openS with
    | none => some []
    | some (e, rest) =>
      if e.2.2 = goal then
        reconstruct_path st.cameFrom (st.closed.length + 1) e.2.2
      else
        let closed' := if e.2.2 ∈ st.closed then st.closed else st.closed ++ [e.2.2]
        aStarLoop G goal h fuel
          (relaxAll G goal h e.2.2
            { openS := rest, cameFrom := st.cameFrom, g := st.g, f := st.f,
              closed := closed', cnt := st.cnt })

/-- The initial state built in lines 55-63. -/
def initState (start goal : ℕ) (h : ℕ → ℕ → ℚ) : AState :=
  { openS := [(h start goal, 0, start)]
    cameFrom := fun _ => none
    g := upd (fun _ => none) start 0
    f := upd (fun _ => none) start (h start goal)
    closed := []
    cnt := 1 }

/-- An upper bound on the number of loop iterations: one initial push plus
at most one relaxation push per adjacency entry of each (distinct) key. -/
def fuelB (G : List (ℕ × List (ℕ × ℚ))) : ℕ :=
  2 + (((G.map Prod.fst).dedup).map (fun k => (nbrs G k).length)).sum

/-- `a_star(graph, start, goal, heuristic)`.  The result is `some path`
when the embedded loop completes within the (provably sufficient) fuel. -/
def a_star (G : List (ℕ × List (ℕ × ℚ))) (start goal : ℕ)
    (h : ℕ → ℕ → ℚ) : Option (List ℕ) :=
  aStarLoop G goal h (fuelB G) (initState start goal h)

end Prac3

namespace Prac6

/-! ### `src/prac6.py` — Kruskal's and Prim's algorithms -/

/-- The disjoint-set state: `parent`/`rank` dicts embedded as total maps.
Python raises `KeyError` for unregistered nodes; theorems therefore carry
the hypothesis that all touched nodes are registered. -/
structure UF : Type where
  parent : ℕ → ℕ
  rank : ℕ → ℕ

/-- The inner `find` of `kruskal_mst` (lines 37-41): iterative lookup with
path halving (`parent[x] = parent[parent[x]]; x = parent[x]`), fuelled. -/
def find : ℕ → (ℕ → ℕ) → ℕ → ℕ × (ℕ → ℕ)
  | 0, p, x => (x, p)
  | fuel + 1, p, x =>
    if p x = x then (x, p)
    else
      let p' := fun y => if y = x then p (p x) else p y
      find fuel p' (p' x)

/-- The inner `union` of `kruskal_mst` (lines 43-53): union by rank. -/
def union (fuel : ℕ) (uf : UF) (x y : ℕ) : Bool × UF :=
  let fx := find fuel uf.parent x
  let fy := find fuel fx.2 y
  let rx := fx.1
  let ry := fy.1
  if rx = ry then (false, ⟨fy.2, uf.rank⟩)
  else if uf.rank rx < uf.rank ry then
    (true, ⟨fun z => if z = rx then ry else fy.2 z, uf.rank⟩)
  else
    (true, ⟨fun z => if z = ry then rx else fy.2 z,
            if uf.rank rx = uf.rank ry then
              (fun z => if z = rx then uf.rank rx + 1 else uf.rank z)
            else uf.rank⟩)

/-- The edge loop of `kruskal_mst` (lines 58-67), including the early
break once `len(mst) == len(nodes) - 1` (Python integers: the comparison
is taken over `ℤ`, so an empty node list gives `-1`, never reached). -/
def kruskalGo (fuel nNodes : ℕ) :
    List Edg → UF → List Edg → ℚ → List Edg × ℚ
  | [], _, mst, tot => (mst, tot)
  | (u, v, w) :: rest, uf, mst, tot =>
    match union fuel uf u v with
    | (false, uf') => kruskalGo fuel nNodes rest uf' mst tot
    | (true, uf') =>
      let mst' := mst ++ [(u, v, w)]
      if (mst'.length : ℤ) = (nNodes : ℤ) - 1 then (mst', tot + w)
      else kruskalGo fuel nNodes rest uf' mst' (tot + w)

/-- `kruskal_mst(edges, nodes)` (lines 23-68).  `sorted(edges, key=…)` is
a stable sort by weight, embedded with `List.mergeSort`. -/
def kruskal_mst (edges : List Edg) (nodes : List ℕ) : List Edg × ℚ :=
  kruskalGo (nodes.length + 1) nodes.length
    (edges.mergeSort (fun a b => decide (a.2.2 ≤ b.2.2)))
    ⟨fun n => n, fun _ => 0⟩ [] 0

/-- The adjacency dict `node -> list of (neighbor, weight)`. -/
abbrev Adj : Type := List (ℕ × List (ℕ × ℚ))

/-- `adj.get(v, [])`. -/
def adjGet (adj : Adj) (x : ℕ) : List (ℕ × ℚ) := (adj.lookup x).getD []

/-- The `while heap:` loop of `prim_mst` (lines 104-113), fuelled; the
third result component is the final `local_visited` set (mutated in place
by the Python code). -/
def primGo (adj : Adj) :
    ℕ → List HEntry → List ℕ → List Edg → ℚ → List Edg × ℚ × List ℕ
  | 0, _, vis, mst, tot => (mst, tot, vis)
  | fuel + 1, heap, vis, mst, tot =>
    match popMin heap with
    | none => (mst, tot, vis)
    | some ((w, u, v), rest) =>
      if v ∈ vis then primGo adj fuel rest vis mst tot
      else
        let vis' := vis ++ [v]
        let pushes := ((adjGet adj v).filter (fun nc => decide (nc.1 ∉ vis'))).map
          (fun nc => (nc.2, v, nc.1))
        primGo adj fuel (rest ++ pushes) vis' (mst ++ [(u, v, w)]) (tot + w)

/-- Fuel for `primGo`: every iteration pops one entry, and entries only
come from the initial seeding plus at most one push per adjacency entry of
each (distinct) key. -/
def primFuel (adj : Adj) (heap0 : List HEntry) : ℕ :=
  heap0.length + (((adj.map Prod.fst).dedup).map (fun k => (adjGet adj k).length)).sum + 1

/-- `prim_mst(adj, start, visited)` (lines 71-115).  `start = none` and
`visited = none` are the Python `None` defaults; the second component of
the result is the final state of the (shared, mutated) visited set. -/
def prim_mst (adj : Adj) (start : Option ℕ) (visited : Option (List ℕ)) :
    (List Edg × ℚ) × List ℕ :=
  match adj with
  | [] => (([], 0), visited.getD [])
  | (k, _) :: _ =>
    let s := start.getD k
    let vis := visited.getD []
    if s ∈ vis then (([], 0), vis)
    else
      let vis1 := vis ++ [s]
      let heap0 := (adjGet adj s).map (fun nc => (nc.2, s, nc.1))
      let r := primGo adj (primFuel adj heap0) heap0 vis1 [] 0
      ((r.1, r.2.1), r.2.2)

/-- The component loop of `prim_full` (lines 125-133), iterating over the
dict keys in order with the shared visited set. -/
def primFullGo (adj : Adj) :
    List (ℕ × List (ℕ × ℚ)) → List Edg → ℚ → List ℕ → List Edg × ℚ × List ℕ
  | [], acc, tot, vis => (acc, tot, vis)
  | (k, _) :: rest, acc, tot, vis =>
    if k ∈ vis then primFullGo adj rest acc tot vis
    else
      let r := prim_mst adj (some k) (some vis)
      primFullGo adj rest (acc ++ r.1.1) (tot + r.1.2) r.2

/-- `prim_full(adj)` (lines 118-134): spanning forest across all
components. -/
def prim_full (adj : Adj) : List Edg × ℚ :=
  let r := primFullGo adj adj [] 0 []
  (r.1, r.2.1)

/-- `build_adj_from_edges(edges)` (lines 137-143): `setdefault` + append,
building the adjacency dict in insertion order. -/
def upsert (adj : Adj) (k : ℕ) (v : ℕ × ℚ) : Adj :=
  match adj with
  | [] => [(k, [v])]
  | (k', l) :: rest =>
    if k' = k then (k', l ++ [v]) :: rest
    else (k', l) :: upsert rest k v

/-- The edge loop of `build_adj_from_edges`. -/
def build_adj_from_edges (edges : List Edg) : Adj :=
  edges.foldl (fun adj e => upsert (upsert adj e.1 (e.2.1, e.2.2)) e.2.1 (e.1, e.2.2)) []

end Prac6

namespace Prac8

/-! ### `src/prac8.py` — Kruskal with the `UnionFind` class

`Edge(src, dst, weight)` is embedded as the triple `(src, dst, weight)`;
the `verbose` printing and `time.sleep` of `kruskal_mst` have no effect on
the returned value and are omitted. -/

/-- `UnionFind.find` (lines 26-30): recursive find with full path
compression, fuelled. -/
def find : ℕ → (ℕ → ℕ) → ℕ → ℕ × (ℕ → ℕ)
  | 0, p, x => (x, p)
  | fuel + 1, p, x =>
    if p x = x then (x, p)
    else
      let r := find fuel p (p x)
      (r.1, fun y => if y = x then r.1 else r.2 y)

/-- `UnionFind.union` (lines 32-46): union by rank. -/
def union (fuel : ℕ) (uf : Prac6.UF) (x y : ℕ) : Bool × Prac6.UF :=
  let fx := find fuel uf.parent x
  let fy := find fuel fx.2 y
  let px := fx.1
  let py := fy.1
  if px = py then (false, ⟨fy.2, uf.rank⟩)
  else if uf.rank px < uf.rank py then
    (true, ⟨fun z => if z = px then py else fy.2 z, uf.rank⟩)
  else if uf.rank py < uf.rank px then
    (true, ⟨fun z => if z = py then px else fy.2 z, uf.rank⟩)
  else
    (true, ⟨fun z => if z = py then px else fy.2 z,
            fun z => if z = px then uf.rank px + 1 else uf.rank z⟩)

/-- The edge loop of `kruskal_mst` (lines 86-96); here the early-break
test `len(mst) == len(nodes) - 1` runs before the union. -/
def kruskalGo (fuel nNodes : ℕ) :
    List Edg → Prac6.UF → List Edg → ℚ → List Edg × ℚ
  | [], _, mst, tot => (mst, tot)
  | e :: rest, uf, mst, tot =>
    if (mst.length : ℤ) = (nNodes : ℤ) - 1 then (mst, tot)
    else
      match union fuel uf e.1 e.2.1 with
      | (false, uf') => kruskalGo fuel nNodes rest uf' mst tot
      | (true, uf') => kruskalGo fuel nNodes rest uf' (mst ++ [e]) (tot + e.2.2)

/-- `kruskal_mst(edges, nodes)` (lines 60-98). -/
def kruskal_mst (edges : List Edg) (nodes : List ℕ) : List Edg × ℚ :=
  kruskalGo (nodes.length + 1) nodes.length
    (edges.mergeSort (fun a b => decide (a.2.2 ≤ b.2.2)))
    ⟨fun n => n, fun _ => 0⟩ [] 0

end Prac8

/-! ### Property language: walks, reachability, connectivity, forests -/

/-- A directed step of the `a_star` adjacency structure. -/
def dstep (G : List (ℕ × List (ℕ × ℚ))) (x y : ℕ) : Prop :=
  ∃ c, (y, c) ∈ Prac3.nbrs G x

/-- Directed reachability in the `a_star` adjacency structure. -/
def Reach (G : List (ℕ × List (ℕ × ℚ))) : ℕ → ℕ → Prop :=
  Relation.ReflTransGen (dstep G)

/-- A weighted walk `p` (node list) from `a` to `t` of total weight `w` in
the `a_star` adjacency structure. -/
inductive Walk (G : List (ℕ × List (ℕ × ℚ))) : ℕ → ℕ → List ℕ → ℚ → Prop
  | nil (a : ℕ) : Walk G a a [a] 0
  | cons {a b t : ℕ} {p : List ℕ} {w c : ℚ} :
      (b, c) ∈ Prac3.nbrs G a → Walk G b t p w → Walk G a t (a :: p) (c + w)

/-- An undirected step along an edge list. -/
def estep (E : List Edg) (x y : ℕ) : Prop :=
  ∃ w, (x, y, w) ∈ E ∨ (y, x, w) ∈ E

/-- Undirected connectivity over an edge list. -/
def Conn (E : List Edg) : ℕ → ℕ → Prop :=
  Relation.ReflTransGen (estep E)

/-- Total weight of an edge list. -/
def weight (A : List Edg) : ℚ := (A.map (fun e => e.2.2)).sum

/-- An edge list built by only ever adding edges between distinct
components (no edge ever closes a cycle). -/
inductive Forest : List Edg → Prop
  | nil : Forest []
  | snoc (A : List Edg) (e : Edg) : Forest A → ¬ Conn A e.1 e.2.1 → Forest (A ++ [e])

/-- An edge list is acyclic: in some order, it is a forest. -/
def Acyclic (A : List Edg) : Prop := ∃ B, A.Perm B ∧ Forest B

/-- `T` is a sub-multiset of the graph's edges connecting all of `ns`. -/
def SpanningConn (E : List Edg) (ns : List ℕ) (T : List Edg) : Prop :=
  T.Subperm E ∧ ∀ u ∈ ns, ∀ v ∈ ns, Conn T u v

/-- Well-formed graph input for the MST constructors: registered node
list without duplicates, every edge endpoint registered. -/
def WFGraph (E : List Edg) (ns : List ℕ) : Prop :=
  ns.Nodup ∧ ∀ e ∈ E, e.1 ∈ ns ∧ e.2.1 ∈ ns

instance (E : List Edg) (ns : List ℕ) : Decidable (WFGraph E ns) := by
  unfold WFGraph; infer_instance

/-- The edge list denoted by an adjacency dict (each adjacency entry as a
directed edge triple). -/
def edgesOfAdj (adj : Prac6.Adj) : List Edg :=
  adj.flatMap (fun p => p.2.map (fun nc => (p.1, nc.1, nc.2)))

/-- The same undirected edge with its endpoints swapped.
(`build_adj_from_edges` records every edge in both orientations.) -/
def eflip (e : Edg) : Edg := (e.2.1, e.1, e.2.2)

/-- A node walk through the undirected edge list `T` (the node sequence
visited, including both ends). -/
inductive EWalk (T : List Edg) : ℕ → ℕ → List ℕ → Prop
  | nil (x : ℕ) : EWalk T x x [x]
  | cons {x y z : ℕ} {p : List ℕ} :
      estep T x y → EWalk T y z p → EWalk T x z (x :: p)

/-- The adjacency dict represents an undirected graph: every adjacency
entry has a mirror entry.  (Quantifying over the keys loses nothing: a
non-key's adjacency list is empty.) -/
def SymAdj (adj : Prac6.Adj) : Prop :=
  ∀ u ∈ adj.map Prod.fst, ∀ nc ∈ Prac6.adjGet adj u,
    (u, nc.2) ∈ Prac6.adjGet adj nc.1

instance (adj : Prac6.Adj) : Decidable (SymAdj adj) := by
  unfold SymAdj; infer_instance

/-- `E` has exactly `n` connected components over the node set `ns`:
some `n`-element system of pairwise-disconnected representatives covers
every registered node. -/
def NumComponents (ns : List ℕ) (E : List Edg) (n : ℕ) : Prop :=
  ∃ reps : List ℕ, reps.length = n ∧ (∀ r ∈ reps, r ∈ ns) ∧
    reps.Pairwise (fun a b => ¬ Conn E a b) ∧
    ∀ x ∈ ns, ∃ r ∈ reps, Conn E r x

/-! ### Loop potentials used to prove the supplied fuel sufficient -/

/-- Potential of an `a_star` state: pending heap entries plus the
relaxation pushes still possible (degrees of not-yet-closed keys). -/
def phiA (G : List (ℕ × List (ℕ × ℚ))) (st : Prac3.AState) : ℕ :=
  st.openS.length +
    ((((G.map Prod.fst).dedup).filter (fun k => decide (k ∉ st.closed))).map
      (fun k => (Prac3.nbrs G k).length)).sum

/-- Potential of a `prim_mst` loop state. -/
def psiP (adj : Prac6.Adj) (heap : List HEntry) (vis : List ℕ) : ℕ :=
  heap.length +
    ((((adj.map Prod.fst).dedup).filter (fun k => decide (k ∉ vis))).map
      (fun k => (Prac6.adjGet adj k).length)).sum

/-! ### The claimed priority-frontier discipline for Prim (spec model) -/

/-- Modelled from the spec: the claim of §4.3 states that the
frontier-growth MST constructor pushes `(priority, insertion-sequence,
Node)` entries with a strictly increasing insertion counter and pops
equal priorities in insertion order.  This variant of `prim_mst` realises
that discipline literally (entries `(weight, seq, from, to)`, ordered by
`(weight, seq)`), for comparison with the source's `prim_mst`. -/
def popMinSeq (l : List (ℚ × ℕ × ℕ × ℕ)) : Option ((ℚ × ℕ × ℕ × ℕ) × List (ℚ × ℕ × ℕ × ℕ)) :=
  match l with
  | [] => none
  | e :: es =>
    let m := es.foldl
      (fun m x => if x.1 < m.1 ∨ (x.1 = m.1 ∧ x.2.1 < m.2.1) then x else m) e
    some (m, rmFirst l m)

/-- The loop of the spec-modelled Prim variant. -/
def primSeqGo (adj : Prac6.Adj) :
    ℕ → List (ℚ × ℕ × ℕ × ℕ) → ℕ → List ℕ → List Edg → ℚ → List Edg × ℚ
  | 0, _, _, _, mst, tot => (mst, tot)
  | fuel + 1, heap, seq, vis, mst, tot =>
    match popMinSeq heap with
    | none => (mst, tot)
    | some ((w, _, u, v), rest) =>
      if v ∈ vis then primSeqGo adj fuel rest seq vis mst tot
      else
        let vis' := vis ++ [v]
        let pushes := (((Prac6.adjGet adj v).filter (fun nc => decide (nc.1 ∉ vis'))).enum.map
          (fun inc => (inc.2.2, seq + inc.1, v, inc.2.1)))
        primSeqGo adj fuel (rest ++ pushes) (seq + pushes.length) vis' (mst ++ [(u, v, w)]) (tot + w)

/-- Modelled from the spec: Prim under the claimed `(priority, sequence,
Node)` frontier discipline. -/
def primFrontierSpec (adj : Prac6.Adj) (start : ℕ) : List Edg × ℚ :=
  match adj with
  | [] => ([], 0)
  | _ =>
    let heap0 := ((Prac6.adjGet adj start).enum.map
      (fun inc => (inc.2.2, inc.1, start, inc.2.1)))
    primSeqGo adj (Prac6.primFuel adj (heap0.map (fun e => (e.1, e.2.1, e.2.2.1))))
      heap0 heap0.length [start] [] 0

/-! ### Union-find semantics -/

/-- `y` is an ancestor of `x` under the parent map `p` (reached by
following parent links). -/
def ChainTo (p : ℕ → ℕ) (x y : ℕ) : Prop :=
  Relation.ReflTransGen (fun a b => b = p a) x y

/-- `r` is the representative reached from `x` by following `p`. -/
def Root (p : ℕ → ℕ) (x r : ℕ) : Prop :=
  ChainTo p x r ∧ p r = r

/-- `x` and `y` lie in the same set of the parent map `p`. -/
def sameRoot (p : ℕ → ℕ) (x y : ℕ) : Prop :=
  ∃ r, Root p x r ∧ Root p y r

/-- Structural invariant of the union-by-rank forests built by the code:
parents of registered nodes are registered, and the rank strictly
increases along parent links.  (It guarantees that every parent chain
reaches its root within `ns.length` steps.) -/
def PInv (ns : List ℕ) (p rk : ℕ → ℕ) : Prop :=
  ∀ x ∈ ns, p x ∈ ns ∧ (p x ≠ x → rk x < rk (p x))

instance (ns : List ℕ) (p rk : ℕ → ℕ) : Decidable (PInv ns p rk) := by
  unfold PInv; infer_instance

/-- Termination measure for parent chains: the number of registered nodes
of strictly larger rank. -/
def rkM (ns : List ℕ) (rk : ℕ → ℕ) (x : ℕ) : ℕ :=
  (ns.filter (fun y => decide (rk x < rk y))).length

/-- Number of set representatives among the registered nodes. -/
def rootsCount (ns : List ℕ) (p : ℕ → ℕ) : ℕ :=
  (ns.filter (fun x => decide (p x = x))).length

/-- The counter discipline of the `a_star` frontier: every pending entry
carries a push counter below `push_count`, and no two entries share a
counter. -/
def CtrInv (st : Prac3.AState) : Prop :=
  (∀ e ∈ st.openS, e.2.1 < st.cnt) ∧ (st.openS.map (fun e => e.2.1)).Nodup

/-- The shape discipline of the `prim_mst` frontier: every pending entry
is a `(weight, from_node, to_node)` triple whose `from_node` is already
visited and which quotes a real adjacency entry. -/
def PrimHeapInv (adj : Prac6.Adj) (vis : List ℕ) (heap : List HEntry) : Prop :=
  ∀ e ∈ heap, e.2.1 ∈ vis ∧ (e.2.2, e.1) ∈ Prac6.adjGet adj e.2.1

/-- The invariants of the `prim_mst` main loop between iterations.
`vis0` is the part of the visited set inherited from earlier calls (the
shared `visited` argument); `vnew` lists the nodes this call has visited,
in order, starting with the component's start node. -/
structure PrimInv (adj : Prac6.Adj) (heap : List HEntry) (vis0 vnew : List ℕ)
    (mst : List Edg) : Prop where
  heapReal : ∀ e ∈ heap, e.2.1 ∈ vnew ∧ (e.2.2, e.1) ∈ Prac6.adjGet adj e.2.1
  mstReal : ∀ g ∈ mst, g.1 ∈ vnew ∧ g.2.1 ∈ vnew ∧
    (g.2.1, g.2.2) ∈ Prac6.adjGet adj g.1
  connNew : ∀ x ∈ vnew, ∀ y ∈ vnew, Conn mst x y
  forest : Forest mst
  closure : ∀ x ∈ vnew, ∀ nc ∈ Prac6.adjGet adj x,
    nc.1 ∈ vis0 ++ vnew ∨ (nc.2, x, nc.1) ∈ heap
  keysNew : ∀ x ∈ vnew, x ∈ adj.map Prod.fst
  count : vnew.length = mst.length + 1
  nodup : (vis0 ++ vnew).Nodup

/-- The partial tree `mst` extends to some minimum-weight edge set
connecting all keys of `adj` within the adjacency dict's edge list. -/
def PrimMin (adj : Prac6.Adj) (mst : List Edg) : Prop :=
  ∃ T, SpanningConn (edgesOfAdj adj) (adj.map Prod.fst) T ∧
    (∀ q, SpanningConn (edgesOfAdj adj) (adj.map Prod.fst) q →
      weight T ≤ weight q) ∧
    mst.Subperm T

/-! ### Invariants of the `a_star` main loop -/

/-- The relaxation along the adjacency entry `vc` of `u` has been
performed: either the neighbour is closed, or its best-known cost is at
most `g(u) +` edge cost. -/
def RelaxedAt (st : Prac3.AState) (u : ℕ) (vc : ℕ × ℚ) : Prop :=
  vc.1 ∈ st.closed ∨
    ∃ gu gv, st.g u = some gu ∧ st.g vc.1 = some gv ∧ gv ≤ gu + vc.2

/-- The sign-independent invariants of the `a_star` loop state.  The
`exc` list excuses nodes (the node currently being expanded) from the
closed-nodes-are-fully-relaxed requirement. -/
structure ABaseE (G : List (ℕ × List (ℕ × ℚ))) (start goal : ℕ)
    (h : ℕ → ℕ → ℚ) (exc : List ℕ) (st : Prac3.AState) : Prop where
  closedNodup : st.closed.Nodup
  goalNotClosed : goal ∉ st.closed
  startDom : ∃ q, st.g start = some q
  closedDom : ∀ u ∈ st.closed, ∃ q, st.g u = some q
  closedRelaxed : ∀ u ∈ st.closed, u ∉ exc → ∀ vc ∈ Prac3.nbrs G u, RelaxedAt st u vc
  heapDom : ∀ e ∈ st.openS, ∃ q, st.g e.2.2 = some q
  fresh : ∀ v gv, st.g v = some gv → v ∉ st.closed →
      ∃ c, (gv + h v goal, c, v) ∈ st.openS
  entryGe : ∀ e ∈ st.openS, ∃ gv, st.g e.2.2 = some gv ∧ gv + h e.2.2 goal ≤ e.1
  gWalk : ∀ v q, st.g v = some q → ∃ p, Walk G start v p q
  cfClosed : ∀ v u, st.cameFrom v = some u → u ∈ st.closed ∧
      ∃ c gu gv, (v, c) ∈ Prac3.nbrs G u ∧ st.g u = some gu ∧
        st.g v = some gv ∧ gv = gu + c
  cfOrder : ∀ v u, st.cameFrom v = some u → v ∈ st.closed →
      st.closed.indexOf u < st.closed.indexOf v
  domCf : ∀ v q, st.g v = some q → v = start ∨ st.cameFrom v ≠ none

/-- The full invariant (no excused node). -/
def ABase (G : List (ℕ × List (ℕ × ℚ))) (start goal : ℕ) (h : ℕ → ℕ → ℚ)
    (st : Prac3.AState) : Prop :=
  ABaseE G start goal h [] st

/-- The optimality invariant of the `a_star` loop: the recorded cost of
every closed node undercuts every walk from `start` to it, and the
recorded cost of `start` never exceeds `0`. -/
def AOpt (G : List (ℕ × List (ℕ × ℚ))) (start : ℕ)
    (st : Prac3.AState) : Prop :=
  (∀ u ∈ st.closed, ∀ gu, st.g u = some gu →
    ∀ p w, Walk G start u p w → gu ≤ w) ∧
  (∀ gs, st.g start = some gs → gs ≤ 0)

/-- The ancestor-update condition: every registered node's new parent is
either unchanged or an ancestor of its old parent. -/
def AncUpd (ns : List ℕ) (p q : ℕ → ℕ) : Prop :=
  ∀ y ∈ ns, q y = p y ∨ ChainTo p (p y) (q y)

/-! ## Theorems -/

section RmFirstLemmas

variable {α : Type} [DecidableEq α]

theorem rmFirst_perm {a : α} {l : List α} (h : a ∈ l) : l.Perm (a :: rmFirst l a) := by
  induction l with
  | nil => simp at h
  | cons x xs ih =>
    by_cases hx : x = a
    · subst hx
      simp [rmFirst]
    · rcases List.mem_cons.mp h with rfl | h
      · exact absurd rfl hx
      · have h1 : (x :: xs).Perm (x :: (a :: rmFirst xs a)) := List.Perm.cons x (ih h)
        have h2 : (x :: (a :: rmFirst xs a)).Perm (a :: (x :: rmFirst xs a)) :=
          List.Perm.swap a x _
        have h3 : a :: (x :: rmFirst xs a) = a :: rmFirst (x :: xs) a := by
          simp [rmFirst, hx]
        exact h3 ▸ (h1.trans h2)

theorem rmFirst_length {a : α} {l : List α} (h : a ∈ l) :
    (rmFirst l a).length + 1 = l.length := by
  have := (rmFirst_perm h).length_eq
  simpa using this.symm

theorem rmFirst_subset {a x : α} {l : List α} (h : x ∈ rmFirst l a) : x ∈ l := by
  induction l with
  | nil => simp [rmFirst] at h
  | cons y ys ih =>
    by_cases hy : y = a
    · subst hy
      simp [rmFirst] at h
      simp [h]
    · simp [rmFirst, hy] at h
      rcases h with rfl | h
      · simp
      · simp [ih h]

theorem mem_rmFirst_of_ne {a x : α} {l : List α} (hx : x ∈ l) (hne : x ≠ a) :
    x ∈ rmFirst l a := by
  induction l with
  | nil => simp at hx
  | cons y ys ih =>
    by_cases hy : y = a
    · subst hy
      simp [rmFirst]
      rcases List.mem_cons.mp hx with rfl | hx
      · exact absurd rfl hne
      · exact hx
    · simp [rmFirst, hy]
      rcases List.mem_cons.mp hx with rfl | hx
      · exact Or.inl rfl
      · exact Or.inr (ih hx)

theorem rmFirst_eq_of_not_mem {a : α} {l : List α} (h : a ∉ l) : rmFirst l a = l := by
  induction l with
  | nil => rfl
  | cons x xs ih =>
    have hx : x ≠ a := fun hxa => h (by simp [hxa])
    simp only [rmFirst, if_neg hx]
    rw [ih (fun hm => h (List.mem_cons_of_mem _ hm))]

end RmFirstLemmas

section HeapLemmas

theorem hLe_refl (a : HEntry) : hLe a a := Or.inr rfl

theorem hLt_trichot (a b : HEntry) : hLt a b ∨ a = b ∨ hLt b a := by
  obtain ⟨q, i, n⟩ := a
  obtain ⟨q', i', n'⟩ := b
  rcases lt_trichotomy q q' with h | h | h
  · exact Or.inl (Or.inl h)
  · rcases lt_trichotomy i i' with h2 | h2 | h2
    · exact Or.inl (Or.inr ⟨h, Or.inl h2⟩)
    · rcases lt_trichotomy n n' with h3 | h3 | h3
      · exact Or.inl (Or.inr ⟨h, Or.inr ⟨h2, h3⟩⟩)
      · exact Or.inr (Or.inl (by simp [h, h2, h3]))
      · exact Or.inr (Or.inr (Or.inr ⟨h.symm, Or.inr ⟨h2.symm, h3⟩⟩))
    · exact Or.inr (Or.inr (Or.inr ⟨h.symm, Or.inl h2⟩))
  · exact Or.inr (Or.inr (Or.inl h))

theorem hLt_trans {a b c : HEntry} (h1 : hLt a b) (h2 : hLt b c) : hLt a c := by
  obtain ⟨q, i, n⟩ := a
  obtain ⟨q', i', n'⟩ := b
  obtain ⟨q'', i'', n''⟩ := c
  rcases h1 with h1 | ⟨e1, h1⟩
  · rcases h2 with h2 | ⟨e2, h2⟩
    · exact Or.inl (h1.trans h2)
    · exact Or.inl (e2 ▸ h1)
  · rcases h2 with h2 | ⟨e2, h2⟩
    · exact Or.inl (e1 ▸ h2)
    · refine Or.inr ⟨e1.trans e2, ?_⟩
      rcases h1 with h1 | ⟨f1, h1⟩
      · rcases h2 with h2 | ⟨f2, h2⟩
        · exact Or.inl (h1.trans h2)
        · exact Or.inl (f2 ▸ h1)
      · rcases h2 with h2 | ⟨f2, h2⟩
        · exact Or.inl (f1 ▸ h2)
        · exact Or.inr ⟨f1.trans f2, h1.trans h2⟩

theorem hLe_trans {a b c : HEntry} (h1 : hLe a b) (h2 : hLe b c) : hLe a c := by
  rcases h1 with h1 | rfl
  · rcases h2 with h2 | rfl
    · exact Or.inl (hLt_trans h1 h2)
    · exact Or.inl h1
  · exact h2

theorem minEntry_spec (e : HEntry) (es : List HEntry) :
    (minEntry e es = e ∨ minEntry e es ∈ es) ∧
      hLe (minEntry e es) e ∧ ∀ x ∈ es, hLe (minEntry e es) x := by
  induction es generalizing e with
  | nil => exact ⟨Or.inl rfl, hLe_refl e, by simp⟩
  | cons a as ih =>
    have hstep : minEntry e (a :: as) = minEntry (if hLt a e then a else e) as := rfl
    by_cases hae : hLt a e
    · rw [hstep, if_pos hae]
      obtain ⟨hmem, hle, hall⟩ := ih a
      refine ⟨Or.inr ?_, ?_, ?_⟩
      · rcases hmem with h | h
        · simp [h]
        · simp [h]
      · exact hLe_trans hle (Or.inl hae)
      · intro x hx
        rcases List.mem_cons.mp hx with rfl | hx
        · exact hle
        · exact hall x hx
    · rw [hstep, if_neg hae]
      obtain ⟨hmem, hle, hall⟩ := ih e
      refine ⟨?_, hle, ?_⟩
      · rcases hmem with h | h
        · exact Or.inl h
        · exact Or.inr (by simp [h])
      · intro x hx
        rcases List.mem_cons.mp hx with rfl | hx
        · refine hLe_trans hle ?_
          rcases hLt_trichot x e with h | h | h
          · exact absurd h hae
          · exact Or.inr h.symm
          · exact Or.inl h
        · exact hall x hx

theorem popMin_eq_none {l : List HEntry} : popMin l = none ↔ l = [] := by
  cases l <;> simp [popMin]

theorem popMin_some {l : List HEntry} {m : HEntry} {r : List HEntry}
    (h : popMin l = some (m, r)) :
    m ∈ l ∧ r = rmFirst l m ∧ (∀ x ∈ l, hLe m x) ∧ l.Perm (m :: r) := by
  match l with
  | [] => simp [popMin] at h
  | e :: es =>
    simp only [popMin, Option.some.injEq, Prod.mk.injEq] at h
    obtain ⟨rfl, rfl⟩ := h
    obtain ⟨hmem, hle, hall⟩ := minEntry_spec e es
    have hm : minEntry e es ∈ e :: es := by
      rcases hmem with h | h
      · simp [h]
      · simp [h]
    refine ⟨hm, rfl, ?_, rmFirst_perm hm⟩
    intro x hx
    rcases List.mem_cons.mp hx with rfl | hx
    · exact hle
    · exact hall x hx

theorem popMin_length {l : List HEntry} {m : HEntry} {r : List HEntry}
    (h : popMin l = some (m, r)) : r.length + 1 = l.length := by
  obtain ⟨hm, rfl, -, -⟩ := popMin_some h
  exact rmFirst_length hm

end HeapLemmas

section C5

/-- C5: counterexample.  The claim states that a malformed neighbour
entry (neither a bare node nor a well-formed weighted pair) makes the
normalisation fail fast and is never silently coerced into a
`(neighbor, cost)` pair.  In fact the two-element list
`["A", "B"]` — unhashable, hence unusable as a node, and not a weighted
pair since its second element is not numeric — is silently returned as
the coerced pair `(["A", "B"], 1.0)`. -/
theorem c5_counterexample :
    Prac3.Malformed (.plist2 (.pstr "A") (.pstr "B")) ∧
    Prac3.get_neighbors_with_cost
        [(Prac3.PyVal.pint 0, [Prac3.PyVal.plist2 (.pstr "A") (.pstr "B")])]
        (Prac3.PyVal.pint 0)
      = [(Prac3.PyVal.plist2 (.pstr "A") (.pstr "B"), 1)] :=
  ⟨by decide, by decide⟩

/-- C5 (amended): the weighted-graph normalisation never fails: it
produces exactly one `(neighbor, cost)` pair per raw entry, and every
malformed entry (neither hashable nor matching the weighted-pair
disambiguation rule) is silently coerced to the pair `(entry, 1.0)`. -/
theorem c5_theorem :
    (∀ (graph : List (Prac3.PyVal × List Prac3.PyVal)) (node : Prac3.PyVal),
      (Prac3.get_neighbors_with_cost graph node).length
        = ((graph.lookup node).getD []).length) ∧
    (∀ (graph : List (Prac3.PyVal × List Prac3.PyVal)) (node e : Prac3.PyVal),
      Prac3.Malformed e → e ∈ (graph.lookup node).getD [] →
      (e, (1 : ℚ)) ∈ Prac3.get_neighbors_with_cost graph node) := by
  constructor
  · intro graph node
    unfold Prac3.get_neighbors_with_cost
    exact List.length_map _ _
  · intro graph node e hm he
    unfold Prac3.get_neighbors_with_cost
    refine List.mem_map.mpr ⟨e, he, ?_⟩
    have hws := hm.2
    unfold Prac3.weightedShape at hws
    cases hpp : Prac3.pairParts e with
    | none => simp [hpp]
    | some ab =>
      obtain ⟨a, b⟩ := ab
      rw [hpp] at hws
      simp only [] at hws
      simp [hpp, hws]

/-- C5 witness: the amended theorem applied to the concrete malformed
entry of the counterexample. -/
theorem c5_witness :
    (Prac3.PyVal.plist2 (.pstr "A") (.pstr "B"), (1 : ℚ)) ∈
      Prac3.get_neighbors_with_cost
        [(Prac3.PyVal.pint 0, [Prac3.PyVal.plist2 (.pstr "A") (.pstr "B")])]
        (Prac3.PyVal.pint 0) :=
  c5_theorem.2 _ _ _ (by decide) (by decide)

end C5

section C10

/-- C10: for every graph and heuristic, `a_star(graph, start, start, h)`
returns the one-element path `[start]`, even when `start` is not a key of
the graph mapping: the initial frontier entry names the goal, so the
first iteration reconstructs the trivial path before any neighbour
lookup. -/
theorem c10_theorem (G : List (ℕ × List (ℕ × ℚ))) (s : ℕ) (h : ℕ → ℕ → ℚ) :
    Prac3.a_star G s s h = some [s] := by
  obtain ⟨k, hk⟩ : ∃ k, Prac3.fuelB G = k + 1 :=
    ⟨1 + (((G.map Prod.fst).dedup).map (fun k => (Prac3.nbrs G k).length)).sum, by
      simp [Prac3.fuelB]; ring⟩
  unfold Prac3.a_star
  rw [hk]
  simp [Prac3.aStarLoop, Prac3.initState, popMin, minEntry, rmFirst,
    Prac3.reconstruct_path]

end C10

section C9

theorem weight_append (A B : List Edg) : weight (A ++ B) = weight A + weight B := by
  simp [weight]

theorem weight_single (e : Edg) : weight [e] = e.2.2 := by
  simp [weight]

theorem weight_nil : weight [] = 0 := rfl

theorem kruskal6Go_weight (f n : ℕ) :
    ∀ (E : List Edg) (uf : Prac6.UF) (mst : List Edg) (tot : ℚ),
      (Prac6.kruskalGo f n E uf mst tot).2 + weight mst
        = tot + weight (Prac6.kruskalGo f n E uf mst tot).1 := by
  intro E
  induction E with
  | nil =>
    intro uf mst tot
    simp only [Prac6.kruskalGo]
  | cons e rest ih =>
    intro uf mst tot
    obtain ⟨u, v, w⟩ := e
    cases hu : Prac6.union f uf u v with
    | mk b uf' =>
      cases b with
      | false =>
        simp only [Prac6.kruskalGo, hu]
        exact ih uf' mst tot
      | true =>
        simp only [Prac6.kruskalGo, hu]
        by_cases hlen : (((mst ++ [(u, v, w)]).length : ℤ) = (n : ℤ) - 1)
        · simp only [if_pos hlen, weight_append, weight_single]
          ring
        · simp only [if_neg hlen]
          have H := ih uf' (mst ++ [(u, v, w)]) (tot + w)
          rw [weight_append, weight_single] at H
          linarith

theorem primGo_weight (adj : Prac6.Adj) :
    ∀ (fuel : ℕ) (heap : List HEntry) (vis : List ℕ) (mst : List Edg) (tot : ℚ),
      (Prac6.primGo adj fuel heap vis mst tot).2.1 + weight mst
        = tot + weight (Prac6.primGo adj fuel heap vis mst tot).1 := by
  intro fuel
  induction fuel with
  | zero =>
    intro heap vis mst tot
    simp only [Prac6.primGo]
  | succ f ih =>
    intro heap vis mst tot
    cases hp : popMin heap with
    | none =>
      simp only [Prac6.primGo, hp]
    | some pr =>
      obtain ⟨⟨w, u, v⟩, rest⟩ := pr
      by_cases hv : v ∈ vis
      · simp only [Prac6.primGo, hp, if_pos hv]
        exact ih rest vis mst tot
      · simp only [Prac6.primGo, hp, if_neg hv]
        have H := ih (rest ++ ((Prac6.adjGet adj v).filter
            (fun nc => decide (nc.1 ∉ vis ++ [v]))).map (fun nc => (nc.2, v, nc.1)))
          (vis ++ [v]) (mst ++ [(u, v, w)]) (tot + w)
        rw [weight_append, weight_single] at H
        linarith

theorem prim_mst_weight (adj : Prac6.Adj) (s : Option ℕ) (vis : Option (List ℕ)) :
    (Prac6.prim_mst adj s vis).1.2 = weight (Prac6.prim_mst adj s vis).1.1 := by
  match adj with
  | [] => simp [Prac6.prim_mst, weight]
  | (k, l) :: rest =>
    simp only [Prac6.prim_mst]
    by_cases hs : s.getD k ∈ vis.getD []
    · rw [if_pos hs]
      simp [weight]
    · rw [if_neg hs]
      have H := primGo_weight ((k, l) :: rest)
        (Prac6.primFuel ((k, l) :: rest)
          ((Prac6.adjGet ((k, l) :: rest) (s.getD k)).map (fun nc => (nc.2, s.getD k, nc.1))))
        ((Prac6.adjGet ((k, l) :: rest) (s.getD k)).map (fun nc => (nc.2, s.getD k, nc.1)))
        (vis.getD [] ++ [s.getD k]) [] 0
      rw [weight_nil] at H
      simpa using H

theorem primFullGo_weight (adj : Prac6.Adj) :
    ∀ (rest : List (ℕ × List (ℕ × ℚ))) (acc : List Edg) (tot : ℚ) (vis : List ℕ),
      (Prac6.primFullGo adj rest acc tot vis).2.1 + weight acc
        = tot + weight (Prac6.primFullGo adj rest acc tot vis).1 := by
  intro rest
  induction rest with
  | nil =>
    intro acc tot vis
    simp only [Prac6.primFullGo]
  | cons p rest ih =>
    intro acc tot vis
    obtain ⟨k, l⟩ := p
    by_cases hk : k ∈ vis
    · simp only [Prac6.primFullGo, if_pos hk]
      exact ih acc tot vis
    · simp only [Prac6.primFullGo, if_neg hk]
      have H := ih (acc ++ (Prac6.prim_mst adj (some k) (some vis)).1.1)
        (tot + (Prac6.prim_mst adj (some k) (some vis)).1.2)
        (Prac6.prim_mst adj (some k) (some vis)).2
      rw [weight_append] at H
      have H2 := prim_mst_weight adj (some k) (some vis)
      linarith

theorem kruskal8Go_weight (f n : ℕ) :
    ∀ (E : List Edg) (uf : Prac6.UF) (mst : List Edg) (tot : ℚ),
      (Prac8.kruskalGo f n E uf mst tot).2 + weight mst
        = tot + weight (Prac8.kruskalGo f n E uf mst tot).1 := by
  intro E
  induction E with
  | nil =>
    intro uf mst tot
    simp only [Prac8.kruskalGo]
  | cons e rest ih =>
    intro uf mst tot
    by_cases hlen : (((mst).length : ℤ) = (n : ℤ) - 1)
    · simp only [Prac8.kruskalGo, if_pos hlen]
    · cases hu : Prac8.union f uf e.1 e.2.1 with
      | mk b uf' =>
        cases b with
        | false =>
          simp only [Prac8.kruskalGo, if_neg hlen, hu]
          exact ih uf' mst tot
        | true =>
          simp only [Prac8.kruskalGo, if_neg hlen, hu]
          have H := ih uf' (mst ++ [e]) (tot + e.2.2)
          rw [weight_append, weight_single] at H
          linarith

/-- C9: for every input, the total weight returned by `kruskal_mst`
(`prac6.py`), `prim_mst`, `prim_full`, and `kruskal_mst` (`prac8.py`)
equals the sum of the weights of the edges returned alongside it. -/
theorem c9_theorem :
    (∀ (E : List Edg) (ns : List ℕ),
      (Prac6.kruskal_mst E ns).2 = weight (Prac6.kruskal_mst E ns).1) ∧
    (∀ (adj : Prac6.Adj) (s : Option ℕ) (vis : Option (List ℕ)),
      (Prac6.prim_mst adj s vis).1.2 = weight (Prac6.prim_mst adj s vis).1.1) ∧
    (∀ adj : Prac6.Adj, (Prac6.prim_full adj).2 = weight (Prac6.prim_full adj).1) ∧
    (∀ (E : List Edg) (ns : List ℕ),
      (Prac8.kruskal_mst E ns).2 = weight (Prac8.kruskal_mst E ns).1) := by
  refine ⟨?_, prim_mst_weight, ?_, ?_⟩
  · intro E ns
    have H := kruskal6Go_weight (ns.length + 1) ns.length
      (E.mergeSort (fun a b => decide (a.2.2 ≤ b.2.2))) ⟨fun n => n, fun _ => 0⟩ [] 0
    rw [weight_nil] at H
    simpa [Prac6.kruskal_mst] using H
  · intro adj
    have H := primFullGo_weight adj adj [] 0 []
    rw [weight_nil] at H
    simpa [Prac6.prim_full] using H
  · intro E ns
    have H := kruskal8Go_weight (ns.length + 1) ns.length
      (E.mergeSort (fun a b => decide (a.2.2 ≤ b.2.2))) ⟨fun n => n, fun _ => 0⟩ [] 0
    rw [weight_nil] at H
    simpa [Prac8.kruskal_mst] using H

end C9

section C4

theorem rmFirst_sublist {α : Type} [DecidableEq α] (l : List α) (a : α) :
    (rmFirst l a).Sublist l := by
  induction l with
  | nil => simp [rmFirst]
  | cons x xs ih =>
    by_cases hx : x = a
    · simp [rmFirst, hx]
    · simp only [rmFirst, if_neg hx]
      exact ih.cons₂ x

/-- C4: counterexample.  The claim says both frontier consumers push
`(priority, insertion-sequence, Node)` triples and break equal-priority
ties by insertion order.  In `prim_mst` the entries are
`(weight, from_node, to_node)` with no insertion counter, and equal
weights are popped by node order, not insertion order: with
`adj = {0: [(2,1), (1,1)], 1: [(0,1)], 2: [(0,1)]}` the entry for node 2
is pushed first, yet the tree lists the edge to node 1 first, whereas the
claimed discipline (modelled by `primFrontierSpec`) yields the edge to
node 2 first. -/
theorem c4_counterexample :
    ((Prac6.prim_mst [(0, [(2, 1), (1, 1)]), (1, [(0, 1)]), (2, [(0, 1)])]
        (some 0) none).1).1.head? = some (0, 1, 1) ∧
    (primFrontierSpec [(0, [(2, 1), (1, 1)]), (1, [(0, 1)]), (2, [(0, 1)])] 0).1.head?
        = some (0, 2, 1) ∧
    (Prac6.prim_mst [(0, [(2, 1), (1, 1)]), (1, [(0, 1)]), (2, [(0, 1)])]
        (some 0) none).1
      ≠ primFrontierSpec [(0, [(2, 1), (1, 1)]), (1, [(0, 1)]), (2, [(0, 1)])] 0 := by
  refine ⟨by decide, by decide, ?_⟩
  intro heq
  have h1 : ((Prac6.prim_mst [(0, [(2, 1), (1, 1)]), (1, [(0, 1)]), (2, [(0, 1)])]
      (some 0) none).1).1.head? = some (0, 1, 1) := by decide
  have h2 : (primFrontierSpec [(0, [(2, 1), (1, 1)]), (1, [(0, 1)]), (2, [(0, 1)])] 0).1.head?
      = some (0, 2, 1) := by decide
  rw [heq] at h1
  exact absurd (h1.symm.trans h2) (by decide)

/-- C4 (amended): the shortest-path search pushes `(f, count, node)`
entries with a strictly increasing counter (fresh counter per push, no
two pending entries share one), and both consumers pop the lexicographic
minimum of the pending entries, so equal priorities are resolved by the
second component — the insertion counter for `a_star` (earliest push wins),
but the from-node for `prim_mst`, whose entries are
`(weight, from_node, to_node)` triples quoting a visited source and a
real adjacency entry. -/
theorem c4_theorem :
    (∀ (l : List HEntry) (m : HEntry) (r : List HEntry),
        popMin l = some (m, r) → m ∈ l ∧ ∀ x ∈ l, hLe m x) ∧
    (∀ (l : List HEntry) (m : HEntry) (r : List HEntry) (x : HEntry),
        popMin l = some (m, r) → x ∈ l → x.1 = m.1 → m.2.1 ≤ x.2.1) ∧
    (∀ (s goal : ℕ) (h : ℕ → ℕ → ℚ), CtrInv (Prac3.initState s goal h)) ∧
    (∀ (G : List (ℕ × List (ℕ × ℚ))) (goal : ℕ) (h : ℕ → ℕ → ℚ) (current : ℕ)
        (st : Prac3.AState), CtrInv st → CtrInv (Prac3.relaxAll G goal h current st)) ∧
    (∀ (st : Prac3.AState) (m : HEntry) (r : List HEntry),
        popMin st.openS = some (m, r) → CtrInv st →
        CtrInv { st with openS := r }) ∧
    (∀ (adj : Prac6.Adj) (vis : List ℕ) (heap : List HEntry)
        (w : ℚ) (u v : ℕ) (rest : List HEntry),
        PrimHeapInv adj vis heap → popMin heap = some ((w, u, v), rest) →
        u ∈ vis ∧ (v, w) ∈ Prac6.adjGet adj u ∧
        (v ∉ vis → PrimHeapInv adj (vis ++ [v])
          (rest ++ ((Prac6.adjGet adj v).filter
            (fun nc => decide (nc.1 ∉ vis ++ [v]))).map (fun nc => (nc.2, v, nc.1))))) := by
  refine ⟨?_, ?_, ?_, ?_, ?_, ?_⟩
  · intro l m r hpm
    obtain ⟨hm, -, hle, -⟩ := popMin_some hpm
    exact ⟨hm, hle⟩
  · intro l m r x hpm hx hpr
    obtain ⟨-, -, hle, -⟩ := popMin_some hpm
    rcases hle x hx with hlt | rfl
    · rcases hlt with h1 | ⟨-, h2 | ⟨h2, -⟩⟩
      · exact absurd hpr (by exact fun he => absurd (he ▸ h1) (lt_irrefl _))
      · exact le_of_lt h2
      · exact le_of_eq h2
    · exact le_refl _
  · intro s goal h
    constructor
    · intro e he
      simp [Prac3.initState] at he
      simp [he, Prac3.initState]
    · simp [Prac3.initState]
  · intro G goal h current st hinv
    unfold Prac3.relaxAll
    generalize Prac3.nbrs G current = ncs
    induction ncs generalizing st with
    | nil => exact hinv
    | cons nc rest ih =>
      apply ih
      unfold Prac3.relax1
      by_cases h1 : nc.1 ∈ st.closed
      · simp only [if_pos h1]
        exact hinv
      · simp only [if_neg h1]
        cases hg : st.g current with
        | none => exact hinv
        | some gc =>
          simp only []
          by_cases hb : (match st.g nc.1 with
            | none => true
            | some gn => decide (gc + nc.2 < gn)) = true
          · rw [if_pos hb]
            constructor
            · intro e he
              simp only [List.mem_append, List.mem_singleton] at he
              rcases he with he | rfl
              · exact Nat.lt_succ_of_lt (hinv.1 e he)
              · exact Nat.lt_succ_self _
            · rw [List.map_append]
              simp only [List.map_cons, List.map_nil]
              rw [List.nodup_append]
              refine ⟨hinv.2, List.nodup_singleton _, ?_⟩
              intro a ha
              simp only [List.mem_map] at ha
              obtain ⟨e, he, rfl⟩ := ha
              have := hinv.1 e he
              simp only [List.mem_singleton]
              omega
          · rw [if_neg hb]
            exact hinv
  · intro st m r hpm hinv
    obtain ⟨-, hr, -, -⟩ := popMin_some hpm
    subst hr
    constructor
    · intro e he
      exact hinv.1 e (rmFirst_subset he)
    · exact hinv.2.sublist (List.Sublist.map _ (rmFirst_sublist _ _))
  · intro adj vis heap w u v rest hinv hpm
    obtain ⟨hm, hr, -, -⟩ := popMin_some hpm
    have hmu := hinv (w, u, v) hm
    refine ⟨hmu.1, hmu.2, ?_⟩
    intro hv e he
    rcases List.mem_append.mp he with he | he
    · subst hr
      have := hinv e (rmFirst_subset he)
      exact ⟨List.mem_append_left _ this.1, this.2⟩
    · simp only [List.mem_map] at he
      obtain ⟨nc, hnc, rfl⟩ := he
      have hnc' := List.mem_of_mem_filter hnc
      refine ⟨by simp, ?_⟩
      simpa using hnc'

/-- C4 witness: the amended theorem applied at concrete inputs — a
two-entry tie popped by least second component, and the initial `a_star`
state. -/
theorem c4_witness :
    (((1 : ℚ), 3, 9) : HEntry).2.1 ≤ (((1 : ℚ), 5, 7) : HEntry).2.1 ∧
    CtrInv (Prac3.initState 0 5 (fun _ _ => 0)) :=
  ⟨c4_theorem.2.1 [((1 : ℚ), 5, 7), ((1 : ℚ), 3, 9)] ((1 : ℚ), 3, 9)
      [((1 : ℚ), 5, 7)] ((1 : ℚ), 5, 7) (by decide) (by decide) (by decide),
   c4_theorem.2.2.1 0 5 (fun _ _ => 0)⟩

end C4

section UnionFindCore

theorem chainTo_refl (p : ℕ → ℕ) (x : ℕ) : ChainTo p x x := Relation.ReflTransGen.refl

theorem chainTo_single (p : ℕ → ℕ) (x : ℕ) : ChainTo p x (p x) :=
  Relation.ReflTransGen.single rfl

theorem chainTo_trans {p : ℕ → ℕ} {x y z : ℕ} (h1 : ChainTo p x y)
    (h2 : ChainTo p y z) : ChainTo p x z :=
  Relation.ReflTransGen.trans h1 h2

theorem chainTo_head {p : ℕ → ℕ} {x y : ℕ} (h : ChainTo p (p x) y) : ChainTo p x y :=
  chainTo_trans (chainTo_single p x) h

theorem chain_of_fix {p : ℕ → ℕ} {x y : ℕ} (hx : p x = x) (h : ChainTo p x y) :
    y = x := by
  induction h with
  | refl => rfl
  | tail h1 h2 ih => rw [h2, ih, hx]

theorem root_fix {p : ℕ → ℕ} {x : ℕ} (hx : p x = x) : Root p x x :=
  ⟨chainTo_refl p x, hx⟩

theorem root_of_fix_unique {p : ℕ → ℕ} {x r : ℕ} (hx : p x = x) (h : Root p x r) :
    r = x := chain_of_fix hx h.1

theorem chainTo_cases {p : ℕ → ℕ} {x y : ℕ} (h : ChainTo p x y) :
    y = x ∨ ChainTo p (p x) y := by
  rcases h.cases_head with rfl | ⟨c, hc, h2⟩
  · exact Or.inl rfl
  · exact Or.inr (hc ▸ h2)

theorem root_step {p : ℕ → ℕ} {x r : ℕ} (hpx : p x ≠ x) :
    Root p x r ↔ Root p (p x) r := by
  constructor
  · rintro ⟨hchain, hr⟩
    rcases chainTo_cases hchain with rfl | h2
    · exact absurd hr hpx
    · exact ⟨h2, hr⟩
  · rintro ⟨hchain, hr⟩
    exact ⟨chainTo_head hchain, hr⟩

theorem chainTo_root_compose {p : ℕ → ℕ} {y a s : ℕ} (h1 : ChainTo p y a)
    (h2 : Root p a s) : Root p y s :=
  ⟨chainTo_trans h1 h2.1, h2.2⟩

theorem root_unique {p : ℕ → ℕ} {x r s : ℕ} (h1 : Root p x r) (h2 : Root p x s) :
    r = s := by
  obtain ⟨hc1, hr1⟩ := h1
  induction hc1 using Relation.ReflTransGen.head_induction_on generalizing s with
  | refl => exact (root_of_fix_unique hr1 h2).symm
  | head hstep hchain ih =>
    rename_i a c
    by_cases hpa : p a = a
    · have hca : c = a := by rw [hstep, hpa]
      subst hca
      exact ih h2
    · have h2' : Root p c s := by
        rw [hstep]
        exact (root_step hpa).mp h2
      exact ih h2'

theorem root_trans_ancestor {p : ℕ → ℕ} {a b s : ℕ} (hab : ChainTo p a b)
    (h : Root p a s) : Root p b s := by
  induction hab using Relation.ReflTransGen.head_induction_on with
  | refl => exact h
  | head hstep hchain ih =>
    rename_i a' c
    by_cases hpa : p a' = a'
    · have hca : c = a' := by rw [hstep, hpa]
      subst hca
      exact ih h
    · refine ih ?_
      rw [hstep]
      exact (root_step hpa).mp h

theorem chain_in_ns {ns : List ℕ} {p rk : ℕ → ℕ} (hinv : PInv ns p rk) {x y : ℕ}
    (hx : x ∈ ns) (h : ChainTo p x y) : y ∈ ns := by
  induction h with
  | refl => exact hx
  | tail h1 h2 ih => rw [h2]; exact (hinv _ ih).1

theorem rank_mono_chain {ns : List ℕ} {p rk : ℕ → ℕ} (hinv : PInv ns p rk) {x y : ℕ}
    (hx : x ∈ ns) (h : ChainTo p x y) : rk x ≤ rk y := by
  induction h with
  | refl => exact le_refl _
  | tail h1 h2 ih =>
    rename_i b c
    have hb : b ∈ ns := chain_in_ns hinv hx h1
    by_cases hpb : p b = b
    · rw [h2, hpb]; exact ih
    · have := (hinv b hb).2 hpb
      rw [h2]; omega

theorem rkM_le (ns : List ℕ) (rk : ℕ → ℕ) (x : ℕ) : rkM ns rk x ≤ ns.length :=
  List.length_filter_le _ _

theorem rkM_lt {ns : List ℕ} {rk : ℕ → ℕ} {x y : ℕ} (hy : y ∈ ns)
    (hxy : rk x < rk y) : rkM ns rk y < rkM ns rk x := by
  unfold rkM
  have heq : ns.filter (fun z => decide (rk y < rk z))
      = (ns.filter (fun z => decide (rk x < rk z))).filter
          (fun z => decide (rk y < rk z)) := by
    rw [List.filter_filter]
    apply List.filter_congr
    intro z hz
    by_cases h : rk y < rk z
    · simp [h, lt_trans hxy h]
    · simp [h]
  rw [heq]
  have hsub := List.filter_sublist (l := ns.filter (fun z => decide (rk x < rk z)))
    (p := fun z => decide (rk y < rk z))
  have hle := hsub.length_le
  rcases lt_or_eq_of_le hle with hlt | hfe
  · exact hlt
  · exfalso
    have hfull := hsub.eq_of_length hfe
    have hyy : y ∈ ns.filter (fun z => decide (rk x < rk z)) :=
      List.mem_filter.mpr ⟨hy, by simp [hxy]⟩
    rw [← hfull] at hyy
    have := (List.mem_filter.mp hyy).2
    simp at this

theorem root_exists {ns : List ℕ} {p rk : ℕ → ℕ} (hinv : PInv ns p rk) :
    ∀ x ∈ ns, ∃ r, Root p x r := by
  have main : ∀ n, ∀ x ∈ ns, rkM ns rk x = n → ∃ r, Root p x r := by
    intro n
    induction n using Nat.strong_induction_on with
    | _ n ih =>
      intro x hx hrk
      by_cases hpx : p x = x
      · exact ⟨x, root_fix hpx⟩
      · have hpns := (hinv x hx).1
        have hlt : rkM ns rk (p x) < n := hrk ▸ rkM_lt hpns ((hinv x hx).2 hpx)
        obtain ⟨r, hr⟩ := ih _ hlt (p x) hpns rfl
        exact ⟨r, (root_step hpx).mpr hr⟩
  intro x hx
  exact main _ x hx rfl

end UnionFindCore

section UnionFindUpdate

/-- Replacing each parent step by a chain in a base map lifts chains. -/
theorem chainTo_lift {p q : ℕ → ℕ} (hpt : ∀ a, ChainTo p a (q a)) {a b : ℕ}
    (h : ChainTo q a b) : ChainTo p a b := by
  induction h with
  | refl => exact chainTo_refl p a
  | tail h1 h2 ih =>
    rename_i b' c
    rw [h2]
    exact chainTo_trans ih (hpt b')

theorem ancUpd_pinv {ns : List ℕ} {p q rk : ℕ → ℕ} (hinv : PInv ns p rk)
    (hq : AncUpd ns p q) : PInv ns q rk := by
  intro y hy
  rcases hq y hy with h | h
  · rw [h]; exact hinv y hy
  · have hqy_ns : q y ∈ ns := chain_in_ns hinv (hinv y hy).1 h
    refine ⟨hqy_ns, ?_⟩
    intro hne
    by_cases hpy : p y = y
    · rw [hpy] at h
      exact absurd (chain_of_fix hpy h) hne
    · have h1 : rk y < rk (p y) := (hinv y hy).2 hpy
      have h2 : rk (p y) ≤ rk (q y) := rank_mono_chain hinv (hinv y hy).1 h
      omega

theorem ancUpd_fix_iff {ns : List ℕ} {p q rk : ℕ → ℕ} (hinv : PInv ns p rk)
    (hq : AncUpd ns p q) : ∀ y ∈ ns, (q y = y ↔ p y = y) := by
  intro y hy
  constructor
  · intro hqy
    by_contra hpy
    rcases hq y hy with h | h
    · exact hpy (h ▸ hqy)
    · rw [hqy] at h
      have h1 : rk y < rk (p y) := (hinv y hy).2 hpy
      have h2 : rk (p y) ≤ rk y := rank_mono_chain hinv (hinv y hy).1 h
      omega
  · intro hpy
    rcases hq y hy with h | h
    · rw [h, hpy]
    · rw [hpy] at h
      exact chain_of_fix hpy h

theorem ancUpd_root_iff {ns : List ℕ} {p q rk : ℕ → ℕ} (hinv : PInv ns p rk)
    (hq : AncUpd ns p q) : ∀ y ∈ ns, ∀ s, (Root q y s ↔ Root p y s) := by
  have main : ∀ n, ∀ y ∈ ns, rkM ns rk y = n → ∀ s, (Root q y s ↔ Root p y s) := by
    intro n
    induction n using Nat.strong_induction_on with
    | _ n ih =>
      intro y hy hn s
      by_cases hpy : p y = y
      · have hqy : q y = y := (ancUpd_fix_iff hinv hq y hy).mpr hpy
        constructor
        · intro hr
          have := root_of_fix_unique hqy hr
          subst this
          exact root_fix hpy
        · intro hr
          have := root_of_fix_unique hpy hr
          subst this
          exact root_fix hqy
      · have h1 : ChainTo p (p y) (q y) := by
          rcases hq y hy with h | h
          · rw [h]
            exact chainTo_refl p (p y)
          · exact h
        have hpyns : p y ∈ ns := (hinv y hy).1
        have hqyns : q y ∈ ns := chain_in_ns hinv hpyns h1
        have hrky : rk y < rk (q y) :=
          lt_of_lt_of_le ((hinv y hy).2 hpy) (rank_mono_chain hinv hpyns h1)
        have hqy_ne : q y ≠ y := fun he => absurd (he ▸ hrky) (lt_irrefl _)
        have hm : rkM ns rk (q y) < n := hn ▸ rkM_lt hqyns hrky
        constructor
        · intro hr
          have h2 : Root q (q y) s := (root_step hqy_ne).mp hr
          have h3 : Root p (q y) s := (ih _ hm (q y) hqyns rfl s).mp h2
          exact chainTo_root_compose (chainTo_head h1) h3
        · intro hr
          have h3 : Root p (q y) s := root_trans_ancestor (chainTo_head h1) hr
          have h2 : Root q (q y) s := (ih _ hm (q y) hqyns rfl s).mpr h3
          exact (root_step hqy_ne).mpr h2
  intro y hy s
  exact main _ y hy rfl s

end UnionFindUpdate

section FindSpecs

theorem find6_spec {ns : List ℕ} {rk : ℕ → ℕ} :
    ∀ (fuel : ℕ) (p : ℕ → ℕ) (x : ℕ), PInv ns p rk → x ∈ ns → rkM ns rk x < fuel →
      Root p x (Prac6.find fuel p x).1 ∧
      AncUpd ns p (Prac6.find fuel p x).2 ∧
      (∀ y ∈ ns, (Prac6.find fuel p x).2 y = p y ∨ (Prac6.find fuel p x).2 y = p (p y)) ∧
      (∀ y, rk y < rk x → (Prac6.find fuel p x).2 y = p y) := by
  intro fuel
  induction fuel with
  | zero => intro p x hinv hx hf; omega
  | succ f ih =>
    intro p x hinv hx hf
    by_cases hpx : p x = x
    · have hfind : Prac6.find (f + 1) p x = (x, p) := by
        simp [Prac6.find, hpx]
      rw [hfind]
      exact ⟨root_fix hpx, fun y _ => Or.inl rfl, fun y _ => Or.inl rfl, fun y _ => rfl⟩
    · have hfind : Prac6.find (f + 1) p x
        = Prac6.find f (fun y => if y = x then p (p x) else p y)
            ((fun y => if y = x then p (p x) else p y) x) := by
        simp [Prac6.find, hpx]
      set p' := fun y => if y = x then p (p x) else p y with hpnew
      have hp'x : p' x = p (p x) := by simp [hpnew]
      have hpxns : p x ∈ ns := (hinv x hx).1
      have hrx : rk x < rk (p x) := (hinv x hx).2 hpx
      have hppns : p (p x) ∈ ns := (hinv (p x) hpxns).1
      have hrpp : rk (p x) ≤ rk (p (p x)) :=
        rank_mono_chain hinv hpxns (chainTo_single p (p x))
      have hxppx : rk x < rk (p (p x)) := lt_of_lt_of_le hrx hrpp
      have hppx_ne : p (p x) ≠ x := fun he => absurd (he ▸ hxppx) (lt_irrefl _)
      have hanc : AncUpd ns p p' := by
        intro y _
        by_cases hyx : y = x
        · subst hyx
          right
          rw [hp'x]
          exact chainTo_single p (p y)
        · left
          simp [hpnew, hyx]
      have hinv' : PInv ns p' rk := ancUpd_pinv hinv hanc
      have hx'ns : p' x ∈ ns := by rw [hp'x]; exact hppns
      have hm' : rkM ns rk (p' x) < f := by
        rw [hp'x]
        have h1 := rkM_lt hppns hxppx
        omega
      obtain ⟨ihroot, ihanc, ihpt, ihrk⟩ := ih p' (p' x) hinv' hx'ns hm'
      rw [hfind]
      have hlift : ∀ a, ChainTo p a (p' a) := by
        intro a
        by_cases hax : a = x
        · subst hax
          rw [hp'x]
          exact chainTo_trans (chainTo_single p a)
            ((chainTo_single p (p a)))
        · have : p' a = p a := by simp [hpnew, hax]
          rw [this]
          exact chainTo_single p a
      have hchain_pp' : ∀ y, ChainTo p (p y) (p' y) := by
        intro y
        by_cases hyx : y = x
        · subst hyx
          rw [hp'x]
          exact chainTo_single p (p y)
        · have : p' y = p y := by simp [hpnew, hyx]
          rw [this]
          exact chainTo_refl p (p y)
      refine ⟨?_, ?_, ?_, ?_⟩
      · have hp'x_ne : p' x ≠ x := by rw [hp'x]; exact hppx_ne
        have h2 : Root p' x (Prac6.find f p' (p' x)).1 :=
          (root_step hp'x_ne).mpr ihroot
        exact (ancUpd_root_iff hinv hanc x hx _).mp h2
      · intro y hy
        rcases ihanc y hy with h | h
        · by_cases hyx : y = x
          · subst hyx
            right
            rw [h, hp'x]
            exact chainTo_single p (p y)
          · left
            rw [h]
            simp [hpnew, hyx]
        · right
          have h1 : ChainTo p (p' y) ((Prac6.find f p' (p' x)).2 y) :=
            chainTo_lift hlift h
          exact chainTo_trans (hchain_pp' y) h1
      · intro y hy
        by_cases hyx : y = x
        · subst hyx
          right
          have hr1 : rk y < rk (p' y) := by rw [hp'x]; exact hxppx
          have h1 := ihrk y hr1
          rw [h1, hp'x]
        · by_cases hpyx : p y = x
          · have hpy_ne : p y ≠ y := fun he => hyx (he.symm.trans hpyx)
            have hr1 : rk y < rk x := hpyx ▸ (hinv y hy).2 hpy_ne
            have hr2 : rk y < rk (p' x) := by rw [hp'x]; omega
            left
            rw [ihrk y hr2]
            simp [hpnew, hyx]
          · rcases ihpt y hy with h | h
            · left
              rw [h]
              simp [hpnew, hyx]
            · right
              rw [h]
              have e1 : p' y = p y := by simp [hpnew, hyx]
              rw [e1]
              simp [hpnew, hpyx]
      · intro y hrd
        have h1 : rk y < rk (p' x) := by rw [hp'x]; omega
        have h2 := ihrk y h1
        have hyx : y ≠ x := fun he => absurd (he ▸ hrd) (lt_irrefl _)
        rw [h2]
        simp [hpnew, hyx]

end FindSpecs

theorem find8_spec {ns : List ℕ} {rk : ℕ → ℕ} :
    ∀ (fuel : ℕ) (p : ℕ → ℕ) (x : ℕ), PInv ns p rk → x ∈ ns → rkM ns rk x < fuel →
      Root p x (Prac8.find fuel p x).1 ∧
      (∀ y, ChainTo p x y → (Prac8.find fuel p x).2 y = (Prac8.find fuel p x).1) ∧
      (∀ y, ¬ ChainTo p x y → (Prac8.find fuel p x).2 y = p y) ∧
      AncUpd ns p (Prac8.find fuel p x).2 := by
  intro fuel
  induction fuel with
  | zero => intro p x hinv hx hf; omega
  | succ f ih =>
    intro p x hinv hx hf
    by_cases hpx : p x = x
    · have hfind : Prac8.find (f + 1) p x = (x, p) := by
        simp [Prac8.find, hpx]
      rw [hfind]
      refine ⟨root_fix hpx, ?_, fun y _ => rfl, fun y _ => Or.inl rfl⟩
      intro y hc
      have := chain_of_fix hpx hc
      subst this
      exact hpx
    · have hpxns : p x ∈ ns := (hinv x hx).1
      have hrx : rk x < rk (p x) := (hinv x hx).2 hpx
      have hm' : rkM ns rk (p x) < f := by
        have h1 := rkM_lt hpxns hrx
        omega
      obtain ⟨ihroot, ihchain, ihout, ihanc⟩ := ih p (p x) hinv hpxns hm'
      have hfind : Prac8.find (f + 1) p x
          = ((Prac8.find f p (p x)).1,
             fun y => if y = x then (Prac8.find f p (p x)).1
                      else (Prac8.find f p (p x)).2 y) := by
        simp [Prac8.find, hpx]
      rw [hfind]
      have hnocycle : ¬ ChainTo p (p x) x := by
        intro hc
        have := rank_mono_chain hinv hpxns hc
        omega
      refine ⟨(root_step hpx).mpr ihroot, ?_, ?_, ?_⟩
      · intro y hc
        by_cases hyx : y = x
        · simp [hyx]
        · rcases chainTo_cases hc with rfl | hc2
          · exact absurd rfl hyx
          · simp only [if_neg hyx]
            exact ihchain y hc2
      · intro y hnc
        have hyx : y ≠ x := by
          intro he
          exact hnc (he ▸ chainTo_refl p x)
        simp only [if_neg hyx]
        exact ihout y (fun hc => hnc (chainTo_head hc))
      · intro y hy
        by_cases hyx : y = x
        · subst hyx
          right
          simp only [if_pos rfl]
          exact ihroot.1
        · simp only [if_neg hyx]
          exact ihanc y hy

section LinkLemmas

theorem link_root_iff {ns : List ℕ} {p rk : ℕ → ℕ} (hinv : PInv ns p rk)
    {rx ry : ℕ} (hrx : p rx = rx) (hry : p ry = ry) (hne : rx ≠ ry) :
    ∀ a ∈ ns, ∀ s, Root (fun z => if z = rx then ry else p z) a s ↔
      ((Root p a rx ∧ s = ry) ∨ (Root p a s ∧ s ≠ rx)) := by
  set p' := fun z => if z = rx then ry else p z with hpnew
  have hp'ry : p' ry = ry := by simp [hpnew, (Ne.symm hne), hry]
  have hp'rx : p' rx = ry := by simp [hpnew]
  have main : ∀ n, ∀ a ∈ ns, rkM ns rk a = n → ∀ s,
      (Root p' a s ↔ ((Root p a rx ∧ s = ry) ∨ (Root p a s ∧ s ≠ rx))) := by
    intro n
    induction n using Nat.strong_induction_on with
    | _ n ih =>
      intro a ha hn s
      by_cases hpa : p a = a
      · by_cases harx : a = rx
        · subst harx
          have h1 : Root p' a s ↔ Root p' ry s := by
            rw [← hp'rx]
            exact root_step (by rw [hp'rx]; exact Ne.symm hne)
          rw [h1]
          constructor
          · intro hr
            have := root_of_fix_unique hp'ry hr
            subst this
            exact Or.inl ⟨root_fix hpa, rfl⟩
          · rintro (⟨-, rfl⟩ | ⟨hr, hsrx⟩)
            · exact root_fix hp'ry
            · exact absurd (root_of_fix_unique hpa hr) hsrx
        · have hp'a : p' a = a := by simp [hpnew, harx, hpa]
          constructor
          · intro hr
            have := root_of_fix_unique hp'a hr
            subst this
            exact Or.inr ⟨root_fix hpa, harx⟩
          · rintro (⟨hr, rfl⟩ | ⟨hr, hsrx⟩)
            · exact absurd (root_of_fix_unique hpa hr) (Ne.symm harx)
            · have := root_of_fix_unique hpa hr
              subst this
              exact root_fix hp'a
      · have harx : a ≠ rx := fun he => hpa (he ▸ hrx)
        have hp'a : p' a = p a := by simp [hpnew, harx]
        have hpans : p a ∈ ns := (hinv a ha).1
        have hm : rkM ns rk (p a) < n := hn ▸ rkM_lt hpans ((hinv a ha).2 hpa)
        have hstep' : Root p' a s ↔ Root p' (p a) s := by
          rw [← hp'a]
          exact root_step (by rw [hp'a]; exact hpa)
        rw [hstep', ih _ hm (p a) hpans rfl s]
        rw [root_step hpa (r := rx), root_step hpa (r := s)]
  intro a ha s
  exact main _ a ha rfl s

theorem link_fix_iff {p : ℕ → ℕ} {rx ry : ℕ} (hne : rx ≠ ry) :
    ∀ z, ((fun z => if z = rx then ry else p z) z = z) ↔ (p z = z ∧ z ≠ rx) := by
  intro z
  by_cases hz : z = rx
  · subst hz
    simp [Ne.symm hne]
  · simp [hz]

theorem filter_count_drop {ns : List ℕ} (hnd : ns.Nodup) {q q' : ℕ → Bool} {rx : ℕ}
    (hrx : rx ∈ ns) (hq : q rx = true)
    (hq' : ∀ z, q' z = (q z && decide (z ≠ rx))) :
    (ns.filter q').length + 1 = (ns.filter q).length := by
  induction ns with
  | nil => simp at hrx
  | cons a rest ih =>
    have hnd' : rest.Nodup := hnd.of_cons
    by_cases harx : a = rx
    · subst harx
      have hnotin : a ∉ rest := (List.nodup_cons.mp hnd).1
      have hfa : q' a = false := by
        rw [hq' a]
        simp
      have heq : rest.filter q' = rest.filter q := by
        apply List.filter_congr
        intro z hz
        rw [hq' z]
        have : z ≠ a := fun he => hnotin (he ▸ hz)
        simp [this]
      simp [List.filter_cons, hfa, hq, heq]
    · have hrx' : rx ∈ rest := by
        rcases List.mem_cons.mp hrx with he | he
        · exact absurd he.symm harx
        · exact he
      have hqa : q' a = q a := by
        rw [hq' a]
        simp [harx]
      rcases hqb : q a with _ | _
      · simp [List.filter_cons, hqa, hqb]
        exact ih hnd' hrx'
      · have := ih hnd' hrx'
        simp [List.filter_cons, hqa, hqb]
        omega

end LinkLemmas

section UnionSpecs

theorem union6_spec {ns : List ℕ} {uf : Prac6.UF} {x y : ℕ} {fuel : ℕ}
    {b : Bool} {uf' : Prac6.UF}
    (hinv : PInv ns uf.parent uf.rank) (hx : x ∈ ns) (hy : y ∈ ns)
    (hf : ns.length < fuel) (h : Prac6.union fuel uf x y = (b, uf')) :
    ∃ rx ry, Root uf.parent x rx ∧ Root uf.parent y ry ∧ rx ∈ ns ∧ ry ∈ ns ∧
      (b = false ↔ rx = ry) ∧
      PInv ns uf'.parent uf'.rank ∧
      (b = false →
        uf'.rank = uf.rank ∧
        (∀ a ∈ ns, ∀ s, Root uf'.parent a s ↔ Root uf.parent a s) ∧
        (∀ z ∈ ns, (uf'.parent z = z ↔ uf.parent z = z))) ∧
      (b = true →
        rx ≠ ry ∧
        uf'.parent (if uf.rank rx < uf.rank ry then rx else ry)
          = (if uf.rank rx < uf.rank ry then ry else rx) ∧
        (∀ a ∈ ns, ∀ s, Root uf'.parent a s ↔
          ((Root uf.parent a (if uf.rank rx < uf.rank ry then rx else ry) ∧
             s = (if uf.rank rx < uf.rank ry then ry else rx)) ∨
           (Root uf.parent a s ∧ s ≠ (if uf.rank rx < uf.rank ry then rx else ry)))) ∧
        (∀ z ∈ ns, (uf'.parent z = z ↔
          (uf.parent z = z ∧ z ≠ (if uf.rank rx < uf.rank ry then rx else ry)))) ∧
        (uf.rank rx ≠ uf.rank ry → uf'.rank = uf.rank) ∧
        (uf.rank rx = uf.rank ry →
          uf'.rank rx = uf.rank rx + 1 ∧ ∀ z, z ≠ rx → uf'.rank z = uf.rank z)) := by
  have hfx : rkM ns uf.rank x < fuel := lt_of_le_of_lt (rkM_le ns uf.rank x) hf
  obtain ⟨hroot_x, hanc1, -, -⟩ :=
    find6_spec fuel uf.parent x hinv hx hfx
  set p1 := (Prac6.find fuel uf.parent x).2 with hp1_def
  set rx := (Prac6.find fuel uf.parent x).1 with hrx_def
  have hinv1 : PInv ns p1 uf.rank := ancUpd_pinv hinv hanc1
  have hiff1 := ancUpd_root_iff hinv hanc1
  have hfix1 := ancUpd_fix_iff hinv hanc1
  have hfy : rkM ns uf.rank y < fuel := lt_of_le_of_lt (rkM_le ns uf.rank y) hf
  obtain ⟨hroot_y1, hanc2, -, -⟩ :=
    find6_spec fuel p1 y hinv1 hy hfy
  set p2 := (Prac6.find fuel p1 y).2 with hp2_def
  set ry := (Prac6.find fuel p1 y).1 with hry_def
  have hinv2 : PInv ns p2 uf.rank := ancUpd_pinv hinv1 hanc2
  have hiff2 := ancUpd_root_iff hinv1 hanc2
  have hfix2 := ancUpd_fix_iff hinv1 hanc2
  have hiff12 : ∀ a ∈ ns, ∀ s, (Root p2 a s ↔ Root uf.parent a s) := by
    intro a ha s
    rw [hiff2 a ha s, hiff1 a ha s]
  have hfix12 : ∀ z ∈ ns, (p2 z = z ↔ uf.parent z = z) := by
    intro z hz
    rw [hfix2 z hz, hfix1 z hz]
  have hroot_y : Root uf.parent y ry := (hiff1 y hy ry).mp hroot_y1
  have hrxns : rx ∈ ns := chain_in_ns hinv hx hroot_x.1
  have hryns : ry ∈ ns := chain_in_ns hinv hy hroot_y.1
  have hrx2 : p2 rx = rx := ((hiff12 x hx rx).mpr hroot_x).2
  have hry2 : p2 ry = ry := ((hiff2 y hy ry).mpr hroot_y1).2
  refine ⟨rx, ry, hroot_x, hroot_y, hrxns, hryns, ?_⟩
  simp only [Prac6.union] at h
  rw [← hrx_def, ← hp1_def, ← hry_def, ← hp2_def] at h
  by_cases hreq : rx = ry
  · rw [if_pos hreq] at h
    rw [Prod.mk.injEq] at h
    obtain ⟨hb, huf⟩ := h
    subst hb
    subst huf
    refine ⟨by simp [hreq], hinv2, ?_, ?_⟩
    · intro _
      exact ⟨rfl, hiff12, hfix12⟩
    · intro hc
      cases hc
  · rw [if_neg hreq] at h
    by_cases hrk : uf.rank rx < uf.rank ry
    · rw [if_pos hrk] at h
      rw [Prod.mk.injEq] at h
      obtain ⟨hb, huf⟩ := h
      subst hb
      subst huf
      have hlink := link_root_iff hinv2 hrx2 hry2 hreq
      have hfixl := link_fix_iff (p := p2) hreq
      refine ⟨by simp [hreq], ?_, ?_, ?_⟩
      · -- PInv of the linked structure
        intro z hz
        by_cases hzrx : z = rx
        · subst hzrx
          refine ⟨by simp [hryns], ?_⟩
          intro _
          simp only [if_pos rfl]
          exact hrk
        · simp only [if_neg hzrx]
          have h1 := hinv2 z hz
          refine ⟨h1.1, ?_⟩
          intro hne
          have h2 := h1.2 hne
          have hger : uf.rank (p2 z) ≤ uf.rank (if p2 z = rx then ry else p2 z) := by
            by_cases hp2z : p2 z = rx
            · rw [if_pos hp2z, hp2z]
              exact le_of_lt hrk
            · rw [if_neg hp2z]
          omega
      · intro hc
        cases hc
      · intro _
        refine ⟨?_, ?_, ?_, ?_, ?_⟩
        · exact hreq
        · simp [hrk]
        · intro a ha s
          rw [if_pos hrk, if_pos hrk]
          rw [hlink a ha s]
          rw [hiff12 a ha rx, hiff12 a ha s]
        · intro z hz
          rw [if_pos hrk]
          rw [hfixl z]
          rw [hfix12 z hz]
        · exact ⟨fun _ => rfl, fun he => absurd he (ne_of_lt hrk)⟩
    · rw [if_neg hrk] at h
      rw [Prod.mk.injEq] at h
      obtain ⟨hb, huf⟩ := h
      subst hb
      subst huf
      have hlink := link_root_iff hinv2 hry2 hrx2 (Ne.symm hreq)
      have hfixl := link_fix_iff (p := p2) (Ne.symm hreq)
      have hrk_pt : ∀ z, uf.rank z ≤ (if uf.rank rx = uf.rank ry then
          (fun z => if z = rx then uf.rank rx + 1 else uf.rank z)
          else uf.rank) z := by
        intro z
        by_cases he : uf.rank rx = uf.rank ry
        · rw [if_pos he]
          by_cases hzrx : z = rx
          · subst hzrx
            simp
          · simp [hzrx]
        · rw [if_neg he]
      refine ⟨by simp [hreq], ?_, ?_, ?_⟩
      · -- PInv of the linked structure with updated ranks
        intro z hz
        by_cases hzry : z = ry
        · subst hzry
          have hpar : ((fun z => if z = ry then rx else p2 z) ry) = rx := by simp
          refine ⟨?_, ?_⟩
          · show ((fun z => if z = ry then rx else p2 z) ry) ∈ ns
            rw [hpar]
            exact hrxns
          · intro _
            show (if uf.rank rx = uf.rank ry then
                (fun z => if z = rx then uf.rank rx + 1 else uf.rank z)
                else uf.rank) ry
              < (if uf.rank rx = uf.rank ry then
                (fun z => if z = rx then uf.rank rx + 1 else uf.rank z)
                else uf.rank) ((fun z => if z = ry then rx else p2 z) ry)
            rw [hpar]
            by_cases he : uf.rank rx = uf.rank ry
            · rw [if_pos he]
              have hne2 : ¬ ry = rx := fun he2 => hreq he2.symm
              rw [if_neg hne2, if_pos rfl]
              omega
            · rw [if_neg he]
              omega
        · simp only [if_neg hzry]
          have h1 := hinv2 z hz
          refine ⟨h1.1, ?_⟩
          intro hne
          have h2 := h1.2 hne
          have h3 : uf.rank z ≤ (if uf.rank rx = uf.rank ry then
              (fun w => if w = rx then uf.rank rx + 1 else uf.rank w)
              else uf.rank) z ∨ True := Or.inr trivial
          have h4 := hrk_pt (p2 z)
          have h5 : (if uf.rank rx = uf.rank ry then
              (fun w => if w = rx then uf.rank rx + 1 else uf.rank w)
              else uf.rank) z = uf.rank z ∨ z = rx := by
            by_cases he : uf.rank rx = uf.rank ry
            · by_cases hzrx : z = rx
              · exact Or.inr hzrx
              · rw [if_pos he]
                simp [hzrx]
            · rw [if_neg he]
              exact Or.inl rfl
          rcases h5 with h5 | h5
          · rw [h5]
            omega
          · -- z = rx is a root of p2, contradiction with p2 z ≠ z
            subst h5
            exact absurd hrx2 hne
      · intro hc
        cases hc
      · intro _
        refine ⟨?_, ?_, ?_, ?_, ?_⟩
        · exact hreq
        · simp [hrk]
        · intro a ha s
          rw [if_neg hrk, if_neg hrk]
          rw [hlink a ha s]
          rw [hiff12 a ha ry, hiff12 a ha s]
        · intro z hz
          rw [if_neg hrk]
          rw [hfixl z]
          rw [hfix12 z hz]
        · constructor
          · intro hne
            simp only [if_neg hne]
          · intro he
            simp only [if_pos he]
            exact ⟨by simp, fun z hz => by simp [hz]⟩

end UnionSpecs

theorem union8_spec {ns : List ℕ} {uf : Prac6.UF} {x y : ℕ} {fuel : ℕ}
    {b : Bool} {uf' : Prac6.UF}
    (hinv : PInv ns uf.parent uf.rank) (hx : x ∈ ns) (hy : y ∈ ns)
    (hf : ns.length < fuel) (h : Prac8.union fuel uf x y = (b, uf')) :
    ∃ rx ry, Root uf.parent x rx ∧ Root uf.parent y ry ∧ rx ∈ ns ∧ ry ∈ ns ∧
      (b = false ↔ rx = ry) ∧
      PInv ns uf'.parent uf'.rank ∧
      (b = false →
        uf'.rank = uf.rank ∧
        (∀ a ∈ ns, ∀ s, Root uf'.parent a s ↔ Root uf.parent a s) ∧
        (∀ z ∈ ns, (uf'.parent z = z ↔ uf.parent z = z))) ∧
      (b = true →
        rx ≠ ry ∧
        uf'.parent (if uf.rank rx < uf.rank ry then rx else ry)
          = (if uf.rank rx < uf.rank ry then ry else rx) ∧
        (∀ a ∈ ns, ∀ s, Root uf'.parent a s ↔
          ((Root uf.parent a (if uf.rank rx < uf.rank ry then rx else ry) ∧
             s = (if uf.rank rx < uf.rank ry then ry else rx)) ∨
           (Root uf.parent a s ∧ s ≠ (if uf.rank rx < uf.rank ry then rx else ry)))) ∧
        (∀ z ∈ ns, (uf'.parent z = z ↔
          (uf.parent z = z ∧ z ≠ (if uf.rank rx < uf.rank ry then rx else ry)))) ∧
        (uf.rank rx ≠ uf.rank ry → uf'.rank = uf.rank) ∧
        (uf.rank rx = uf.rank ry →
          uf'.rank rx = uf.rank rx + 1 ∧ ∀ z, z ≠ rx → uf'.rank z = uf.rank z)) := by
  have hfx : rkM ns uf.rank x < fuel := lt_of_le_of_lt (rkM_le ns uf.rank x) hf
  obtain ⟨hroot_x, -, -, hanc1⟩ :=
    find8_spec fuel uf.parent x hinv hx hfx
  set p1 := (Prac8.find fuel uf.parent x).2 with hp1_def
  set rx := (Prac8.find fuel uf.parent x).1 with hrx_def
  have hinv1 : PInv ns p1 uf.rank := ancUpd_pinv hinv hanc1
  have hiff1 := ancUpd_root_iff hinv hanc1
  have hfix1 := ancUpd_fix_iff hinv hanc1
  have hfy : rkM ns uf.rank y < fuel := lt_of_le_of_lt (rkM_le ns uf.rank y) hf
  obtain ⟨hroot_y1, -, -, hanc2⟩ :=
    find8_spec fuel p1 y hinv1 hy hfy
  set p2 := (Prac8.find fuel p1 y).2 with hp2_def
  set ry := (Prac8.find fuel p1 y).1 with hry_def
  have hinv2 : PInv ns p2 uf.rank := ancUpd_pinv hinv1 hanc2
  have hiff2 := ancUpd_root_iff hinv1 hanc2
  have hfix2 := ancUpd_fix_iff hinv1 hanc2
  have hiff12 : ∀ a ∈ ns, ∀ s, (Root p2 a s ↔ Root uf.parent a s) := by
    intro a ha s
    rw [hiff2 a ha s, hiff1 a ha s]
  have hfix12 : ∀ z ∈ ns, (p2 z = z ↔ uf.parent z = z) := by
    intro z hz
    rw [hfix2 z hz, hfix1 z hz]
  have hroot_y : Root uf.parent y ry := (hiff1 y hy ry).mp hroot_y1
  have hrxns : rx ∈ ns := chain_in_ns hinv hx hroot_x.1
  have hryns : ry ∈ ns := chain_in_ns hinv hy hroot_y.1
  have hrx2 : p2 rx = rx := ((hiff12 x hx rx).mpr hroot_x).2
  have hry2 : p2 ry = ry := ((hiff2 y hy ry).mpr hroot_y1).2
  refine ⟨rx, ry, hroot_x, hroot_y, hrxns, hryns, ?_⟩
  simp only [Prac8.union] at h
  rw [← hrx_def, ← hp1_def, ← hry_def, ← hp2_def] at h
  by_cases hreq : rx = ry
  · rw [if_pos hreq] at h
    rw [Prod.mk.injEq] at h
    obtain ⟨hb, huf⟩ := h
    subst hb
    subst huf
    refine ⟨by simp [hreq], hinv2, ?_, ?_⟩
    · intro _
      exact ⟨rfl, hiff12, hfix12⟩
    · intro hc
      cases hc
  · rw [if_neg hreq] at h
    by_cases hrk : uf.rank rx < uf.rank ry
    · rw [if_pos hrk] at h
      rw [Prod.mk.injEq] at h
      obtain ⟨hb, huf⟩ := h
      subst hb
      subst huf
      have hlink := link_root_iff hinv2 hrx2 hry2 hreq
      have hfixl := link_fix_iff (p := p2) hreq
      refine ⟨by simp [hreq], ?_, ?_, ?_⟩
      · intro z hz
        by_cases hzrx : z = rx
        · subst hzrx
          refine ⟨by simp [hryns], ?_⟩
          intro _
          simp only [if_pos rfl]
          exact hrk
        · simp only [if_neg hzrx]
          have h1 := hinv2 z hz
          refine ⟨h1.1, ?_⟩
          intro hne
          have h2 := h1.2 hne
          have hger : uf.rank (p2 z) ≤ uf.rank (if p2 z = rx then ry else p2 z) := by
            by_cases hp2z : p2 z = rx
            · rw [if_pos hp2z, hp2z]
              exact le_of_lt hrk
            · rw [if_neg hp2z]
          omega
      · intro hc
        cases hc
      · intro _
        refine ⟨hreq, by simp [hrk], ?_, ?_, ⟨fun _ => rfl, fun he => absurd he (ne_of_lt hrk)⟩⟩
        · intro a ha s
          rw [if_pos hrk, if_pos hrk]
          rw [hlink a ha s]
          rw [hiff12 a ha rx, hiff12 a ha s]
        · intro z hz
          rw [if_pos hrk]
          rw [hfixl z]
          rw [hfix12 z hz]
    · rw [if_neg hrk] at h
      by_cases hrk2 : uf.rank ry < uf.rank rx
      · rw [if_pos hrk2] at h
        rw [Prod.mk.injEq] at h
        obtain ⟨hb, huf⟩ := h
        subst hb
        subst huf
        have hlink := link_root_iff hinv2 hry2 hrx2 (Ne.symm hreq)
        have hfixl := link_fix_iff (p := p2) (Ne.symm hreq)
        refine ⟨by simp [hreq], ?_, ?_, ?_⟩
        · intro z hz
          by_cases hzry : z = ry
          · subst hzry
            refine ⟨by simp [hrxns], ?_⟩
            intro _
            simp only [if_pos rfl]
            exact hrk2
          · simp only [if_neg hzry]
            have h1 := hinv2 z hz
            refine ⟨h1.1, ?_⟩
            intro hne
            have h2 := h1.2 hne
            have hger : uf.rank (p2 z) ≤ uf.rank (if p2 z = ry then rx else p2 z) := by
              by_cases hp2z : p2 z = ry
              · rw [if_pos hp2z, hp2z]
                exact le_of_lt hrk2
              · rw [if_neg hp2z]
            omega
        · intro hc
          cases hc
        · intro _
          refine ⟨hreq, by simp [hrk], ?_, ?_,
            ⟨fun _ => rfl, fun he => absurd he (by omega)⟩⟩
          · intro a ha s
            rw [if_neg hrk, if_neg hrk]
            rw [hlink a ha s]
            rw [hiff12 a ha ry, hiff12 a ha s]
          · intro z hz
            rw [if_neg hrk]
            rw [hfixl z]
            rw [hfix12 z hz]
      · rw [if_neg hrk2] at h
        rw [Prod.mk.injEq] at h
        obtain ⟨hb, huf⟩ := h
        subst hb
        subst huf
        have heq : uf.rank rx = uf.rank ry := by omega
        have hlink := link_root_iff hinv2 hry2 hrx2 (Ne.symm hreq)
        have hfixl := link_fix_iff (p := p2) (Ne.symm hreq)
        refine ⟨by simp [hreq], ?_, ?_, ?_⟩
        · intro z hz
          by_cases hzry : z = ry
          · subst hzry
            have hpar : ((fun z => if z = ry then rx else p2 z) ry) = rx := by simp
            refine ⟨?_, ?_⟩
            · show ((fun z => if z = ry then rx else p2 z) ry) ∈ ns
              rw [hpar]
              exact hrxns
            · intro _
              show (fun z => if z = rx then uf.rank rx + 1 else uf.rank z) ry
                < (fun z => if z = rx then uf.rank rx + 1 else uf.rank z)
                  ((fun z => if z = ry then rx else p2 z) ry)
              rw [hpar]
              have hne2 : ¬ ry = rx := fun he2 => hreq he2.symm
              have hgoal : uf.rank ry < uf.rank rx + 1 := by omega
              simpa [hne2] using hgoal
          · simp only [if_neg hzry]
            have h1 := hinv2 z hz
            refine ⟨h1.1, ?_⟩
            intro hne
            have h2 := h1.2 hne
            show (fun w => if w = rx then uf.rank rx + 1 else uf.rank w) z
              < (fun w => if w = rx then uf.rank rx + 1 else uf.rank w) (p2 z)
            simp only []
            by_cases hzrx : z = rx
            · subst hzrx
              exact absurd hrx2 hne
            · rw [if_neg hzrx]
              by_cases hp2z : p2 z = rx
              · rw [if_pos hp2z]
                rw [hp2z] at h2
                omega
              · rw [if_neg hp2z]
                exact h2
        · intro hc
          cases hc
        · intro _
          refine ⟨hreq, by simp [hrk], ?_, ?_,
            ⟨fun hne => absurd heq hne, fun _ => ⟨by simp, fun z hz => by simp [hz]⟩⟩⟩
          · intro a ha s
            rw [if_neg hrk, if_neg hrk]
            rw [hlink a ha s]
            rw [hiff12 a ha ry, hiff12 a ha s]
          · intro z hz
            rw [if_neg hrk]
            rw [hfixl z]
            rw [hfix12 z hz]

section C6

/-- C6: counterexample.  The claim states that after `find(x)` every node
visited on the traversed path points directly at the final
representative.  The `prac6.py` `find` only performs path halving: on the
chain `0 → 1 → 2 → 3` it returns representative `3` but leaves the
visited node `0` pointing at its former grandparent `2`, not at `3`. -/
theorem c6_counterexample :
    (Prac6.find 5 (fun x => if x = 0 then 1 else if x = 1 then 2 else
        if x = 2 then 3 else x) 0).1 = 3 ∧
    ((Prac6.find 5 (fun x => if x = 0 then 1 else if x = 1 then 2 else
        if x = 2 then 3 else x) 0).2) 0 = 2 ∧ (2 : ℕ) ≠ 3 := by
  refine ⟨by decide, by decide, by decide⟩

/-- C6 (amended): after `find(x)` on a well-formed disjoint-set state,
`find` returns the representative of x's set and preserves the partition
in both implementations; the `prac8.py` variant sets the parent of every
traversed node directly to the representative (full path compression),
while the `prac6.py` variant only advances each registered node's parent
to its former grandparent (path halving). -/
theorem c6_theorem {ns : List ℕ} {p rk : ℕ → ℕ} {x : ℕ} {fuel : ℕ}
    (hinv : PInv ns p rk) (hx : x ∈ ns) (hf : ns.length < fuel) :
    (Root p x (Prac6.find fuel p x).1 ∧
     (∀ y ∈ ns, (Prac6.find fuel p x).2 y = p y ∨
        (Prac6.find fuel p x).2 y = p (p y)) ∧
     (∀ y ∈ ns, ∀ s, Root ((Prac6.find fuel p x).2) y s ↔ Root p y s)) ∧
    (Root p x (Prac8.find fuel p x).1 ∧
     (∀ y, ChainTo p x y → (Prac8.find fuel p x).2 y = (Prac8.find fuel p x).1) ∧
     (∀ y, ¬ ChainTo p x y → (Prac8.find fuel p x).2 y = p y) ∧
     (∀ y ∈ ns, ∀ s, Root ((Prac8.find fuel p x).2) y s ↔ Root p y s)) := by
  have hfx : rkM ns rk x < fuel := lt_of_le_of_lt (rkM_le ns rk x) hf
  obtain ⟨h61, h62, h63, -⟩ := find6_spec fuel p x hinv hx hfx
  obtain ⟨h81, h82, h83, h84⟩ := find8_spec fuel p x hinv hx hfx
  exact ⟨⟨h61, h63, ancUpd_root_iff hinv h62⟩, ⟨h81, h82, h83, ancUpd_root_iff hinv h84⟩⟩

/-- C6 witness: the amended theorem applied to the concrete 4-chain. -/
theorem c6_witness :
    Root (fun x => if x = 0 then 1 else if x = 1 then 2 else if x = 2 then 3 else x) 0
      (Prac6.find 5 (fun x => if x = 0 then 1 else if x = 1 then 2 else
        if x = 2 then 3 else x) 0).1 :=
  (@c6_theorem [0, 1, 2, 3]
    (fun x => if x = 0 then 1 else if x = 1 then 2 else if x = 2 then 3 else x)
    (fun v => v) 0 5 (by decide) (by decide) (by decide)).1.1

end C6

section C7

/-- C7: counterexample.  The claim states that `union(x, y)` on two nodes
already in the same set "changes no parent or rank and returns false".
On the parent chain `0 → 1 → 2`, `union(0, 1)` returns `False` but the
path halving inside its `find` calls rewrites the parent of `0` from `1`
to `2`. -/
theorem c7_counterexample :
    (Prac6.union 4 ⟨fun x => if x = 0 then 1 else if x = 1 then 2 else x,
        fun _ => 0⟩ 0 1).1 = false ∧
    ((Prac6.union 4 ⟨fun x => if x = 0 then 1 else if x = 1 then 2 else x,
        fun _ => 0⟩ 0 1).2.parent 0 = 2) ∧
    ((fun x => if x = 0 then 1 else if x = 1 then 2 else x) 0 = 1) ∧ (1 : ℕ) ≠ 2 :=
  ⟨by decide, by decide, by decide, by decide⟩

/-- C7 (amended): for registered nodes x and y of a well-formed
disjoint-set state, both `union` implementations return true iff x and y
were in different sets; when they were, the lower-rank root is attached
under the higher-rank root (the y-root under the x-root on ties) and a
rank is incremented exactly when the two roots' ranks are equal; when
they were already in the same set, the ranks and the partition are
unchanged and false is returned — though the parent pointers along the
traversed paths may still be rewritten by path compression inside
`find`. -/
theorem c7_theorem {ns : List ℕ} {uf : Prac6.UF} {x y : ℕ} {fuel : ℕ}
    {b6 b8 : Bool} {uf6 uf8 : Prac6.UF}
    (hinv : PInv ns uf.parent uf.rank) (hx : x ∈ ns) (hy : y ∈ ns)
    (hf : ns.length < fuel)
    (h6 : Prac6.union fuel uf x y = (b6, uf6))
    (h8 : Prac8.union fuel uf x y = (b8, uf8)) :
    ((b6 = true ↔ ¬ sameRoot uf.parent x y) ∧
     (b6 = false → uf6.rank = uf.rank ∧
        (∀ a ∈ ns, ∀ s, Root uf6.parent a s ↔ Root uf.parent a s)) ∧
     (b6 = true → ∃ rx ry, Root uf.parent x rx ∧ Root uf.parent y ry ∧ rx ≠ ry ∧
        uf6.parent (if uf.rank rx < uf.rank ry then rx else ry)
          = (if uf.rank rx < uf.rank ry then ry else rx) ∧
        (uf.rank rx ≠ uf.rank ry → uf6.rank = uf.rank) ∧
        (uf.rank rx = uf.rank ry →
          uf6.rank rx = uf.rank rx + 1 ∧ ∀ z, z ≠ rx → uf6.rank z = uf.rank z))) ∧
    ((b8 = true ↔ ¬ sameRoot uf.parent x y) ∧
     (b8 = false → uf8.rank = uf.rank ∧
        (∀ a ∈ ns, ∀ s, Root uf8.parent a s ↔ Root uf.parent a s)) ∧
     (b8 = true → ∃ rx ry, Root uf.parent x rx ∧ Root uf.parent y ry ∧ rx ≠ ry ∧
        uf8.parent (if uf.rank rx < uf.rank ry then rx else ry)
          = (if uf.rank rx < uf.rank ry then ry else rx) ∧
        (uf.rank rx ≠ uf.rank ry → uf8.rank = uf.rank) ∧
        (uf.rank rx = uf.rank ry →
          uf8.rank rx = uf.rank rx + 1 ∧ ∀ z, z ≠ rx → uf8.rank z = uf.rank z))) := by
  obtain ⟨rx, ry, hrx, hry, -, -, hbf, -, hfalse, htrue⟩ := union6_spec hinv hx hy hf h6
  obtain ⟨rx8, ry8, hrx8, hry8, -, -, hbf8, -, hfalse8, htrue8⟩ := union8_spec hinv hx hy hf h8
  have hsame : sameRoot uf.parent x y ↔ rx = ry := by
    constructor
    · rintro ⟨r, h1, h2⟩
      rw [root_unique hrx h1, root_unique hry h2]
    · intro he
      exact ⟨ry, he ▸ hrx, hry⟩
  have hsame8 : sameRoot uf.parent x y ↔ rx8 = ry8 := by
    constructor
    · rintro ⟨r, h1, h2⟩
      rw [root_unique hrx8 h1, root_unique hry8 h2]
    · intro he
      exact ⟨ry8, he ▸ hrx8, hry8⟩
  constructor
  · refine ⟨?_, ?_, ?_⟩
    · rw [hsame, ← hbf]
      cases b6 <;> simp
    · intro hb
      obtain ⟨h1, h2, -⟩ := hfalse hb
      exact ⟨h1, h2⟩
    · intro hb
      obtain ⟨hne, hpar, -, -, hrk1, hrk2⟩ := htrue hb
      exact ⟨rx, ry, hrx, hry, hne, hpar, hrk1, hrk2⟩
  · refine ⟨?_, ?_, ?_⟩
    · rw [hsame8, ← hbf8]
      cases b8 <;> simp
    · intro hb
      obtain ⟨h1, h2, -⟩ := hfalse8 hb
      exact ⟨h1, h2⟩
    · intro hb
      obtain ⟨hne, hpar, -, -, hrk1, hrk2⟩ := htrue8 hb
      exact ⟨rx8, ry8, hrx8, hry8, hne, hpar, hrk1, hrk2⟩

/-- C7 witness: the amended theorem applied to two singleton sets, where
`union` reports a merge. -/
theorem c7_witness :
    ((Prac6.union 3 ⟨fun n => n, fun _ => 0⟩ 0 1).1 = true ↔
      ¬ sameRoot (fun n => n) 0 1) :=
  (@c7_theorem [0, 1] ⟨fun n => n, fun _ => 0⟩ 0 1 3
    (Prac6.union 3 ⟨fun n => n, fun _ => 0⟩ 0 1).1
    (Prac8.union 3 ⟨fun n => n, fun _ => 0⟩ 0 1).1
    (Prac6.union 3 ⟨fun n => n, fun _ => 0⟩ 0 1).2
    (Prac8.union 3 ⟨fun n => n, fun _ => 0⟩ 0 1).2
    (by decide) (by decide) (by decide) (by decide)
    Prod.mk.eta.symm Prod.mk.eta.symm).1.1

end C7

section AStarBase

/-! Preservation of `ABaseE` through one `a_star` iteration, sufficiency
of the `fuelB` fuel, and the reachability reading of the result. -/

theorem walk_reach {G : List (ℕ × List (ℕ × ℚ))} {a t : ℕ} {p : List ℕ}
    {w : ℚ} (hw : Walk G a t p w) : Reach G a t := by
  induction hw with
  | nil a => exact Relation.ReflTransGen.refl
  | cons hmem _ ih => exact Relation.ReflTransGen.head ⟨_, hmem⟩ ih

theorem walk_snoc {G : List (ℕ × List (ℕ × ℚ))} {a u v : ℕ} {p : List ℕ}
    {w c : ℚ} (hw : Walk G a u p w) (hmem : (v, c) ∈ Prac3.nbrs G u) :
    Walk G a v (p ++ [v]) (w + c) := by
  induction hw with
  | nil b => simpa using Walk.cons hmem (Walk.nil v)
  | cons hm _ ih => simpa [add_assoc] using Walk.cons hm (ih hmem)

theorem relax1_cases (goal : ℕ) (h : ℕ → ℕ → ℚ) (cur : ℕ)
    (st : Prac3.AState) (nc : ℕ × ℚ) :
    (Prac3.relax1 goal h cur st nc = st ∧
      (nc.1 ∈ st.closed ∨ st.g cur = none ∨
        ∃ gc gn, st.g cur = some gc ∧ st.g nc.1 = some gn ∧
          gn ≤ gc + nc.2)) ∨
    (∃ gc, st.g cur = some gc ∧ nc.1 ∉ st.closed ∧
      (st.g nc.1 = none ∨ ∃ gn, st.g nc.1 = some gn ∧ gc + nc.2 < gn) ∧
      Prac3.relax1 goal h cur st nc =
        { openS := st.openS ++ [(gc + nc.2 + h nc.1 goal, st.cnt, nc.1)],
          cameFrom := Prac3.upd st.cameFrom nc.1 cur,
          g := Prac3.upd st.g nc.1 (gc + nc.2),
          f := Prac3.upd st.f nc.1 (gc + nc.2 + h nc.1 goal),
          closed := st.closed, cnt := st.cnt + 1 }) := by
  by_cases hcl : nc.1 ∈ st.closed
  · exact Or.inl ⟨by simp [Prac3.relax1, hcl], Or.inl hcl⟩
  · cases hg : st.g cur with
    | none => exact Or.inl ⟨by simp [Prac3.relax1, hcl, hg], Or.inr (Or.inl rfl)⟩
    | some gc =>
      cases hgn : st.g nc.1 with
      | none =>
        refine Or.inr ⟨gc, rfl, hcl, Or.inl rfl, ?_⟩
        simp [Prac3.relax1, hcl, hg, hgn]
      | some gn =>
        by_cases hlt : gc + nc.2 < gn
        · refine Or.inr ⟨gc, rfl, hcl, Or.inr ⟨gn, rfl, hlt⟩, ?_⟩
          simp [Prac3.relax1, hcl, hg, hgn, hlt]
        · refine Or.inl ⟨?_, Or.inr (Or.inr ⟨gc, gn, rfl, rfl, not_lt.1 hlt⟩)⟩
          simp [Prac3.relax1, hcl, hg, hgn, hlt]

theorem relax1_noop {goal cur : ℕ} {h : ℕ → ℕ → ℚ} {st : Prac3.AState}
    {nc : ℕ × ℚ} (hr : RelaxedAt st cur nc) :
    Prac3.relax1 goal h cur st nc = st := by
  rcases relax1_cases goal h cur st nc with ⟨heq, -⟩ | ⟨gc, hgc, hcl, hbet, -⟩
  · exact heq
  · exfalso
    rcases hr with hmem | ⟨gu, gv, hgu, hgv, hle⟩
    · exact hcl hmem
    · have egu : gu = gc := by
        have := hgu.symm.trans hgc
        exact Option.some.inj this
      rcases hbet with hnone | ⟨gn, hgn, hlt⟩
      · rw [hgv] at hnone; exact Option.noConfusion hnone
      · have egv : gv = gn := by
          have := hgv.symm.trans hgn
          exact Option.some.inj this
        rw [egv, egu] at hle
        exact absurd hlt (not_lt.2 hle)

theorem relax1_relaxedAt_mono {goal cur u : ℕ} {h : ℕ → ℕ → ℚ}
    {st : Prac3.AState} {nc vc : ℕ × ℚ}
    (hu : u ∈ st.closed) (hr : RelaxedAt st u vc) :
    RelaxedAt (Prac3.relax1 goal h cur st nc) u vc := by
  rcases relax1_cases goal h cur st nc with ⟨heq, -⟩ | ⟨gc, hgc, hcl, hbet, heq⟩
  · rw [heq]; exact hr
  · rw [heq]
    rcases hr with hmem | ⟨gu, gv, hgu, hgv, hle⟩
    · exact Or.inl hmem
    · right
      have hune : u ≠ nc.1 := fun e => hcl (e ▸ hu)
      by_cases hv : vc.1 = nc.1
      · rcases hbet with hnone | ⟨gn, hgn, hlt⟩
        · rw [hv] at hgv; rw [hgv] at hnone; exact absurd hnone (by simp)
        · rw [hv] at hgv
          have egv : gn = gv := Option.some.inj (hgn.symm.trans hgv)
          refine ⟨gu, gc + nc.2, ?_, ?_, ?_⟩
          · show Prac3.upd st.g nc.1 (gc + nc.2) u = some gu
            unfold Prac3.upd; rw [if_neg hune]; exact hgu
          · show Prac3.upd st.g nc.1 (gc + nc.2) vc.1 = some (gc + nc.2)
            unfold Prac3.upd; rw [hv, if_pos rfl]
          · exact le_trans (le_of_lt (egv ▸ hlt)) hle
      · refine ⟨gu, gv, ?_, ?_, hle⟩
        · show Prac3.upd st.g nc.1 (gc + nc.2) u = some gu
          unfold Prac3.upd; rw [if_neg hune]; exact hgu
        · show Prac3.upd st.g nc.1 (gc + nc.2) vc.1 = some gv
          unfold Prac3.upd; rw [if_neg hv]; exact hgv

theorem relax1_pres {G : List (ℕ × List (ℕ × ℚ))} {start goal : ℕ}
    {h : ℕ → ℕ → ℚ} {exc : List ℕ} {st : Prac3.AState} {cur : ℕ}
    {nc : ℕ × ℚ} (hb : ABaseE G start goal h exc st)
    (hcur : cur ∈ st.closed) (hnc : nc ∈ Prac3.nbrs G cur) :
    ABaseE G start goal h exc (Prac3.relax1 goal h cur st nc) ∧
    (Prac3.relax1 goal h cur st nc).closed = st.closed ∧
    (Prac3.relax1 goal h cur st nc).openS.length ≤ st.openS.length + 1 ∧
    RelaxedAt (Prac3.relax1 goal h cur st nc) cur nc := by
  have hnc' : (nc.1, nc.2) ∈ Prac3.nbrs G cur := by rw [Prod.mk.eta]; exact hnc
  rcases relax1_cases goal h cur st nc with ⟨heq, hside⟩ | ⟨gc, hgc, hcl, hbet, heq⟩
  · rw [heq]
    refine ⟨hb, rfl, Nat.le_succ _, ?_⟩
    rcases hside with hm | hn | ⟨gc, gn, h1, h2, hle⟩
    · exact Or.inl hm
    · obtain ⟨q, hq⟩ := hb.closedDom cur hcur
      rw [hn] at hq; exact absurd hq (by simp)
    · exact Or.inr ⟨gc, gn, h1, h2, hle⟩
  · have hncur : cur ≠ nc.1 := fun e => hcl (e ▸ hcur)
    have hCl : (Prac3.relax1 goal h cur st nc).closed = st.closed := by rw [heq]
    have hOp : (Prac3.relax1 goal h cur st nc).openS =
        st.openS ++ [(gc + nc.2 + h nc.1 goal, st.cnt, nc.1)] := by rw [heq]
    have hG : (Prac3.relax1 goal h cur st nc).g =
        Prac3.upd st.g nc.1 (gc + nc.2) := by rw [heq]
    have hCf : (Prac3.relax1 goal h cur st nc).cameFrom =
        Prac3.upd st.cameFrom nc.1 cur := by rw [heq]
    have hgupd : ∀ x, x ≠ nc.1 → Prac3.upd st.g nc.1 (gc + nc.2) x = st.g x := by
      intro x hx; unfold Prac3.upd; rw [if_neg hx]
    have hgupd2 : Prac3.upd st.g nc.1 (gc + nc.2) nc.1 = some (gc + nc.2) := by
      unfold Prac3.upd; rw [if_pos rfl]
    have hcfupd : ∀ x, x ≠ nc.1 →
        Prac3.upd st.cameFrom nc.1 cur x = st.cameFrom x := by
      intro x hx; unfold Prac3.upd; rw [if_neg hx]
    have hcfupd2 : Prac3.upd st.cameFrom nc.1 cur nc.1 = some cur := by
      unfold Prac3.upd; rw [if_pos rfl]
    refine ⟨⟨?_, ?_, ?_, ?_, ?_, ?_, ?_, ?_, ?_, ?_, ?_, ?_⟩, hCl, ?_, ?_⟩
    · rw [hCl]; exact hb.closedNodup
    · rw [hCl]; exact hb.goalNotClosed
    · rw [hG]
      by_cases hs : start = nc.1
      · exact ⟨gc + nc.2, by rw [hs]; exact hgupd2⟩
      · obtain ⟨q, hq⟩ := hb.startDom
        exact ⟨q, by rw [hgupd start hs]; exact hq⟩
    · intro u hu
      rw [hCl] at hu
      have hune : u ≠ nc.1 := fun e => hcl (e ▸ hu)
      rw [hG, hgupd u hune]
      exact hb.closedDom u hu
    · intro u hu hex vc hvc
      rw [hCl] at hu
      exact relax1_relaxedAt_mono hu (hb.closedRelaxed u hu hex vc hvc)
    · intro e he
      rw [hOp] at he
      rw [hG]
      rcases List.mem_append.1 he with h1 | h2
      · by_cases hx : e.2.2 = nc.1
        · exact ⟨gc + nc.2, by rw [hx]; exact hgupd2⟩
        · rw [hgupd _ hx]; exact hb.heapDom e h1
      · have h2' : e = (gc + nc.2 + h nc.1 goal, st.cnt, nc.1) :=
          List.mem_singleton.mp h2
        subst h2'
        exact ⟨gc + nc.2, hgupd2⟩
    · intro v gv hgv hvcl
      rw [hCl] at hvcl
      rw [hG] at hgv
      rw [hOp]
      by_cases hx : v = nc.1
      · subst hx
        rw [hgupd2] at hgv
        have egv : gc + nc.2 = gv := Option.some.inj hgv
        refine ⟨st.cnt, List.mem_append_right _ ?_⟩
        rw [← egv]
        exact List.mem_singleton.mpr rfl
      · rw [hgupd v hx] at hgv
        obtain ⟨c, hc⟩ := hb.fresh v gv hgv hvcl
        exact ⟨c, List.mem_append_left _ hc⟩
    · intro e he
      rw [hOp] at he
      rw [hG]
      rcases List.mem_append.1 he with h1 | h2
      · obtain ⟨gv, hgv, hle⟩ := hb.entryGe e h1
        by_cases hx : e.2.2 = nc.1
        · rw [hx] at hgv hle ⊢
          rw [hgupd2]
          refine ⟨gc + nc.2, rfl, ?_⟩
          rcases hbet with hnone | ⟨gn, hgn, hlt⟩
          · rw [hgv] at hnone; exact absurd hnone (by simp)
          · have egv : gn = gv := Option.some.inj (hgn.symm.trans hgv)
            have : gc + nc.2 < gv := egv ▸ hlt
            have := add_le_add_right (le_of_lt this) (h nc.1 goal)
            exact le_trans this hle
        · rw [hgupd _ hx]; exact ⟨gv, hgv, hle⟩
      · have h2' : e = (gc + nc.2 + h nc.1 goal, st.cnt, nc.1) :=
          List.mem_singleton.mp h2
        subst h2'
        exact ⟨gc + nc.2, hgupd2, le_refl _⟩
    · intro v q hq
      rw [hG] at hq
      by_cases hx : v = nc.1
      · subst hx
        rw [hgupd2] at hq
        have eq : gc + nc.2 = q := Option.some.inj hq
        obtain ⟨p, hp⟩ := hb.gWalk cur gc hgc
        exact ⟨p ++ [nc.1], eq ▸ walk_snoc hp hnc'⟩
      · rw [hgupd v hx] at hq
        exact hb.gWalk v q hq
    · intro v u hvu
      rw [hCf] at hvu
      rw [hCl, hG]
      by_cases hx : v = nc.1
      · subst hx
        rw [hcfupd2] at hvu
        have eu : cur = u := Option.some.inj hvu
        subst eu
        refine ⟨hcur, nc.2, gc, gc + nc.2, hnc', ?_, hgupd2, rfl⟩
        rw [hgupd cur hncur]; exact hgc
      · rw [hcfupd v hx] at hvu
        obtain ⟨huc, c, gu, gv, hm, hgu, hgv, hsum⟩ := hb.cfClosed v u hvu
        have hune : u ≠ nc.1 := fun e => hcl (e ▸ huc)
        refine ⟨huc, c, gu, gv, hm, ?_, ?_, hsum⟩
        · rw [hgupd u hune]; exact hgu
        · rw [hgupd v hx]; exact hgv
    · intro v u hvu hv
      rw [hCf] at hvu
      rw [hCl] at hv ⊢
      by_cases hx : v = nc.1
      · exact absurd (hx ▸ hv) hcl
      · rw [hcfupd v hx] at hvu
        exact hb.cfOrder v u hvu hv
    · intro v q hq
      rw [hG] at hq
      rw [hCf]
      by_cases hx : v = nc.1
      · subst hx
        right
        rw [hcfupd2]
        exact Option.noConfusion
      · rw [hgupd v hx] at hq
        rcases hb.domCf v q hq with h1 | h2
        · exact Or.inl h1
        · right
          rw [hcfupd v hx]
          exact h2
    · rw [hOp]
      simp
    · right
      refine ⟨gc, gc + nc.2, ?_, ?_, le_refl _⟩
      · rw [hG, hgupd cur hncur]; exact hgc
      · rw [hG]; exact hgupd2

theorem relaxGo_pres {G : List (ℕ × List (ℕ × ℚ))} {start goal : ℕ}
    {h : ℕ → ℕ → ℚ} {exc : List ℕ} {cur : ℕ} :
    ∀ (ncs : List (ℕ × ℚ)) (st : Prac3.AState),
      (∀ vc ∈ ncs, vc ∈ Prac3.nbrs G cur) →
      ABaseE G start goal h exc st → cur ∈ st.closed →
      ABaseE G start goal h exc (ncs.foldl (Prac3.relax1 goal h cur) st) ∧
      (ncs.foldl (Prac3.relax1 goal h cur) st).closed = st.closed ∧
      (ncs.foldl (Prac3.relax1 goal h cur) st).openS.length ≤
        st.openS.length + ncs.length ∧
      (∀ vc ∈ ncs,
        RelaxedAt (ncs.foldl (Prac3.relax1 goal h cur) st) cur vc) ∧
      (∀ vc, RelaxedAt st cur vc →
        RelaxedAt (ncs.foldl (Prac3.relax1 goal h cur) st) cur vc) := by
  intro ncs
  induction ncs with
  | nil =>
    intro st _ hb hcur
    exact ⟨hb, rfl, Nat.le_add_right _ _, by simp, fun vc hr => hr⟩
  | cons a as ih =>
    intro st hmem hb hcur
    obtain ⟨hb1, hcl1, hlen1, hrel1⟩ :=
      relax1_pres hb hcur (hmem a (List.mem_cons_self a as))
    have hcur1 : cur ∈ (Prac3.relax1 goal h cur st a).closed := hcl1 ▸ hcur
    obtain ⟨hbf, hclf, hlenf, hallf, hmono⟩ :=
      ih (Prac3.relax1 goal h cur st a)
        (fun vc hv => hmem vc (List.mem_cons_of_mem a hv)) hb1 hcur1
    simp only [List.foldl_cons]
    refine ⟨hbf, hclf.trans hcl1, ?_, ?_, ?_⟩
    · have := hlenf
      simp only [List.length_cons]
      omega
    · intro vc hv
      rcases List.mem_cons.1 hv with hva | hvas
      · subst hva; exact hmono vc hrel1
      · exact hallf vc hvas
    · intro vc hr
      exact hmono vc (relax1_relaxedAt_mono hcur hr)

theorem relaxGo_noop {goal cur : ℕ} {h : ℕ → ℕ → ℚ} :
    ∀ (ncs : List (ℕ × ℚ)) (st : Prac3.AState),
      (∀ vc ∈ ncs, RelaxedAt st cur vc) →
      ncs.foldl (Prac3.relax1 goal h cur) st = st
  | [], _, _ => rfl
  | a :: as, st, hall => by
    have h1 : Prac3.relax1 goal h cur st a = st :=
      relax1_noop (hall a (List.mem_cons_self a as))
    simp only [List.foldl_cons, h1]
    exact relaxGo_noop as st (fun vc hv => hall vc (List.mem_cons_of_mem a hv))

theorem relaxAll_noop {G : List (ℕ × List (ℕ × ℚ))} {goal cur : ℕ}
    {h : ℕ → ℕ → ℚ} {st : Prac3.AState}
    (hall : ∀ vc ∈ Prac3.nbrs G cur, RelaxedAt st cur vc) :
    Prac3.relaxAll G goal h cur st = st := by
  unfold Prac3.relaxAll
  exact relaxGo_noop (Prac3.nbrs G cur) st hall

theorem relaxAll_close {G : List (ℕ × List (ℕ × ℚ))} {start goal : ℕ}
    {h : ℕ → ℕ → ℚ} {st : Prac3.AState} {cur : ℕ}
    (hb : ABaseE G start goal h [cur] st) (hcur : cur ∈ st.closed) :
    ABaseE G start goal h [] (Prac3.relaxAll G goal h cur st) ∧
    (Prac3.relaxAll G goal h cur st).closed = st.closed ∧
    (Prac3.relaxAll G goal h cur st).openS.length ≤
      st.openS.length + (Prac3.nbrs G cur).length := by
  obtain ⟨hbf, hclf, hlenf, hallf, -⟩ :=
    relaxGo_pres (Prac3.nbrs G cur) st
      (fun _ hv => hv) hb hcur
  refine ⟨⟨hbf.closedNodup, hbf.goalNotClosed, hbf.startDom, hbf.closedDom,
    ?_, hbf.heapDom, hbf.fresh, hbf.entryGe, hbf.gWalk, hbf.cfClosed,
    hbf.cfOrder, hbf.domCf⟩, hclf, hlenf⟩
  intro u hu _ vc hvc
  by_cases hx : u = cur
  · subst hx
    exact hallf vc hvc
  · exact hbf.closedRelaxed u hu (by simp [hx]) vc hvc

theorem lookup_eq_none_of_not_mem {α : Type} {G : List (ℕ × α)} {v : ℕ}
    (hv : v ∉ G.map Prod.fst) : G.lookup v = none := by
  induction G with
  | nil => rfl
  | cons a as ih =>
    simp only [List.map_cons, List.mem_cons, not_or] at hv
    obtain ⟨k, b⟩ := a
    simp only [List.lookup]
    have : (v == k) = false := beq_eq_false_iff_ne.mpr hv.1
    rw [this]
    exact ih hv.2

theorem nbrs_eq_nil_of_not_mem {G : List (ℕ × List (ℕ × ℚ))} {v : ℕ}
    (hv : v ∉ G.map Prod.fst) : Prac3.nbrs G v = [] := by
  unfold Prac3.nbrs
  rw [lookup_eq_none_of_not_mem hv]
  rfl

theorem filter_map_sum_drop (deg : ℕ → ℕ) (cur : ℕ) :
    ∀ (ks cl : List ℕ), ks.Nodup → cur ∉ cl →
    ((ks.filter (fun k => decide (k ∉ cl ++ [cur]))).map deg).sum
      + (if cur ∈ ks then deg cur else 0)
      = ((ks.filter (fun k => decide (k ∉ cl))).map deg).sum
  | [], _, _, _ => by simp
  | a :: as, cl, hnd, hcur => by
    rw [List.nodup_cons] at hnd
    have ih := filter_map_sum_drop deg cur as cl hnd.2 hcur
    by_cases hac : a = cur
    · subst hac
      rw [List.filter_cons_of_neg (by simp),
        List.filter_cons_of_pos (by simp [hcur]),
        if_pos (List.mem_cons_self a as)]
      have hfc : as.filter (fun k => decide (k ∉ cl ++ [a])) =
          as.filter (fun k => decide (k ∉ cl)) := by
        refine List.filter_congr ?_
        intro k hk
        have hka : k ≠ a := fun e => hnd.1 (e ▸ hk)
        simp [List.mem_append, hka]
      rw [hfc]
      simp only [List.map_cons, List.sum_cons]
      omega
    · have hif : (if cur ∈ a :: as then deg cur else 0) =
          (if cur ∈ as then deg cur else 0) := by
        by_cases hcin : cur ∈ as
        · rw [if_pos (List.mem_cons_of_mem a hcin), if_pos hcin]
        · rw [if_neg (fun hm => (List.mem_cons.1 hm).elim
            (fun e => hac e.symm) hcin), if_neg hcin]
      rw [hif]
      by_cases hacl : a ∉ cl
      · have m1 : a ∉ cl ++ [cur] := by simp [List.mem_append, hacl, hac]
        rw [List.filter_cons_of_pos (by simp [m1]),
          List.filter_cons_of_pos (by simp [hacl])]
        simp only [List.map_cons, List.sum_cons]
        omega
      · have hin : a ∈ cl := not_not.1 hacl
        have m1 : a ∈ cl ++ [cur] := List.mem_append_left _ hin
        rw [List.filter_cons_of_neg (by simp [m1]),
          List.filter_cons_of_neg (by simp [hin])]
        exact ih

theorem indexOf_append_left {a : ℕ} {l l' : List ℕ} (h : a ∈ l) :
    (l ++ l').indexOf a = l.indexOf a := by
  induction l with
  | nil => exact absurd h (List.not_mem_nil a)
  | cons b bs ih =>
    by_cases hab : a = b
    · subst hab
      simp [List.indexOf_cons_self]
    · rcases List.mem_cons.1 h with he | hm
      · exact absurd he hab
      · have hba : (a == b) = false := beq_eq_false_iff_ne.mpr hab
        simp only [List.cons_append, List.indexOf_cons, hba, cond_false]
        rw [ih hm]

theorem indexOf_append_self {a : ℕ} {l : List ℕ} (h : a ∉ l) :
    (l ++ [a]).indexOf a = l.length := by
  induction l with
  | nil => simp [List.indexOf_cons_self]
  | cons b bs ih =>
    have hab : a ≠ b := fun e => h (e ▸ List.mem_cons_self b bs)
    simp only [List.cons_append, List.indexOf_cons,
      beq_eq_false_iff_ne.mpr hab, beq_eq_false_iff_ne.mpr (Ne.symm hab),
      cond_false, List.length_cons]
    rw [ih (fun hm => h (List.mem_cons_of_mem b hm))]

theorem reach_dom_of_empty {G : List (ℕ × List (ℕ × ℚ))} {start goal : ℕ}
    {h : ℕ → ℕ → ℚ} {st : Prac3.AState}
    (hb : ABaseE G start goal h [] st) (hemp : st.openS = []) :
    ∀ v, Reach G start v → ∃ q, st.g v = some q := by
  intro v hv
  induction hv with
  | refl => exact hb.startDom
  | @tail b c _ hstep ih =>
    obtain ⟨q, hq⟩ := ih
    have hbcl : b ∈ st.closed := by
      by_contra hnb
      obtain ⟨cc, hc⟩ := hb.fresh b q hq hnb
      rw [hemp] at hc
      exact absurd hc (List.not_mem_nil _)
    obtain ⟨cw, hcmem⟩ := hstep
    rcases hb.closedRelaxed b hbcl (by simp) (c, cw) hcmem with
      hvcl | ⟨gu, gv, _, hgv, _⟩
    · exact hb.closedDom _ hvcl
    · exact ⟨gv, hgv⟩

theorem empty_unreach {G : List (ℕ × List (ℕ × ℚ))} {start goal : ℕ}
    {h : ℕ → ℕ → ℚ} {st : Prac3.AState}
    (hb : ABaseE G start goal h [] st) (hemp : st.openS = []) :
    ¬ Reach G start goal := by
  intro hr
  obtain ⟨q, hq⟩ := reach_dom_of_empty hb hemp goal hr
  obtain ⟨c, hc⟩ := hb.fresh goal q hq hb.goalNotClosed
  rw [hemp] at hc
  exact absurd hc (List.not_mem_nil _)

theorem recon_some_of_closed {G : List (ℕ × List (ℕ × ℚ))} {start goal : ℕ}
    {h : ℕ → ℕ → ℚ} {st : Prac3.AState}
    (hb : ABaseE G start goal h [] st) :
    ∀ (k u : ℕ), u ∈ st.closed → st.closed.indexOf u < k →
      ∃ p, Prac3.reconstruct_path st.cameFrom k u = some p ∧ p ≠ [] := by
  intro k
  induction k with
  | zero => intro u _ hlt; exact absurd hlt (Nat.not_lt_zero _)
  | succ k' ih =>
    intro u hu hlt
    unfold Prac3.reconstruct_path
    cases hcf : st.cameFrom u with
    | none => exact ⟨[u], rfl, by simp⟩
    | some prev =>
      have h1 := (hb.cfClosed u prev hcf).1
      have h2 := hb.cfOrder u prev hcf hu
      obtain ⟨p, hp, -⟩ := ih prev h1 (by omega)
      refine ⟨p ++ [u], ?_, by simp⟩
      show (Prac3.reconstruct_path st.cameFrom k' prev).map
        (fun q => q ++ [u]) = some (p ++ [u])
      rw [hp]
      rfl

theorem recon_top {G : List (ℕ × List (ℕ × ℚ))} {start goal : ℕ}
    {h : ℕ → ℕ → ℚ} {st : Prac3.AState} (hb : ABaseE G start goal h [] st) :
    ∃ p, Prac3.reconstruct_path st.cameFrom (st.closed.length + 1) goal =
      some p ∧ p ≠ [] := by
  unfold Prac3.reconstruct_path
  cases hcf : st.cameFrom goal with
  | none => exact ⟨[goal], rfl, by simp⟩
  | some prev =>
    have h1 := (hb.cfClosed goal prev hcf).1
    obtain ⟨p, hp, -⟩ := recon_some_of_closed hb st.closed.length prev h1
      (List.indexOf_lt_length.mpr h1)
    refine ⟨p ++ [goal], ?_, by simp⟩
    show (Prac3.reconstruct_path st.cameFrom st.closed.length prev).map
      (fun q => q ++ [goal]) = some (p ++ [goal])
    rw [hp]
    rfl

theorem abase_pop {G : List (ℕ × List (ℕ × ℚ))} {start goal : ℕ}
    {h : ℕ → ℕ → ℚ} {st : Prac3.AState} {e : HEntry} {rest : List HEntry}
    (hb : ABaseE G start goal h [] st)
    (hpop : popMin st.openS = some (e, rest)) (hcl : e.2.2 ∈ st.closed) :
    ABaseE G start goal h []
      { openS := rest, cameFrom := st.cameFrom, g := st.g, f := st.f,
        closed := st.closed, cnt := st.cnt } := by
  obtain ⟨hmem, hrest, -, -⟩ := popMin_some hpop
  refine ⟨hb.closedNodup, hb.goalNotClosed, hb.startDom, hb.closedDom, ?_,
    ?_, ?_, ?_, hb.gWalk, hb.cfClosed, hb.cfOrder, hb.domCf⟩
  · exact fun u hu hex vc hvc => hb.closedRelaxed u hu hex vc hvc
  · intro e' he'
    exact hb.heapDom e' (by rw [hrest] at he'; exact rmFirst_subset he')
  · intro v gv hgv hvcl
    obtain ⟨c, hc⟩ := hb.fresh v gv hgv hvcl
    have hvne : v ≠ e.2.2 := fun e' => hvcl (e' ▸ hcl)
    have hne : ((gv + h v goal, c, v) : HEntry) ≠ e :=
      fun he => hvne (congrArg (fun x : HEntry => x.2.2) he)
    exact ⟨c, by rw [hrest]; exact mem_rmFirst_of_ne hc hne⟩
  · intro e' he'
    exact hb.entryGe e' (by rw [hrest] at he'; exact rmFirst_subset he')

theorem abase_close {G : List (ℕ × List (ℕ × ℚ))} {start goal : ℕ}
    {h : ℕ → ℕ → ℚ} {st : Prac3.AState} {e : HEntry} {rest : List HEntry}
    (hb : ABaseE G start goal h [] st)
    (hpop : popMin st.openS = some (e, rest))
    (hg : e.2.2 ≠ goal) (hcl : e.2.2 ∉ st.closed) :
    ABaseE G start goal h [e.2.2]
      { openS := rest, cameFrom := st.cameFrom, g := st.g, f := st.f,
        closed := st.closed ++ [e.2.2], cnt := st.cnt } := by
  obtain ⟨hmem, hrest, -, -⟩ := popMin_some hpop
  refine ⟨?_, ?_, hb.startDom, ?_, ?_, ?_, ?_, ?_, hb.gWalk, ?_, ?_, ?_⟩
  · refine List.Nodup.append hb.closedNodup (List.nodup_singleton _) ?_
    intro a ha hav
    exact hcl ((List.mem_singleton.mp hav) ▸ ha)
  · intro hm
    rcases List.mem_append.1 hm with h1 | h2
    · exact hb.goalNotClosed h1
    · exact hg (List.mem_singleton.mp h2).symm
  · intro u hu
    rcases List.mem_append.1 hu with h1 | h2
    · exact hb.closedDom u h1
    · rw [List.mem_singleton.mp h2]
      exact hb.heapDom e hmem
  · intro u hu hex vc hvc
    have hune : u ≠ e.2.2 := fun e' => hex (e' ▸ List.mem_singleton.mpr rfl)
    have huold : u ∈ st.closed := by
      rcases List.mem_append.1 hu with h1 | h2
      · exact h1
      · exact absurd (List.mem_singleton.mp h2) hune
    rcases hb.closedRelaxed u huold (by simp) vc hvc with hm | hrel
    · exact Or.inl (List.mem_append_left _ hm)
    · exact Or.inr hrel
  · intro e' he'
    exact hb.heapDom e' (by rw [hrest] at he'; exact rmFirst_subset he')
  · intro v gv hgv hvcl
    rw [List.mem_append, not_or] at hvcl
    obtain ⟨hv1, hv2⟩ := hvcl
    have hvne : v ≠ e.2.2 := fun e' => hv2 (e' ▸ List.mem_singleton.mpr rfl)
    obtain ⟨c, hc⟩ := hb.fresh v gv hgv hv1
    have hne : ((gv + h v goal, c, v) : HEntry) ≠ e :=
      fun he => hvne (congrArg (fun x : HEntry => x.2.2) he)
    exact ⟨c, by rw [hrest]; exact mem_rmFirst_of_ne hc hne⟩
  · intro e' he'
    exact hb.entryGe e' (by rw [hrest] at he'; exact rmFirst_subset he')
  · intro v u hvu
    obtain ⟨huc, hex⟩ := hb.cfClosed v u hvu
    exact ⟨List.mem_append_left _ huc, hex⟩
  · intro v u hvu hv
    have huc := (hb.cfClosed v u hvu).1
    rcases List.mem_append.1 hv with hvold | hvnew
    · rw [indexOf_append_left huc, indexOf_append_left hvold]
      exact hb.cfOrder v u hvu hvold
    · have hve : v = e.2.2 := List.mem_singleton.mp hvnew
      subst hve
      rw [indexOf_append_left huc, indexOf_append_self hcl]
      exact List.indexOf_lt_length.mpr huc
  · intro v q hq
    exact hb.domCf v q hq

theorem phiA_mk (G : List (ℕ × List (ℕ × ℚ))) (o : List HEntry)
    (cf : ℕ → Option ℕ) (g f : ℕ → Option ℚ) (cl : List ℕ) (cnt : ℕ) :
    phiA G ⟨o, cf, g, f, cl, cnt⟩ =
      o.length + ((((G.map Prod.fst).dedup).filter
        (fun k => decide (k ∉ cl))).map
          (fun k => (Prac3.nbrs G k).length)).sum := rfl

theorem aStarLoop_spec {G : List (ℕ × List (ℕ × ℚ))} {start goal : ℕ}
    {h : ℕ → ℕ → ℚ} :
    ∀ (fuel : ℕ) (st : Prac3.AState), ABaseE G start goal h [] st →
      phiA G st < fuel →
      ∃ r, Prac3.aStarLoop G goal h fuel st = some r ∧
        (r = [] → ¬ Reach G start goal) ∧
        (r ≠ [] → Reach G start goal) := by
  intro fuel
  induction fuel with
  | zero => intro st _ hphi; exact absurd hphi (Nat.not_lt_zero _)
  | succ fuel' ih =>
    intro st hb hphi
    unfold Prac3.aStarLoop
    cases hpop : popMin st.openS with
    | none =>
      exact ⟨[], rfl, fun _ => empty_unreach hb (popMin_eq_none.1 hpop),
        fun hne => absurd rfl hne⟩
    | some er =>
      obtain ⟨e, rest⟩ := er
      show ∃ r, (if e.2.2 = goal then
            Prac3.reconstruct_path st.cameFrom (st.closed.length + 1) e.2.2
          else
            Prac3.aStarLoop G goal h fuel'
              (Prac3.relaxAll G goal h e.2.2
                { openS := rest, cameFrom := st.cameFrom, g := st.g,
                  f := st.f,
                  closed := if e.2.2 ∈ st.closed then st.closed
                    else st.closed ++ [e.2.2],
                  cnt := st.cnt })) = some r ∧
          (r = [] → ¬ Reach G start goal) ∧
          (r ≠ [] → Reach G start goal)
      by_cases hg : e.2.2 = goal
      · rw [if_pos hg]
        obtain ⟨p, hp, hpne⟩ := recon_top hb
        obtain ⟨hmem, -, -, -⟩ := popMin_some hpop
        obtain ⟨q, hq⟩ := hb.heapDom e hmem
        rw [hg] at hq
        obtain ⟨pw, hw⟩ := hb.gWalk goal q hq
        refine ⟨p, ?_, fun hpe => absurd hpe hpne, fun _ => walk_reach hw⟩
        rw [hg]
        exact hp
      · rw [if_neg hg]
        by_cases hcl : e.2.2 ∈ st.closed
        · rw [if_pos hcl]
          have hb1 := abase_pop hb hpop hcl
          have hnoop : Prac3.relaxAll G goal h e.2.2
              ({ openS := rest, cameFrom := st.cameFrom, g := st.g,
                 f := st.f, closed := st.closed, cnt := st.cnt } :
                Prac3.AState) =
              { openS := rest, cameFrom := st.cameFrom, g := st.g,
                f := st.f, closed := st.closed, cnt := st.cnt } :=
            relaxAll_noop (fun vc hvc =>
              hb1.closedRelaxed e.2.2 hcl (by simp) vc hvc)
          rw [hnoop]
          refine ih _ hb1 ?_
          rw [phiA_mk]
          have hlen := popMin_length hpop
          unfold phiA at hphi
          omega
        · rw [if_neg hcl]
          have hbX := abase_close hb hpop hg hcl
          obtain ⟨hbA, hclA, hlenA⟩ := relaxAll_close hbX
            (List.mem_append_right _ (List.mem_singleton.mpr rfl))
          refine ih _ hbA ?_
          have hclA' : (Prac3.relaxAll G goal h e.2.2
              ({ openS := rest, cameFrom := st.cameFrom, g := st.g,
                 f := st.f, closed := st.closed ++ [e.2.2],
                 cnt := st.cnt } : Prac3.AState)).closed =
              st.closed ++ [e.2.2] := hclA
          have hlenA' : (Prac3.relaxAll G goal h e.2.2
              ({ openS := rest, cameFrom := st.cameFrom, g := st.g,
                 f := st.f, closed := st.closed ++ [e.2.2],
                 cnt := st.cnt } : Prac3.AState)).openS.length ≤
              rest.length + (Prac3.nbrs G e.2.2).length := hlenA
          unfold phiA
          rw [hclA']
          have hS := filter_map_sum_drop (fun k => (Prac3.nbrs G k).length)
            e.2.2 ((G.map Prod.fst).dedup) st.closed
            (List.nodup_dedup _) hcl
          have hlen := popMin_length hpop
          have hbeta : ((fun k => (Prac3.nbrs G k).length) e.2.2) =
              (Prac3.nbrs G e.2.2).length := rfl
          unfold phiA at hphi
          by_cases hvk : e.2.2 ∈ (G.map Prod.fst).dedup
          · rw [if_pos hvk] at hS
            omega
          · rw [if_neg hvk] at hS
            have hdeg : (Prac3.nbrs G e.2.2).length = 0 := by
              rw [nbrs_eq_nil_of_not_mem
                (fun hm => hvk (List.mem_dedup.mpr hm))]
              rfl
            omega

theorem abase_init (G : List (ℕ × List (ℕ × ℚ))) (start goal : ℕ)
    (h : ℕ → ℕ → ℚ) :
    ABaseE G start goal h [] (Prac3.initState start goal h) := by
  have hgs : Prac3.upd ((fun _ => none) : ℕ → Option ℚ) start 0 start =
      some 0 := by
    unfold Prac3.upd; rw [if_pos rfl]
  have hgo : ∀ v, v ≠ start →
      Prac3.upd ((fun _ => none) : ℕ → Option ℚ) start 0 v = none :=
    fun v hv => by unfold Prac3.upd; rw [if_neg hv]
  refine ⟨List.nodup_nil, List.not_mem_nil _, ⟨0, hgs⟩, ?_, ?_, ?_, ?_, ?_,
    ?_, ?_, ?_, ?_⟩
  · intro u hu; exact absurd hu (List.not_mem_nil _)
  · intro u hu; exact absurd hu (List.not_mem_nil _)
  · intro e he
    have he' : e = (h start goal, 0, start) := List.mem_singleton.mp he
    subst he'
    exact ⟨0, hgs⟩
  · intro v gv hgv _
    by_cases hv : v = start
    · subst hv
      have e0 : (0 : ℚ) = gv := Option.some.inj (hgs.symm.trans hgv)
      refine ⟨0, ?_⟩
      show (gv + h v goal, 0, v) ∈ [(h v goal, 0, v)]
      rw [← e0, zero_add]
      exact List.mem_singleton.mpr rfl
    · exact Option.noConfusion ((hgo v hv).symm.trans hgv)
  · intro e he
    have he' : e = (h start goal, 0, start) := List.mem_singleton.mp he
    subst he'
    exact ⟨0, hgs, by simp⟩
  · intro v q hq
    by_cases hv : v = start
    · subst hv
      have e0 : (0 : ℚ) = q := Option.some.inj (hgs.symm.trans hq)
      exact ⟨[v], e0 ▸ Walk.nil v⟩
    · exact Option.noConfusion ((hgo v hv).symm.trans hq)
  · intro v u hvu
    have hvu' : (none : Option ℕ) = some u := hvu
    exact Option.noConfusion hvu'
  · intro v u hvu _
    have hvu' : (none : Option ℕ) = some u := hvu
    exact Option.noConfusion hvu'
  · intro v q hq
    by_cases hv : v = start
    · exact Or.inl hv
    · exact Option.noConfusion ((hgo v hv).symm.trans hq)

theorem phiA_init_lt (G : List (ℕ × List (ℕ × ℚ))) (start goal : ℕ)
    (h : ℕ → ℕ → ℚ) :
    phiA G (Prac3.initState start goal h) < Prac3.fuelB G := by
  unfold phiA Prac3.fuelB Prac3.initState
  simp

/-- C3: for every graph, start, goal and heuristic, the embedded
`a_star` terminates normally within its fuel (no error path), and the
returned path is empty exactly when `goal` is not reachable from
`start` along the adjacency structure. -/
theorem c3_theorem (G : List (ℕ × List (ℕ × ℚ))) (start goal : ℕ)
    (h : ℕ → ℕ → ℚ) :
    ∃ r, Prac3.a_star G start goal h = some r ∧
      (r = [] ↔ ¬ Reach G start goal) := by
  obtain ⟨r, hr, h1, h2⟩ := aStarLoop_spec (Prac3.fuelB G)
    (Prac3.initState start goal h) (abase_init G start goal h)
    (phiA_init_lt G start goal h)
  refine ⟨r, hr, h1, fun hnr => ?_⟩
  by_contra hne
  exact hnr (h2 hne)

end AStarBase

section AStarOpt

/-! Optimality of the returned path under a consistent heuristic and
non-negative weights (claim C2). -/

theorem hLe_fst {a b : HEntry} (h : hLe a b) : a.1 ≤ b.1 := by
  rcases h with h | h
  · rcases h with h | ⟨he, -⟩
    · exact le_of_lt h
    · exact le_of_eq he
  · rw [h]

theorem walk_length_pos {G : List (ℕ × List (ℕ × ℚ))} {a t : ℕ}
    {p : List ℕ} {w : ℚ} (hw : Walk G a t p w) : 0 < p.length := by
  cases hw <;> simp

theorem walk_weight_nonneg {G : List (ℕ × List (ℕ × ℚ))} {a t : ℕ}
    {p : List ℕ} {w : ℚ}
    (Wnn : ∀ u, ∀ vc ∈ Prac3.nbrs G u, 0 ≤ vc.2)
    (hw : Walk G a t p w) : 0 ≤ w := by
  induction hw with
  | nil a => exact le_refl 0
  | @cons a b t p w c hm hw ih =>
    exact add_nonneg (Wnn a (b, c) hm) ih

theorem walk_snoc_cases {G : List (ℕ × List (ℕ × ℚ))} {a t : ℕ}
    {p : List ℕ} {w : ℚ} (hw : Walk G a t p w) :
    (t = a ∧ p = [a] ∧ w = 0) ∨
    ∃ y c w' p', Walk G a y p' w' ∧ (t, c) ∈ Prac3.nbrs G y ∧
      p = p' ++ [t] ∧ w = w' + c := by
  induction hw with
  | nil a => exact Or.inl ⟨rfl, rfl, rfl⟩
  | @cons a b t p w c hm hw' ih =>
    rcases ih with ⟨ht, hp, hw0⟩ | ⟨y, c', w'', p'', hwy, hm2, hp, hww⟩
    · subst ht
      refine Or.inr ⟨a, c, 0, [a], Walk.nil a, hm, ?_, ?_⟩
      · rw [hp]; rfl
      · rw [hw0]; ring
    · refine Or.inr ⟨y, c', c + w'', a :: p'', Walk.cons hm hwy, hm2, ?_, ?_⟩
      · rw [hp]; rfl
      · rw [hww]; ring

theorem cross_bound {G : List (ℕ × List (ℕ × ℚ))} {start goal : ℕ}
    {h : ℕ → ℕ → ℚ} {st : Prac3.AState}
    (Hcons : ∀ u, ∀ vc ∈ Prac3.nbrs G u, h u goal ≤ vc.2 + h vc.1 goal)
    (hb : ABaseE G start goal h [] st) (hopt : AOpt G start st) :
    ∀ (n : ℕ) (p : List ℕ) (z : ℕ) (w : ℚ), p.length ≤ n →
      Walk G start z p w →
      (z ∈ st.closed ∧ ∃ gz, st.g z = some gz ∧ gz ≤ w) ∨
      (∃ e ∈ st.openS, e.1 ≤ w + h z goal) := by
  intro n
  induction n with
  | zero =>
    intro p z w hl hw
    have := walk_length_pos hw
    omega
  | succ n' ih =>
    intro p z w hl hw
    rcases walk_snoc_cases hw with ⟨hz, hp, hw0⟩ |
      ⟨y, c, w', p', hwy, hm, hp, hww⟩
    · subst hz
      subst hw0
      obtain ⟨gs, hgs⟩ := hb.startDom
      have hgs0 : gs ≤ 0 := hopt.2 gs hgs
      by_cases hcl : z ∈ st.closed
      · exact Or.inl ⟨hcl, gs, hgs, hgs0⟩
      · obtain ⟨cc, hc⟩ := hb.fresh z gs hgs hcl
        exact Or.inr ⟨(gs + h z goal, cc, z), hc,
          add_le_add_right hgs0 (h z goal)⟩
    · have hl' : p'.length ≤ n' := by
        subst hp
        rw [List.length_append] at hl
        simp at hl
        omega
      rcases ih p' y w' hl' hwy with ⟨hycl, gy, hgy, hgyle⟩ | ⟨e, he, hle⟩
      · rcases hb.closedRelaxed y hycl (by simp) (z, c) hm with
          hzcl | ⟨gu, gv, hgu, hgv, hb2⟩
        · obtain ⟨gz, hgz⟩ := hb.closedDom z hzcl
          exact Or.inl ⟨hzcl, gz, hgz, hopt.1 z hzcl gz hgz p w hw⟩
        · have egu : gu = gy := Option.some.inj (hgu.symm.trans hgy)
          have hgvw : gv ≤ w := by
            rw [hww]
            rw [egu] at hb2
            have := add_le_add_right hgyle c
            linarith
          by_cases hzcl : z ∈ st.closed
          · exact Or.inl ⟨hzcl, gv, hgv, hgvw⟩
          · obtain ⟨cc, hc⟩ := hb.fresh z gv hgv hzcl
            exact Or.inr ⟨(gv + h z goal, cc, z), hc,
              add_le_add_right hgvw (h z goal)⟩
      · refine Or.inr ⟨e, he, ?_⟩
        have hcons1 := Hcons y (z, c) hm
        rw [hww]
        calc e.1 ≤ w' + h y goal := hle
          _ ≤ w' + (c + h z goal) := by linarith
          _ = w' + c + h z goal := by ring

theorem popped_opt {G : List (ℕ × List (ℕ × ℚ))} {start goal : ℕ}
    {h : ℕ → ℕ → ℚ} {st : Prac3.AState} {e : HEntry} {rest : List HEntry}
    (Hcons : ∀ u, ∀ vc ∈ Prac3.nbrs G u, h u goal ≤ vc.2 + h vc.1 goal)
    (hb : ABaseE G start goal h [] st) (hopt : AOpt G start st)
    (hpop : popMin st.openS = some (e, rest)) :
    ∀ gv, st.g e.2.2 = some gv →
      ∀ p w, Walk G start e.2.2 p w → gv ≤ w := by
  intro gv hgv p w hw
  obtain ⟨hmem, -, hmin, -⟩ := popMin_some hpop
  rcases cross_bound Hcons hb hopt p.length p e.2.2 w le_rfl hw with
    ⟨hzcl, gz, hgz, hgzle⟩ | ⟨e', he', hle⟩
  · have egz : gz = gv := Option.some.inj (hgz.symm.trans hgv)
    exact egz ▸ hgzle
  · have h1 : e.1 ≤ e'.1 := hLe_fst (hmin e' he')
    obtain ⟨gv', hgv', hge⟩ := hb.entryGe e hmem
    have egv : gv' = gv := Option.some.inj (hgv'.symm.trans hgv)
    rw [egv] at hge
    linarith

end AStarOpt

section AStarOpt2

theorem relax1_aopt {G : List (ℕ × List (ℕ × ℚ))} {start goal : ℕ}
    {h : ℕ → ℕ → ℚ} {exc : List ℕ} {st : Prac3.AState} {cur : ℕ}
    {nc : ℕ × ℚ} (hb : ABaseE G start goal h exc st)
    (hopt : AOpt G start st) :
    AOpt G start (Prac3.relax1 goal h cur st nc) := by
  rcases relax1_cases goal h cur st nc with ⟨heq, -⟩ | ⟨gc, hgc, hcl, hbet, heq⟩
  · rw [heq]; exact hopt
  · rw [heq]
    constructor
    · intro u hu gu hgu p w hw
      have hune : u ≠ nc.1 := fun e => hcl (e ▸ hu)
      have hgu' : st.g u = some gu := by
        have : Prac3.upd st.g nc.1 (gc + nc.2) u = st.g u := by
          unfold Prac3.upd; rw [if_neg hune]
        rw [← this]; exact hgu
      exact hopt.1 u hu gu hgu' p w hw
    · intro gs hgs
      by_cases hsx : start = nc.1
      · have hgs' : Prac3.upd st.g nc.1 (gc + nc.2) start = some (gc + nc.2) := by
          unfold Prac3.upd; rw [if_pos hsx]
        have egs : gc + nc.2 = gs := Option.some.inj (hgs'.symm.trans hgs)
        obtain ⟨q, hq⟩ := hb.startDom
        rcases hbet with hnone | ⟨gn, hgn, hlt⟩
        · rw [hsx] at hq; rw [hq] at hnone; exact absurd hnone (by simp)
        · have hgn' : st.g start = some gn := by rw [hsx]; exact hgn
          have := hopt.2 gn hgn'
          rw [← egs]
          linarith
      · have hgs' : st.g start = some gs := by
          have : Prac3.upd st.g nc.1 (gc + nc.2) start = st.g start := by
            unfold Prac3.upd; rw [if_neg hsx]
          rw [← this]; exact hgs
        exact hopt.2 gs hgs'

theorem relaxGo_aopt {G : List (ℕ × List (ℕ × ℚ))} {start goal : ℕ}
    {h : ℕ → ℕ → ℚ} {exc : List ℕ} {cur : ℕ} :
    ∀ (ncs : List (ℕ × ℚ)) (st : Prac3.AState),
      (∀ vc ∈ ncs, vc ∈ Prac3.nbrs G cur) →
      ABaseE G start goal h exc st → cur ∈ st.closed →
      AOpt G start st →
      AOpt G start (ncs.foldl (Prac3.relax1 goal h cur) st)
  | [], _, _, _, _, hopt => hopt
  | a :: as, st, hmem, hb, hcur, hopt => by
    obtain ⟨hb1, hcl1, -, -⟩ :=
      relax1_pres hb hcur (hmem a (List.mem_cons_self a as))
    have hopt1 := @relax1_aopt G start goal h exc st cur a hb hopt
    simp only [List.foldl_cons]
    exact relaxGo_aopt as (Prac3.relax1 goal h cur st a)
      (fun vc hv => hmem vc (List.mem_cons_of_mem a hv)) hb1
      (hcl1 ▸ hcur) hopt1

theorem relaxAll_aopt {G : List (ℕ × List (ℕ × ℚ))} {start goal : ℕ}
    {h : ℕ → ℕ → ℚ} {exc : List ℕ} {st : Prac3.AState} {cur : ℕ}
    (hb : ABaseE G start goal h exc st) (hcur : cur ∈ st.closed)
    (hopt : AOpt G start st) :
    AOpt G start (Prac3.relaxAll G goal h cur st) := by
  unfold Prac3.relaxAll
  exact relaxGo_aopt (Prac3.nbrs G cur) st (fun _ hv => hv) hb hcur hopt

theorem recon_walk {G : List (ℕ × List (ℕ × ℚ))} {start goal : ℕ}
    {h : ℕ → ℕ → ℚ} {st : Prac3.AState}
    (hb : ABaseE G start goal h [] st)
    (hgs0 : st.g start = some 0) :
    ∀ (k v : ℕ) (r : List ℕ) (gv : ℚ), st.g v = some gv →
      Prac3.reconstruct_path st.cameFrom k v = some r →
      Walk G start v r gv := by
  intro k
  induction k with
  | zero =>
    intro v r gv hgv hr
    unfold Prac3.reconstruct_path at hr
    cases hcf : st.cameFrom v with
    | none =>
      rw [hcf] at hr
      have hr' : some [v] = some r := hr
      have hrv : [v] = r := Option.some.inj hr'
      rcases hb.domCf v gv hgv with hvs | hcfn
      · subst hvs
        have e0 : (0 : ℚ) = gv := Option.some.inj (hgs0.symm.trans hgv)
        rw [← hrv, ← e0]
        exact Walk.nil v
      · exact absurd hcf hcfn
    | some prev =>
      rw [hcf] at hr
      exact absurd hr (by simp)
  | succ k' ih =>
    intro v r gv hgv hr
    unfold Prac3.reconstruct_path at hr
    cases hcf : st.cameFrom v with
    | none =>
      rw [hcf] at hr
      have hr' : some [v] = some r := hr
      have hrv : [v] = r := Option.some.inj hr'
      rcases hb.domCf v gv hgv with hvs | hcfn
      · subst hvs
        have e0 : (0 : ℚ) = gv := Option.some.inj (hgs0.symm.trans hgv)
        rw [← hrv, ← e0]
        exact Walk.nil v
      · exact absurd hcf hcfn
    | some prev =>
      rw [hcf] at hr
      have hr2 : Option.map (fun p => p ++ [v])
          (Prac3.reconstruct_path st.cameFrom k' prev) = some r := hr
      cases hrec : Prac3.reconstruct_path st.cameFrom k' prev with
      | none =>
        rw [hrec] at hr2
        exact absurd hr2 (by simp)
      | some q =>
        rw [hrec] at hr2
        have hrq : q ++ [v] = r := Option.some.inj hr2
        obtain ⟨huc, c, gu, gv', hm, hgu, hgv', hsum⟩ :=
          hb.cfClosed v prev hcf
        have egv : gv' = gv := Option.some.inj (hgv'.symm.trans hgv)
        have hwq := ih prev q gu hgu hrec
        have hws := walk_snoc hwq hm
        rw [hrq] at hws
        rw [← egv, hsum]
        exact hws

end AStarOpt2

section AStarOpt3

theorem aStarLoopOpt_spec {G : List (ℕ × List (ℕ × ℚ))} {start goal : ℕ}
    {h : ℕ → ℕ → ℚ}
    (Wnn : ∀ u, ∀ vc ∈ Prac3.nbrs G u, 0 ≤ vc.2)
    (Hcons : ∀ u, ∀ vc ∈ Prac3.nbrs G u, h u goal ≤ vc.2 + h vc.1 goal) :
    ∀ (fuel : ℕ) (st : Prac3.AState), ABaseE G start goal h [] st →
      AOpt G start st → phiA G st < fuel →
      ∃ r, Prac3.aStarLoop G goal h fuel st = some r ∧
        ((∃ p0 w0, Walk G start goal p0 w0) →
          ∃ w, Walk G start goal r w ∧
            ∀ p' w', Walk G start goal p' w' → w ≤ w') := by
  intro fuel
  induction fuel with
  | zero => intro st _ _ hphi; exact absurd hphi (Nat.not_lt_zero _)
  | succ fuel' ih =>
    intro st hb hopt hphi
    unfold Prac3.aStarLoop
    cases hpop : popMin st.openS with
    | none =>
      refine ⟨[], rfl, ?_⟩
      rintro ⟨p0, w0, hw0⟩
      exact absurd (walk_reach hw0) (empty_unreach hb (popMin_eq_none.1 hpop))
    | some er =>
      obtain ⟨e, rest⟩ := er
      show ∃ r, (if e.2.2 = goal then
            Prac3.reconstruct_path st.cameFrom (st.closed.length + 1) e.2.2
          else
            Prac3.aStarLoop G goal h fuel'
              (Prac3.relaxAll G goal h e.2.2
                { openS := rest, cameFrom := st.cameFrom, g := st.g,
                  f := st.f,
                  closed := if e.2.2 ∈ st.closed then st.closed
                    else st.closed ++ [e.2.2],
                  cnt := st.cnt })) = some r ∧
          ((∃ p0 w0, Walk G start goal p0 w0) →
            ∃ w, Walk G start goal r w ∧
              ∀ p' w', Walk G start goal p' w' → w ≤ w')
      by_cases hg : e.2.2 = goal
      · rw [if_pos hg]
        obtain ⟨p, hp, -⟩ := recon_top hb
        obtain ⟨hmem, -, -, -⟩ := popMin_some hpop
        obtain ⟨q, hq⟩ := hb.heapDom e hmem
        rw [hg] at hq
        obtain ⟨gs, hgs⟩ := hb.startDom
        have hgs0 : gs ≤ 0 := hopt.2 gs hgs
        obtain ⟨ps, hwps⟩ := hb.gWalk start gs hgs
        have hgsnn : 0 ≤ gs := walk_weight_nonneg Wnn hwps
        have hgseq : gs = 0 := le_antisymm hgs0 hgsnn
        have hgs' : st.g start = some 0 := by rw [← hgseq]; exact hgs
        have hwr : Walk G start goal p q :=
          recon_walk hb hgs' (st.closed.length + 1) goal p q hq hp
        refine ⟨p, by rw [hg]; exact hp, fun _ => ⟨q, hwr, ?_⟩⟩
        intro p' w' hw'
        have := popped_opt Hcons hb hopt hpop q (by rw [hg]; exact hq)
        rw [hg] at this
        exact this p' w' hw'
      · rw [if_neg hg]
        by_cases hcl : e.2.2 ∈ st.closed
        · rw [if_pos hcl]
          have hb1 := abase_pop hb hpop hcl
          have hopt1 : AOpt G start
              ({ openS := rest, cameFrom := st.cameFrom, g := st.g,
                 f := st.f, closed := st.closed, cnt := st.cnt } :
                Prac3.AState) := hopt
          have hnoop : Prac3.relaxAll G goal h e.2.2
              ({ openS := rest, cameFrom := st.cameFrom, g := st.g,
                 f := st.f, closed := st.closed, cnt := st.cnt } :
                Prac3.AState) =
              { openS := rest, cameFrom := st.cameFrom, g := st.g,
                f := st.f, closed := st.closed, cnt := st.cnt } :=
            relaxAll_noop (fun vc hvc =>
              hb1.closedRelaxed e.2.2 hcl (by simp) vc hvc)
          rw [hnoop]
          refine ih _ hb1 hopt1 ?_
          rw [phiA_mk]
          have hlen := popMin_length hpop
          unfold phiA at hphi
          omega
        · rw [if_neg hcl]
          have hbX := abase_close hb hpop hg hcl
          have hoptX : AOpt G start
              ({ openS := rest, cameFrom := st.cameFrom, g := st.g,
                 f := st.f, closed := st.closed ++ [e.2.2],
                 cnt := st.cnt } : Prac3.AState) := by
            constructor
            · intro u hu gu hgu p w hw
              rcases List.mem_append.1 hu with h1 | h2
              · exact hopt.1 u h1 gu hgu p w hw
              · have hue : u = e.2.2 := List.mem_singleton.mp h2
                subst hue
                exact popped_opt Hcons hb hopt hpop gu hgu p w hw
            · intro gs hgs
              exact hopt.2 gs hgs
          have hcurm : e.2.2 ∈
              ({ openS := rest, cameFrom := st.cameFrom, g := st.g,
                 f := st.f, closed := st.closed ++ [e.2.2],
                 cnt := st.cnt } : Prac3.AState).closed :=
            List.mem_append_right _ (List.mem_singleton.mpr rfl)
          obtain ⟨hbA, hclA, hlenA⟩ := relaxAll_close hbX hcurm
          have hoptA := relaxAll_aopt hbX hcurm hoptX
          refine ih _ hbA hoptA ?_
          have hclA' : (Prac3.relaxAll G goal h e.2.2
              ({ openS := rest, cameFrom := st.cameFrom, g := st.g,
                 f := st.f, closed := st.closed ++ [e.2.2],
                 cnt := st.cnt } : Prac3.AState)).closed =
              st.closed ++ [e.2.2] := hclA
          have hlenA' : (Prac3.relaxAll G goal h e.2.2
              ({ openS := rest, cameFrom := st.cameFrom, g := st.g,
                 f := st.f, closed := st.closed ++ [e.2.2],
                 cnt := st.cnt } : Prac3.AState)).openS.length ≤
              rest.length + (Prac3.nbrs G e.2.2).length := hlenA
          unfold phiA
          rw [hclA']
          have hS := filter_map_sum_drop (fun k => (Prac3.nbrs G k).length)
            e.2.2 ((G.map Prod.fst).dedup) st.closed
            (List.nodup_dedup _) hcl
          have hlen := popMin_length hpop
          have hbeta : ((fun k => (Prac3.nbrs G k).length) e.2.2) =
              (Prac3.nbrs G e.2.2).length := rfl
          unfold phiA at hphi
          by_cases hvk : e.2.2 ∈ (G.map Prod.fst).dedup
          · rw [if_pos hvk] at hS
            omega
          · rw [if_neg hvk] at hS
            have hdeg : (Prac3.nbrs G e.2.2).length = 0 := by
              rw [nbrs_eq_nil_of_not_mem
                (fun hm => hvk (List.mem_dedup.mpr hm))]
              rfl
            omega

end AStarOpt3

section C2

theorem aopt_init (G : List (ℕ × List (ℕ × ℚ))) (start goal : ℕ)
    (h : ℕ → ℕ → ℚ) : AOpt G start (Prac3.initState start goal h) := by
  constructor
  · intro u hu
    exact absurd hu (List.not_mem_nil _)
  · intro gs hgs
    have hgs' : Prac3.upd ((fun _ => none) : ℕ → Option ℚ) start 0 start =
        some gs := hgs
    have h0 : Prac3.upd ((fun _ => none) : ℕ → Option ℚ) start 0 start =
        some 0 := by
      unfold Prac3.upd; rw [if_pos rfl]
    have := Option.some.inj (h0.symm.trans hgs')
    rw [← this]

/-- C2: for every weighted graph with non-negative edge weights, if the
heuristic is admissible (never overestimates the weight of any walk to
the goal) and consistent, then whenever `a_star` returns a result and at
least one walk from start to goal exists, the returned path is a walk
from start to goal of minimum total weight among all such walks. -/
theorem c2_theorem {G : List (ℕ × List (ℕ × ℚ))} {start goal : ℕ}
    {h : ℕ → ℕ → ℚ} {r : List ℕ} {p0 : List ℕ} {w0 : ℚ}
    (Wnn : ∀ u, ∀ vc ∈ Prac3.nbrs G u, 0 ≤ vc.2)
    (Hadm : ∀ v p w, Walk G v goal p w → h v goal ≤ w)
    (Hcons : ∀ u, ∀ vc ∈ Prac3.nbrs G u, h u goal ≤ vc.2 + h vc.1 goal)
    (hr : Prac3.a_star G start goal h = some r)
    (hw0 : Walk G start goal p0 w0) :
    ∃ w, Walk G start goal r w ∧
      ∀ p' w', Walk G start goal p' w' → w ≤ w' := by
  obtain ⟨r', hr', hoptc⟩ := aStarLoopOpt_spec Wnn Hcons (Prac3.fuelB G)
    (Prac3.initState start goal h) (abase_init G start goal h)
    (aopt_init G start goal h) (phiA_init_lt G start goal h)
  have hrr : r' = r := Option.some.inj (hr'.symm.trans hr)
  subst hrr
  exact hoptc ⟨p0, w0, hw0⟩

/-- C2 witness: on the one-edge graph `0 → 1` (weight 1) with the zero
heuristic, the returned path `[0, 1]` is a minimum-weight walk. -/
theorem c2_witness :
    ∃ w, Walk [(0, [(1, (1:ℚ))])] 0 1 [0, 1] w ∧
      ∀ p' w', Walk [(0, [(1, (1:ℚ))])] 0 1 p' w' → w ≤ w' := by
  have hnb0 : Prac3.nbrs [(0, [(1, (1:ℚ))])] 0 = [(1, (1:ℚ))] := rfl
  have hnbx : ∀ u : ℕ, u ≠ 0 →
      Prac3.nbrs [(0, [(1, (1:ℚ))])] u = [] := by
    intro u hu
    refine nbrs_eq_nil_of_not_mem ?_
    intro hm
    exact hu (by simpa using hm)
  have Wnn : ∀ u, ∀ vc ∈ Prac3.nbrs [(0, [(1, (1:ℚ))])] u, 0 ≤ vc.2 := by
    intro u vc hvc
    by_cases hu : u = 0
    · subst hu
      rw [hnb0] at hvc
      rw [List.mem_singleton.mp hvc]
      norm_num
    · rw [hnbx u hu] at hvc
      exact absurd hvc (List.not_mem_nil _)
  have hmem : ((1 : ℕ), (1:ℚ)) ∈ Prac3.nbrs [(0, [(1, (1:ℚ))])] 0 := by
    rw [hnb0]
    exact List.mem_singleton.mpr rfl
  have hw0 : Walk [(0, [(1, (1:ℚ))])] 0 1 [0, 1] 1 := by
    have := Walk.cons hmem (Walk.nil 1)
    simpa using this
  exact c2_theorem (h := fun _ _ => (0:ℚ)) Wnn
    (fun v p w hw => walk_weight_nonneg Wnn hw)
    (fun u vc hvc => by
      have := Wnn u vc hvc
      simpa using this)
    rfl hw0

end C2

section ConnLemmas

theorem conn_refl (E : List Edg) (x : ℕ) : Conn E x x :=
  Relation.ReflTransGen.refl

theorem estep_symm {E : List Edg} {x y : ℕ} (h : estep E x y) :
    estep E y x := by
  obtain ⟨w, hw⟩ := h
  exact ⟨w, hw.elim Or.inr Or.inl⟩

theorem conn_symm {E : List Edg} {x y : ℕ} (h : Conn E x y) : Conn E y x := by
  induction h with
  | refl => exact Relation.ReflTransGen.refl
  | tail _ hstep ih => exact Relation.ReflTransGen.head (estep_symm hstep) ih

theorem conn_trans {E : List Edg} {x y z : ℕ} (h1 : Conn E x y)
    (h2 : Conn E y z) : Conn E x z :=
  Relation.ReflTransGen.trans h1 h2

theorem conn_single {E : List Edg} {x y : ℕ} (h : estep E x y) : Conn E x y :=
  Relation.ReflTransGen.single h

theorem conn_mono {A B : List Edg} (hsub : ∀ m ∈ A, m ∈ B) {x y : ℕ}
    (h : Conn A x y) : Conn B x y := by
  refine Relation.ReflTransGen.mono ?_ h
  rintro a b ⟨w, hw⟩
  exact ⟨w, hw.elim (fun h' => Or.inl (hsub _ h')) (fun h' => Or.inr (hsub _ h'))⟩

theorem conn_append_left {A B : List Edg} {x y : ℕ} (h : Conn A x y) :
    Conn (A ++ B) x y :=
  conn_mono (fun m hm => List.mem_append_left B hm) h

theorem conn_append_right {A B : List Edg} {x y : ℕ} (h : Conn B x y) :
    Conn (A ++ B) x y :=
  conn_mono (fun m hm => List.mem_append_right A hm) h

theorem estep_snoc_iff {A : List Edg} {e : Edg} {x y : ℕ} :
    estep (A ++ [e]) x y ↔
      estep A x y ∨ (x = e.1 ∧ y = e.2.1) ∨ (x = e.2.1 ∧ y = e.1) := by
  constructor
  · rintro ⟨w, hw | hw⟩
    · rcases List.mem_append.1 hw with hm | hm
      · exact Or.inl ⟨w, Or.inl hm⟩
      · have he := List.mem_singleton.mp hm
        refine Or.inr (Or.inl ⟨?_, ?_⟩)
        · exact congrArg Prod.fst he
        · exact congrArg (fun t : Edg => t.2.1) he
    · rcases List.mem_append.1 hw with hm | hm
      · exact Or.inl ⟨w, Or.inr hm⟩
      · have he := List.mem_singleton.mp hm
        refine Or.inr (Or.inr ⟨?_, ?_⟩)
        · exact congrArg (fun t : Edg => t.2.1) he
        · exact congrArg Prod.fst he
  · rintro (⟨w, hw⟩ | ⟨hx, hy⟩ | ⟨hx, hy⟩)
    · exact ⟨w, hw.elim (fun h' => Or.inl (List.mem_append_left _ h'))
        (fun h' => Or.inr (List.mem_append_left _ h'))⟩
    · subst hx; subst hy
      exact ⟨e.2.2, Or.inl (List.mem_append_right _
        (List.mem_singleton.mpr rfl))⟩
    · subst hx; subst hy
      exact ⟨e.2.2, Or.inr (List.mem_append_right _
        (List.mem_singleton.mpr rfl))⟩

theorem conn_snoc_iff {A : List Edg} {e : Edg} {u v : ℕ} :
    Conn (A ++ [e]) u v ↔
      Conn A u v ∨ (Conn A u e.1 ∧ Conn A e.2.1 v) ∨
        (Conn A u e.2.1 ∧ Conn A e.1 v) := by
  constructor
  · intro h
    induction h with
    | refl => exact Or.inl (conn_refl A u)
    | @tail b c _ hstep ih =>
      rcases estep_snoc_iff.mp hstep with hs | ⟨hb, hc⟩ | ⟨hb, hc⟩
      · rcases ih with h1 | ⟨h1, h2⟩ | ⟨h1, h2⟩
        · exact Or.inl (h1.tail hs)
        · exact Or.inr (Or.inl ⟨h1, h2.tail hs⟩)
        · exact Or.inr (Or.inr ⟨h1, h2.tail hs⟩)
      · subst hb; subst hc
        rcases ih with h1 | ⟨h1, h2⟩ | ⟨h1, h2⟩
        · exact Or.inr (Or.inl ⟨h1, conn_refl A _⟩)
        · exact Or.inr (Or.inl ⟨h1, conn_refl A _⟩)
        · exact Or.inl h1
      · subst hb; subst hc
        rcases ih with h1 | ⟨h1, h2⟩ | ⟨h1, h2⟩
        · exact Or.inr (Or.inr ⟨h1, conn_refl A _⟩)
        · exact Or.inl h1
        · exact Or.inr (Or.inr ⟨h1, conn_refl A _⟩)
  · rintro (h | ⟨h1, h2⟩ | ⟨h1, h2⟩)
    · exact conn_append_left h
    · refine conn_trans (conn_append_left h1) (conn_trans ?_ (conn_append_left h2))
      exact conn_single ⟨e.2.2, Or.inl (List.mem_append_right _
        (List.mem_singleton.mpr rfl))⟩
    · refine conn_trans (conn_append_left h1) (conn_trans ?_ (conn_append_left h2))
      exact conn_single ⟨e.2.2, Or.inr (List.mem_append_right _
        (List.mem_singleton.mpr rfl))⟩

theorem conn_support {A : List Edg} {V : List ℕ}
    (hA : ∀ m ∈ A, m.1 ∈ V ∧ m.2.1 ∈ V) {u v : ℕ} (h : Conn A u v) :
    u = v ∨ (u ∈ V ∧ v ∈ V) := by
  induction h with
  | refl => exact Or.inl rfl
  | @tail b c _ hstep ih =>
    obtain ⟨w, hw⟩ := hstep
    have hbv : b ∈ V ∧ c ∈ V := by
      rcases hw with hm | hm
      · exact hA _ hm
      · exact ⟨(hA _ hm).2, (hA _ hm).1⟩
    rcases ih with he | ⟨h1, h2⟩
    · exact Or.inr ⟨he ▸ hbv.1, hbv.2⟩
    · exact Or.inr ⟨h1, hbv.2⟩

theorem conn_of_step_cover {A B : List Edg}
    (hcov : ∀ x y, estep B x y → Conn A x y) {u v : ℕ} (h : Conn B u v) :
    Conn A u v := by
  induction h with
  | refl => exact conn_refl A u
  | tail _ hstep ih => exact conn_trans ih (hcov _ _ hstep)

theorem conn_append_disjoint {A B : List Edg} {VA VB : List ℕ}
    (hA : ∀ m ∈ A, m.1 ∈ VA ∧ m.2.1 ∈ VA)
    (hB : ∀ m ∈ B, m.1 ∈ VB ∧ m.2.1 ∈ VB)
    (hdis : ∀ x, x ∈ VA → x ∈ VB → False) {u v : ℕ} (hu : u ∈ VB)
    (h : Conn (A ++ B) u v) : Conn B u v := by
  induction h with
  | refl => exact conn_refl B u
  | @tail b c _ hstep ih =>
    have hbB : b ∈ VB := by
      rcases conn_support hB ih with he | ⟨-, h2⟩
      · exact he ▸ hu
      · exact h2
    obtain ⟨w, hw⟩ := hstep
    rcases hw with hm | hm <;> rcases List.mem_append.1 hm with hmA | hmB
    · exact absurd hbB (fun hb => hdis b (hA _ hmA).1 hb)
    · exact ih.tail ⟨w, Or.inl hmB⟩
    · exact absurd hbB (fun hb => hdis b (hA _ hmA).2 hb)
    · exact ih.tail ⟨w, Or.inr hmB⟩

theorem forest_append {A B : List Edg} {VA VB : List ℕ}
    (hFA : Forest A) (hFB : Forest B)
    (hA : ∀ m ∈ A, m.1 ∈ VA ∧ m.2.1 ∈ VA)
    (hB : ∀ m ∈ B, m.1 ∈ VB ∧ m.2.1 ∈ VB)
    (hdis : ∀ x, x ∈ VA → x ∈ VB → False) : Forest (A ++ B) := by
  induction hFB with
  | nil => simpa using hFA
  | snoc B' e hFB' hnc ih =>
    have hB' : ∀ m ∈ B', m.1 ∈ VB ∧ m.2.1 ∈ VB :=
      fun m hm => hB m (List.mem_append_left _ hm)
    have heB : e.1 ∈ VB ∧ e.2.1 ∈ VB :=
      hB e (List.mem_append_right _ (List.mem_singleton.mpr rfl))
    rw [← List.append_assoc]
    refine Forest.snoc _ e (ih hB') ?_
    intro hconn
    exact hnc (conn_append_disjoint hA hB' hdis heB.1 hconn)

theorem forest_acyclic {A : List Edg} (h : Forest A) : Acyclic A :=
  ⟨A, List.Perm.refl A, h⟩

end ConnLemmas

section ComponentLemmas

theorem reps_exist (E : List Edg) :
    ∀ ns : List ℕ, ∃ reps : List ℕ,
      (∀ r ∈ reps, r ∈ ns) ∧ reps.Pairwise (fun a b => ¬ Conn E a b) ∧
      ∀ x ∈ ns, ∃ r ∈ reps, Conn E r x := by
  intro ns
  induction ns with
  | nil => exact ⟨[], by simp, List.Pairwise.nil, by simp⟩
  | cons a rest ih =>
    obtain ⟨reps, h1, h2, h3⟩ := ih
    by_cases hc : ∃ r ∈ reps, Conn E r a
    · refine ⟨reps, fun r hr => List.mem_cons_of_mem a (h1 r hr), h2, ?_⟩
      intro x hx
      rcases List.mem_cons.1 hx with he | hm
      · exact he ▸ hc
      · exact h3 x hm
    · refine ⟨reps ++ [a], ?_, ?_, ?_⟩
      · intro r hr
        rcases List.mem_append.1 hr with hm | hm
        · exact List.mem_cons_of_mem a (h1 r hm)
        · exact (List.mem_singleton.mp hm) ▸ List.mem_cons_self a rest
      · rw [List.pairwise_append]
        refine ⟨h2, List.pairwise_singleton _ _, ?_⟩
        intro r hr x hx
        rw [List.mem_singleton.mp hx]
        exact fun hcon => hc ⟨r, hr, hcon⟩
      · intro x hx
        rcases List.mem_cons.1 hx with he | hm
        · exact ⟨a, List.mem_append_right _ (List.mem_singleton.mpr rfl),
            he ▸ conn_refl E a⟩
        · obtain ⟨r, hr, hcon⟩ := h3 x hm
          exact ⟨r, List.mem_append_left _ hr, hcon⟩

theorem numComponents_exists (ns : List ℕ) (E : List Edg) :
    ∃ n, NumComponents ns E n := by
  obtain ⟨reps, h1, h2, h3⟩ := reps_exist E ns
  exact ⟨reps.length, reps, rfl, h1, h2, h3⟩

theorem numComponents_congr {ns : List ℕ} {E1 E2 : List Edg} {n : ℕ}
    (hiff : ∀ u v, Conn E1 u v ↔ Conn E2 u v)
    (h : NumComponents ns E1 n) : NumComponents ns E2 n := by
  obtain ⟨reps, hl, h1, h2, h3⟩ := h
  refine ⟨reps, hl, h1, ?_, ?_⟩
  · exact h2.imp (fun hnc hcon => hnc ((hiff _ _).mpr hcon))
  · intro x hx
    obtain ⟨r, hr, hcon⟩ := h3 x hx
    exact ⟨r, hr, (hiff r x).mp hcon⟩

theorem reps_nodup {E : List Edg} {reps : List ℕ}
    (h : reps.Pairwise (fun a b => ¬ Conn E a b)) : reps.Nodup := by
  refine List.Pairwise.imp ?_ h
  intro a b hnc he
  exact hnc (by rw [he]; exact conn_refl E b)

theorem numComponents_unique {ns : List ℕ} {E : List Edg} {n m : ℕ}
    (h1 : NumComponents ns E n) (h2 : NumComponents ns E m) : n = m := by
  obtain ⟨r1, hl1, hs1, hp1, hc1⟩ := h1
  obtain ⟨r2, hl2, hs2, hp2, hc2⟩ := h2
  have key : ∀ (ra rb : List ℕ),
      (∀ r ∈ ra, r ∈ ns) → ra.Pairwise (fun a b => ¬ Conn E a b) →
      rb.Pairwise (fun a b => ¬ Conn E a b) →
      (∀ x ∈ ns, ∃ r ∈ rb, Conn E r x) → ra.length ≤ rb.length := by
    intro ra rb hsa hpa hpb hcb
    have hnda : ra.Nodup := reps_nodup hpa
    have hndb : rb.Nodup := reps_nodup hpb
    have hsymm : Symmetric (fun a b : ℕ => ¬ Conn E a b) :=
      fun a b hnc hcon => hnc (conn_symm hcon)
    classical
    set f : ℕ → ℕ := fun r =>
      if h : ∃ r' ∈ rb, Conn E r' r then h.choose else 0 with hf
    have hfprop : ∀ r ∈ ra, f r ∈ rb ∧ Conn E (f r) r := by
      intro r hr
      have hex : ∃ r' ∈ rb, Conn E r' r := hcb r (hsa r hr)
      rw [hf]
      simp only [dif_pos hex]
      exact ⟨hex.choose_spec.1, hex.choose_spec.2⟩
    have hinj : Set.InjOn f ra.toFinset := by
      intro x hx y hy hxy
      rw [Finset.mem_coe, List.mem_toFinset] at hx hy
      by_contra hne
      have hcxy : Conn E x y :=
        conn_trans (conn_symm (hfprop x hx).2) (hxy ▸ (hfprop y hy).2)
      exact (hpa.forall hsymm) hx hy hne hcxy
    have hmaps : ∀ a ∈ ra.toFinset, f a ∈ rb.toFinset := by
      intro a ha
      rw [List.mem_toFinset] at ha
      rw [List.mem_toFinset]
      exact (hfprop a ha).1
    have hcard := Finset.card_le_card_of_injOn f hmaps hinj
    rw [List.toFinset_card_of_nodup hnda, List.toFinset_card_of_nodup hndb] at hcard
    exact hcard
  have hle1 := key r1 r2 hs1 hp1 hp2 hc2
  have hle2 := key r2 r1 hs2 hp2 hp1 hc1
  omega

end ComponentLemmas

section UnionPartition

theorem sameRoot_iff_roots {p : ℕ → ℕ} {x y rx ry : ℕ}
    (hx : Root p x rx) (hy : Root p y ry) :
    sameRoot p x y ↔ rx = ry := by
  constructor
  · rintro ⟨r, h1, h2⟩
    rw [root_unique hx h1, root_unique hy h2]
  · intro he
    exact ⟨rx, hx, he ▸ hy⟩

theorem sameRoot_symm {p : ℕ → ℕ} {x y : ℕ} (h : sameRoot p x y) :
    sameRoot p y x := by
  obtain ⟨r, h1, h2⟩ := h
  exact ⟨r, h2, h1⟩

theorem rootsCount_congr {ns : List ℕ} {p p' : ℕ → ℕ}
    (h : ∀ z ∈ ns, (p' z = z ↔ p z = z)) :
    rootsCount ns p' = rootsCount ns p := by
  unfold rootsCount
  congr 1
  refine List.filter_congr ?_
  intro z hz
  exact decide_eq_decide.mpr (h z hz)

theorem filter_count_drop_mem {ns : List ℕ} (hnd : ns.Nodup)
    {q q' : ℕ → Bool} {rx : ℕ}
    (hrx : rx ∈ ns) (hq : q rx = true)
    (hq' : ∀ z ∈ ns, q' z = (q z && decide (z ≠ rx))) :
    (ns.filter q').length + 1 = (ns.filter q).length := by
  induction ns with
  | nil => simp at hrx
  | cons a rest ih =>
    have hnd' : rest.Nodup := hnd.of_cons
    have hq'r : ∀ z ∈ rest, q' z = (q z && decide (z ≠ rx)) :=
      fun z hz => hq' z (List.mem_cons_of_mem a hz)
    by_cases harx : a = rx
    · subst harx
      have hnotin : a ∉ rest := (List.nodup_cons.mp hnd).1
      have hfa : q' a = false := by
        rw [hq' a (List.mem_cons_self a rest)]
        simp
      have heq : rest.filter q' = rest.filter q := by
        apply List.filter_congr
        intro z hz
        rw [hq'r z hz]
        have : z ≠ a := fun he => hnotin (he ▸ hz)
        simp [this]
      simp [List.filter_cons, hfa, hq, heq]
    · have hrx' : rx ∈ rest := by
        rcases List.mem_cons.mp hrx with he | he
        · exact absurd he.symm harx
        · exact he
      have hqa : q' a = q a := by
        rw [hq' a (List.mem_cons_self a rest)]
        simp [harx]
      rcases hqb : q a with _ | _
      · simp [List.filter_cons, hqa, hqb]
        exact ih hnd' hrx' hq'r
      · have := ih hnd' hrx' hq'r
        simp [List.filter_cons, hqa, hqb]
        omega

theorem roots_count_one {ns : List ℕ} {p rk : ℕ → ℕ} (hnd : ns.Nodup)
    (hinv : PInv ns p rk) (hone : rootsCount ns p = 1) :
    ∀ u ∈ ns, ∀ v ∈ ns, sameRoot p u v := by
  intro u hu v hv
  obtain ⟨ru, hru⟩ := root_exists hinv u hu
  obtain ⟨rv, hrv⟩ := root_exists hinv v hv
  have hru_mem : ru ∈ ns.filter (fun x => decide (p x = x)) :=
    List.mem_filter.mpr ⟨chain_in_ns hinv hu hru.1, decide_eq_true hru.2⟩
  have hrv_mem : rv ∈ ns.filter (fun x => decide (p x = x)) :=
    List.mem_filter.mpr ⟨chain_in_ns hinv hv hrv.1, decide_eq_true hrv.2⟩
  obtain ⟨x, hx⟩ := List.length_eq_one.mp hone
  rw [hx] at hru_mem hrv_mem
  have h1 := List.mem_singleton.mp hru_mem
  have h2 := List.mem_singleton.mp hrv_mem
  exact (sameRoot_iff_roots hru hrv).mpr (h1.trans h2.symm)

theorem union6_partition {ns : List ℕ} {uf : Prac6.UF} {x y : ℕ} {fuel : ℕ}
    {b : Bool} {uf' : Prac6.UF} (hnd : ns.Nodup)
    (hinv : PInv ns uf.parent uf.rank) (hx : x ∈ ns) (hy : y ∈ ns)
    (hf : ns.length < fuel) (h : Prac6.union fuel uf x y = (b, uf')) :
    PInv ns uf'.parent uf'.rank ∧
    (b = true ↔ ¬ sameRoot uf.parent x y) ∧
    (b = false →
      (∀ a ∈ ns, ∀ c ∈ ns,
        (sameRoot uf'.parent a c ↔ sameRoot uf.parent a c)) ∧
      rootsCount ns uf'.parent = rootsCount ns uf.parent) ∧
    (b = true →
      (∀ a ∈ ns, ∀ c ∈ ns,
        (sameRoot uf'.parent a c ↔
          (sameRoot uf.parent a c ∨
           (sameRoot uf.parent a x ∧ sameRoot uf.parent c y) ∨
           (sameRoot uf.parent a y ∧ sameRoot uf.parent c x)))) ∧
      rootsCount ns uf'.parent + 1 = rootsCount ns uf.parent ∧
      sameRoot uf'.parent x y) := by
  obtain ⟨rx, ry, hrx, hry, hrxns, hryns, hbf, hinv', hfalse, htrue⟩ :=
    union6_spec hinv hx hy hf h
  have hsr : sameRoot uf.parent x y ↔ rx = ry := sameRoot_iff_roots hrx hry
  refine ⟨hinv', ?_, ?_, ?_⟩
  · rw [hsr]
    cases b
    · simp only [Bool.false_eq_true, false_iff, not_not]
      exact hbf.mp rfl
    · simp only [true_iff]
      intro he
      exact absurd (hbf.mpr he) (by simp)
  · intro hb
    obtain ⟨-, hroots, hfix⟩ := hfalse hb
    constructor
    · intro a ha c hc
      constructor
      · rintro ⟨r, h1, h2⟩
        exact ⟨r, (hroots a ha r).mp h1, (hroots c hc r).mp h2⟩
      · rintro ⟨r, h1, h2⟩
        exact ⟨r, (hroots a ha r).mpr h1, (hroots c hc r).mpr h2⟩
    · exact rootsCount_congr hfix
  · intro hb
    obtain ⟨hne, hpar, hroots, hfix, -, -⟩ := htrue hb
    set L := if uf.rank rx < uf.rank ry then rx else ry with hL
    set W := if uf.rank rx < uf.rank ry then ry else rx with hW
    have hLW : (L = rx ∧ W = ry) ∨ (L = ry ∧ W = rx) := by
      rw [hL, hW]
      by_cases hc : uf.rank rx < uf.rank ry
      · rw [if_pos hc, if_pos hc]; exact Or.inl ⟨rfl, rfl⟩
      · rw [if_neg hc, if_neg hc]; exact Or.inr ⟨rfl, rfl⟩
    have hLne : L ≠ W := by
      rcases hLW with ⟨h1, h2⟩ | ⟨h1, h2⟩
      · rw [h1, h2]; exact hne
      · rw [h1, h2]; exact Ne.symm hne
    have hLfix : uf.parent L = L := by
      rcases hLW with ⟨h1, -⟩ | ⟨h1, -⟩
      · rw [h1]; exact hrx.2
      · rw [h1]; exact hry.2
    have hLns : L ∈ ns := by
      rcases hLW with ⟨h1, -⟩ | ⟨h1, -⟩
      · rw [h1]; exact hrxns
      · rw [h1]; exact hryns
    have rootChar : ∀ a ∈ ns, ∀ ra, Root uf.parent a ra → ∀ s,
        (Root uf'.parent a s ↔ ((ra = L ∧ s = W) ∨ (s = ra ∧ ra ≠ L))) := by
      intro a ha ra hra s
      rw [hroots a ha s]
      constructor
      · rintro (⟨h1, h2⟩ | ⟨h1, h2⟩)
        · exact Or.inl ⟨root_unique hra h1, h2⟩
        · have : ra = s := root_unique hra h1
          exact Or.inr ⟨this.symm, fun heL => h2 (this ▸ heL)⟩
      · rintro (⟨h1, h2⟩ | ⟨h1, h2⟩)
        · exact Or.inl ⟨h1 ▸ hra, h2⟩
        · refine Or.inr ⟨h1 ▸ hra, ?_⟩
          rw [h1]
          exact h2
    refine ⟨?_, ?_, ?_⟩
    · intro a ha c hc
      obtain ⟨ra, hra⟩ := root_exists hinv a ha
      obtain ⟨rc, hrc⟩ := root_exists hinv c hc
      have hax : sameRoot uf.parent a x ↔ ra = rx := sameRoot_iff_roots hra hrx
      have hay : sameRoot uf.parent a y ↔ ra = ry := sameRoot_iff_roots hra hry
      have hcx : sameRoot uf.parent c x ↔ rc = rx := sameRoot_iff_roots hrc hrx
      have hcy : sameRoot uf.parent c y ↔ rc = ry := sameRoot_iff_roots hrc hry
      have hac : sameRoot uf.parent a c ↔ ra = rc := sameRoot_iff_roots hra hrc
      rw [hax, hay, hcx, hcy, hac]
      constructor
      · rintro ⟨s, hsa, hsc⟩
        rcases (rootChar a ha ra hra s).mp hsa with ⟨ha1, ha2⟩ | ⟨ha1, ha2⟩ <;>
          rcases (rootChar c hc rc hrc s).mp hsc with ⟨hc1, hc2⟩ | ⟨hc1, hc2⟩
        · exact Or.inl (ha1.trans hc1.symm)
        · rcases hLW with ⟨hl, hw⟩ | ⟨hl, hw⟩
          · refine Or.inr (Or.inl ⟨ha1.trans hl, ?_⟩)
            rw [← hc1, ha2, hw]
          · refine Or.inr (Or.inr ⟨ha1.trans hl, ?_⟩)
            rw [← hc1, ha2, hw]
        · rcases hLW with ⟨hl, hw⟩ | ⟨hl, hw⟩
          · refine Or.inr (Or.inr ⟨?_, hc1.trans hl⟩)
            rw [← ha1, hc2, hw]
          · refine Or.inr (Or.inl ⟨?_, hc1.trans hl⟩)
            rw [← ha1, hc2, hw]
        · exact Or.inl (ha1.symm.trans hc1)
      · intro hcase
        have key : (ra = L ∨ ra = W → rc = L ∨ rc = W → True) := fun _ _ => trivial
        rcases hcase with he | ⟨h1, h2⟩ | ⟨h1, h2⟩
        · by_cases hraL : ra = L
          · refine ⟨W, ?_, ?_⟩
            · exact (rootChar a ha ra hra W).mpr (Or.inl ⟨hraL, rfl⟩)
            · exact (rootChar c hc rc hrc W).mpr (Or.inl ⟨he ▸ hraL, rfl⟩)
          · refine ⟨ra, ?_, ?_⟩
            · exact (rootChar a ha ra hra ra).mpr (Or.inr ⟨rfl, hraL⟩)
            · exact (rootChar c hc rc hrc ra).mpr (Or.inr ⟨he, he ▸ hraL⟩)
        · rcases hLW with ⟨hl, hw⟩ | ⟨hl, hw⟩
          · refine ⟨W, ?_, ?_⟩
            · exact (rootChar a ha ra hra W).mpr (Or.inl ⟨h1.trans hl.symm, rfl⟩)
            · refine (rootChar c hc rc hrc W).mpr (Or.inr ⟨?_, ?_⟩)
              · rw [hw, h2]
              · rw [h2, hl]
                exact Ne.symm hne
          · refine ⟨W, ?_, ?_⟩
            · refine (rootChar a ha ra hra W).mpr (Or.inr ⟨?_, ?_⟩)
              · rw [hw, h1]
              · rw [h1, hl]
                exact hne
            · exact (rootChar c hc rc hrc W).mpr (Or.inl ⟨h2.trans hl.symm, rfl⟩)
        · rcases hLW with ⟨hl, hw⟩ | ⟨hl, hw⟩
          · refine ⟨W, ?_, ?_⟩
            · refine (rootChar a ha ra hra W).mpr (Or.inr ⟨?_, ?_⟩)
              · rw [hw, h1]
              · rw [h1, hl]
                exact Ne.symm hne
            · exact (rootChar c hc rc hrc W).mpr (Or.inl ⟨h2.trans hl.symm, rfl⟩)
          · refine ⟨W, ?_, ?_⟩
            · exact (rootChar a ha ra hra W).mpr (Or.inl ⟨h1.trans hl.symm, rfl⟩)
            · refine (rootChar c hc rc hrc W).mpr (Or.inr ⟨?_, ?_⟩)
              · rw [hw, h2]
              · rw [h2, hl]
                exact hne
    · refine filter_count_drop_mem hnd hLns (decide_eq_true hLfix) ?_
      intro z hz
      by_cases h1 : uf.parent z = z <;> by_cases h2 : z = L <;>
        simp [h1, h2, hfix z hz, hpar, Ne.symm hLne]
    · refine ⟨W, ?_, ?_⟩
      · rcases hLW with ⟨hl, hw⟩ | ⟨hl, hw⟩
        · exact (rootChar x hx rx hrx W).mpr (Or.inl ⟨hl.symm, rfl⟩)
        · refine (rootChar x hx rx hrx W).mpr (Or.inr ⟨hw, ?_⟩)
          rw [hl]
          exact hne
      · rcases hLW with ⟨hl, hw⟩ | ⟨hl, hw⟩
        · refine (rootChar y hy ry hry W).mpr (Or.inr ⟨hw, ?_⟩)
          rw [hl]
          exact Ne.symm hne
        · exact (rootChar y hy ry hry W).mpr (Or.inl ⟨hl.symm, rfl⟩)

end UnionPartition

section ExchangeLemmas

theorem weight_perm {A B : List Edg} (h : A.Perm B) : weight A = weight B := by
  unfold weight
  exact List.Perm.sum_eq (h.map _)

theorem weight_sublist_le {A B : List Edg} (h : A.Sublist B)
    (hnn : ∀ g ∈ B, 0 ≤ g.2.2) : weight A ≤ weight B := by
  induction h with
  | slnil => exact le_refl 0
  | @cons l₁ l₂ a hsl ih =>
    have h1 := ih (fun g hg => hnn g (List.mem_cons_of_mem a hg))
    have h2 := hnn a (List.mem_cons_self a l₂)
    unfold weight at h1 ⊢
    simp only [List.map_cons, List.sum_cons]
    linarith
  | @cons₂ l₁ l₂ a hsl ih =>
    have h1 := ih (fun g hg => hnn g (List.mem_cons_of_mem a hg))
    unfold weight at h1 ⊢
    simp only [List.map_cons, List.sum_cons]
    linarith

theorem weight_subperm_le {A B : List Edg} (hsub : A.Subperm B)
    (hnn : ∀ g ∈ B, 0 ≤ g.2.2) : weight A ≤ weight B := by
  obtain ⟨l, hperm, hsl⟩ := hsub
  rw [← weight_perm hperm]
  exact weight_sublist_le hsl hnn

theorem ewalk_conn {T : List Edg} {x y : ℕ} {p : List ℕ}
    (h : EWalk T x y p) : Conn T x y := by
  induction h with
  | nil c => exact conn_refl T c
  | cons hst _ ih => exact Relation.ReflTransGen.head hst ih

theorem ewalk_snoc {T : List Edg} {x y z : ℕ} {p : List ℕ}
    (h : EWalk T x y p) (hst : estep T y z) : EWalk T x z (p ++ [z]) := by
  induction h with
  | nil c => exact EWalk.cons hst (EWalk.nil z)
  | cons hst' _ ih => exact EWalk.cons hst' (ih hst)

theorem conn_ewalk {T : List Edg} {x y : ℕ} (h : Conn T x y) :
    ∃ p, EWalk T x y p := by
  induction h with
  | refl => exact ⟨[x], EWalk.nil x⟩
  | tail _ hstep ih =>
    obtain ⟨p, hp⟩ := ih
    exact ⟨p ++ [_], ewalk_snoc hp hstep⟩

theorem ewalk_head {T : List Edg} {x z : ℕ} {p : List ℕ}
    (h : EWalk T x z p) : ∃ t, p = x :: t := by
  cases h with
  | nil => exact ⟨[], rfl⟩
  | cons _ _ => exact ⟨_, rfl⟩

theorem ewalk_mem_split {T : List Edg} {z : ℕ} :
    ∀ {x u : ℕ} {p : List ℕ}, EWalk T x z p → u ∈ p →
      ∃ p₁ p₂, p = p₁ ++ u :: p₂ ∧ EWalk T u z (u :: p₂) := by
  intro x u p hw
  induction hw with
  | nil c =>
    intro hu
    have := List.mem_singleton.mp hu
    subst this
    exact ⟨[], [], rfl, EWalk.nil u⟩
  | @cons x y z p' hst hw ih =>
    intro hu
    rcases List.mem_cons.1 hu with he | hm
    · subst he
      exact ⟨[], p', rfl, EWalk.cons hst hw⟩
    · obtain ⟨p₁, p₂, heq, hw2⟩ := ih hm
      exact ⟨x :: p₁, p₂, by rw [heq]; rfl, hw2⟩

theorem ewalk_simple {T : List Edg} :
    ∀ {x z : ℕ} {p : List ℕ}, EWalk T x z p →
      ∃ q, EWalk T x z q ∧ q.Nodup := by
  intro x z p hw
  induction hw with
  | nil c => exact ⟨[c], EWalk.nil c, List.nodup_singleton c⟩
  | @cons x y z p' hst hw ih =>
    obtain ⟨q', hw', hnd'⟩ := ih
    by_cases hx : x ∈ q'
    · obtain ⟨q₁, q₂, heq, hw2⟩ := ewalk_mem_split hw' hx
      refine ⟨x :: q₂, hw2, ?_⟩
      have hsl : (x :: q₂).Sublist q' := by
        rw [heq]
        exact List.sublist_append_right q₁ (x :: q₂)
      exact hnd'.sublist hsl
    · exact ⟨x :: q', EWalk.cons hst hw', List.nodup_cons.mpr ⟨hx, hnd'⟩⟩

theorem ewalk_cross {T : List Edg} {S : ℕ → Prop} :
    ∀ {x b : ℕ} {p : List ℕ}, EWalk T x b p → S x → ¬ S b →
      ∃ u v q₁ q₂, p = q₁ ++ u :: v :: q₂ ∧ S u ∧ ¬ S v ∧
        estep T u v ∧ EWalk T v b (v :: q₂) := by
  intro x b p hw
  induction hw with
  | nil c => intro hS hnS; exact absurd hS hnS
  | @cons x y z p' hst hw ih =>
    intro hSx hnSz
    by_cases hSy : S y
    · obtain ⟨u, v, q₁, q₂, heq, h1, h2, h3, h4⟩ := ih hSy hnSz
      exact ⟨u, v, x :: q₁, q₂, by rw [heq]; rfl, h1, h2, h3, h4⟩
    · obtain ⟨t, ht⟩ := ewalk_head hw
      exact ⟨x, y, [], t, by rw [ht]; rfl, hSx, hSy, hst, ht ▸ hw⟩

theorem ewalk_avoid {T : List Edg} {f : Edg} {vv : ℕ}
    (hvf : f.1 = vv ∨ f.2.1 = vv) :
    ∀ {x z : ℕ} {p : List ℕ}, EWalk T x z p → vv ∉ p →
      EWalk (rmFirst T f) x z p := by
  intro x z p hw
  induction hw with
  | nil c => intro _; exact EWalk.nil c
  | @cons x y z p' hst hw ih =>
    intro hnv
    have hx : x ≠ vv := fun he => hnv (he ▸ List.mem_cons_self x p')
    have hy : y ≠ vv := by
      obtain ⟨t, ht⟩ := ewalk_head hw
      intro he
      exact hnv (List.mem_cons_of_mem x (ht ▸ (he ▸ List.mem_cons_self y t)))
    obtain ⟨w, hg⟩ := hst
    have hstep' : estep (rmFirst T f) x y := by
      rcases hg with hm | hm
      · refine ⟨w, Or.inl (mem_rmFirst_of_ne hm ?_)⟩
        intro he
        rcases hvf with h1 | h1
        · exact hx ((congrArg Prod.fst he).trans h1)
        · exact hy ((congrArg (fun t : Edg => t.2.1) he).trans h1)
      · refine ⟨w, Or.inr (mem_rmFirst_of_ne hm ?_)⟩
        intro he
        rcases hvf with h1 | h1
        · exact hy ((congrArg Prod.fst he).trans h1)
        · exact hx ((congrArg (fun t : Edg => t.2.1) he).trans h1)
    exact EWalk.cons hstep' (ih (fun hm => hnv (List.mem_cons_of_mem x hm)))

theorem subperm_rmFirst_of_not_mem {A T : List Edg} (hsub : A.Subperm T)
    {f : Edg} (hf : f ∈ T) (hfA : f ∉ A) : A.Subperm (rmFirst T f) := by
  rw [← Multiset.coe_le] at hsub ⊢
  have hTperm : (↑T : Multiset Edg) = f ::ₘ ↑(rmFirst T f) := by
    have := rmFirst_perm hf
    exact Multiset.coe_eq_coe.mpr this
  rw [Multiset.le_iff_count] at hsub ⊢
  intro x
  have hc := hsub x
  rw [hTperm, Multiset.count_cons] at hc
  by_cases hx : x = f
  · have : Multiset.count x ↑A = 0 := by
      rw [Multiset.count_eq_zero]
      rw [Multiset.mem_coe]
      exact hx ▸ hfA
    omega
  · simp only [hx, if_false] at hc
    omega

theorem exchange_edge {T A : List Edg} {e : Edg} {S : ℕ → Prop}
    (hS1 : S e.1) (hS2 : ¬ S e.2.1)
    (hconn : Conn T e.1 e.2.1)
    (hAsub : A.Subperm T)
    (hAS : ∀ z, S z → Conn A e.1 z)
    (hAcl : ∀ g ∈ A, (S g.1 ↔ S g.2.1)) :
    ∃ f ∈ T, ((S f.1 ∧ ¬ S f.2.1) ∨ (S f.2.1 ∧ ¬ S f.1)) ∧
      A.Subperm (rmFirst T f) ∧
      (∀ x y, Conn T x y → Conn (rmFirst T f ++ [e]) x y) := by
  obtain ⟨p0, hw0⟩ := conn_ewalk hconn
  obtain ⟨q, hwq, hndq⟩ := ewalk_simple hw0
  obtain ⟨u, v, q₁, q₂, heq, hSu, hSv, hstep, hwsuf⟩ := ewalk_cross hwq hS1 hS2
  have hnduv : u ∉ v :: q₂ := by
    have hsl : (u :: v :: q₂).Sublist q := by
      rw [heq]
      exact List.sublist_append_right q₁ (u :: v :: q₂)
    exact (List.nodup_cons.mp (hndq.sublist hsl)).1
  obtain ⟨w, hg⟩ := hstep
  have main : ∀ f : Edg, f ∈ T →
      ((f.1 = u ∧ f.2.1 = v) ∨ (f.1 = v ∧ f.2.1 = u)) →
      ((S f.1 ∧ ¬ S f.2.1) ∨ (S f.2.1 ∧ ¬ S f.1)) ∧
      A.Subperm (rmFirst T f) ∧
      (∀ x y, Conn T x y → Conn (rmFirst T f ++ [e]) x y) := by
    intro f hfT hfor
    have hcrossS : (S f.1 ∧ ¬ S f.2.1) ∨ (S f.2.1 ∧ ¬ S f.1) := by
      rcases hfor with ⟨h1, h2⟩ | ⟨h1, h2⟩
      · exact Or.inl ⟨by rw [h1]; exact hSu, by rw [h2]; exact hSv⟩
      · exact Or.inr ⟨by rw [h2]; exact hSu, by rw [h1]; exact hSv⟩
    have hfA : f ∉ A := by
      intro hmem
      have := hAcl f hmem
      rcases hcrossS with ⟨h1, h2⟩ | ⟨h1, h2⟩
      · exact h2 (this.mp h1)
      · exact h2 (this.mpr h1)
    have hAsub' : A.Subperm (rmFirst T f) := subperm_rmFirst_of_not_mem hAsub hfT hfA
    have hu_or : f.1 = u ∨ f.2.1 = u := by
      rcases hfor with ⟨h1, -⟩ | ⟨-, h2⟩
      · exact Or.inl h1
      · exact Or.inr h2
    have hAconn : ∀ x y, Conn A x y → Conn (rmFirst T f ++ [e]) x y :=
      fun x y hc => conn_append_left (conn_mono hAsub'.subset hc)
    have hsuf' : EWalk (rmFirst T f) v e.2.1 (v :: q₂) :=
      ewalk_avoid hu_or hwsuf hnduv
    have hTuv : Conn (rmFirst T f ++ [e]) u v := by
      have h1 : Conn (rmFirst T f ++ [e]) u e.1 :=
        hAconn u e.1 (conn_symm (hAS u hSu))
      have h2 : Conn (rmFirst T f ++ [e]) e.1 e.2.1 :=
        conn_single ⟨e.2.2, Or.inl (List.mem_append_right _
          (List.mem_singleton.mpr rfl))⟩
      have h3 : Conn (rmFirst T f ++ [e]) e.2.1 v :=
        conn_symm (conn_append_left (ewalk_conn hsuf'))
      exact conn_trans (conn_trans h1 h2) h3
    refine ⟨hcrossS, hAsub', ?_⟩
    intro x y hc
    refine conn_of_step_cover ?_ hc
    intro x' y' hst'
    obtain ⟨w', hg'⟩ := hst'
    rcases hg' with hm | hm
    · by_cases hef : (x', y', w') = f
      · have hx' : x' = f.1 := congrArg Prod.fst hef
        have hy' : y' = f.2.1 := congrArg (fun t : Edg => t.2.1) hef
        rcases hfor with ⟨h1, h2⟩ | ⟨h1, h2⟩
        · rw [hx', hy', h1, h2]; exact hTuv
        · rw [hx', hy', h1, h2]; exact conn_symm hTuv
      · exact conn_single ⟨w', Or.inl (List.mem_append_left _
          (mem_rmFirst_of_ne hm hef))⟩
    · by_cases hef : (y', x', w') = f
      · have hy' : y' = f.1 := congrArg Prod.fst hef
        have hx' : x' = f.2.1 := congrArg (fun t : Edg => t.2.1) hef
        rcases hfor with ⟨h1, h2⟩ | ⟨h1, h2⟩
        · rw [hx', hy', h1, h2]; exact conn_symm hTuv
        · rw [hx', hy', h1, h2]; exact hTuv
      · exact conn_single ⟨w', Or.inr (List.mem_append_left _
          (mem_rmFirst_of_ne hm hef))⟩
  rcases hg with hm | hm
  · exact ⟨(u, v, w), hm, main (u, v, w) hm (Or.inl ⟨rfl, rfl⟩)⟩
  · exact ⟨(v, u, w), hm, main (v, u, w) hm (Or.inr ⟨rfl, rfl⟩)⟩

theorem exists_min_spanning {E : List Edg} {ns : List ℕ}
    (hconn : ∀ u ∈ ns, ∀ v ∈ ns, Conn E u v) :
    ∃ T, SpanningConn E ns T ∧
      ∀ T', SpanningConn E ns T' → weight T ≤ weight T' := by
  classical
  have key : ∀ (L : List (List Edg)),
      (∃ x ∈ L, SpanningConn E ns x) →
      ∃ x ∈ L, SpanningConn E ns x ∧
        ∀ y ∈ L, SpanningConn E ns y → weight x ≤ weight y := by
    intro L
    induction L with
    | nil => rintro ⟨x, hx, -⟩; exact absurd hx (List.not_mem_nil x)
    | cons a L ih =>
      intro hex
      by_cases hPa : SpanningConn E ns a
      · by_cases hexL : ∃ x ∈ L, SpanningConn E ns x
        · obtain ⟨x, hxL, hPx, hmin⟩ := ih hexL
          by_cases hcmp : weight x ≤ weight a
          · refine ⟨x, List.mem_cons_of_mem a hxL, hPx, ?_⟩
            intro y hy hPy
            rcases List.mem_cons.1 hy with he | hm
            · exact he ▸ hcmp
            · exact hmin y hm hPy
          · refine ⟨a, List.mem_cons_self a L, hPa, ?_⟩
            intro y hy hPy
            rcases List.mem_cons.1 hy with he | hm
            · exact he ▸ le_refl _
            · exact le_trans (le_of_not_le hcmp) (hmin y hm hPy)
        · refine ⟨a, List.mem_cons_self a L, hPa, ?_⟩
          intro y hy hPy
          rcases List.mem_cons.1 hy with he | hm
          · exact he ▸ le_refl _
          · exact absurd ⟨y, hm, hPy⟩ hexL
      · obtain ⟨x, hx, hPx⟩ := hex
        have hxL : x ∈ L := by
          rcases List.mem_cons.1 hx with he | hm
          · exact absurd (he ▸ hPx) hPa
          · exact hm
        obtain ⟨x', hx'L, hPx', hmin⟩ := ih ⟨x, hxL, hPx⟩
        refine ⟨x', List.mem_cons_of_mem a hx'L, hPx', ?_⟩
        intro y hy hPy
        rcases List.mem_cons.1 hy with he | hm
        · exact absurd (he ▸ hPy) hPa
        · exact hmin y hm hPy
  have hEspan : SpanningConn E ns E := ⟨List.Subperm.refl E, hconn⟩
  have hEmem : E ∈ E.sublists := List.mem_sublists.mpr (List.Sublist.refl E)
  obtain ⟨x, hxL, hPx, hmin⟩ := key E.sublists ⟨E, hEmem, hEspan⟩
  refine ⟨x, hPx, ?_⟩
  intro T' hT'
  obtain ⟨l, hlperm, hlsl⟩ := hT'.1
  have hlmem : l ∈ E.sublists := List.mem_sublists.mpr hlsl
  have hlP : SpanningConn E ns l := by
    refine ⟨⟨l, List.Perm.refl l, hlsl⟩, ?_⟩
    intro u hu v hv
    exact conn_mono (fun m hm => hlperm.mem_iff.mpr hm) ((hT'.2) u hu v hv)
  have := hmin l hlmem hlP
  rw [weight_perm hlperm] at this
  exact this

end ExchangeLemmas

section McountLemmas

theorem mcount_cons (a : Edg) (l : List Edg) (v : Edg) :
    Multiset.count v ↑(a :: l) =
      Multiset.count v ↑l + (if v = a then 1 else 0) := by
  by_cases hv : v = a
  · subst hv
    rw [← Multiset.cons_coe, Multiset.count_cons_self, if_pos rfl]
  · rw [← Multiset.cons_coe, Multiset.count_cons_of_ne hv, if_neg hv]
    omega

theorem mcount_append (l₁ l₂ : List Edg) (v : Edg) :
    Multiset.count v ↑(l₁ ++ l₂) =
      Multiset.count v ↑l₁ + Multiset.count v ↑l₂ := by
  induction l₁ with
  | nil => simp
  | cons a as ih =>
    rw [List.cons_append, mcount_cons, mcount_cons, ih]
    omega

theorem mcount_rmFirst {T : List Edg} {f : Edg} (hf : f ∈ T) (v : Edg) :
    Multiset.count v ↑(rmFirst T f) + (if v = f then 1 else 0) =
      Multiset.count v ↑T := by
  have hcoe : (↑T : Multiset Edg) = ↑(f :: rmFirst T f) :=
    Multiset.coe_eq_coe.mpr (rmFirst_perm hf)
  rw [hcoe, mcount_cons]

theorem mcount_eq_zero {l : List Edg} {v : Edg} (h : v ∉ l) :
    Multiset.count v ↑l = 0 :=
  Multiset.count_eq_zero.mpr (fun hm => h (Multiset.mem_coe.mp hm))

theorem mem_of_mcount_pos {l : List Edg} {v : Edg}
    (h : 0 < Multiset.count v ↑l) : v ∈ l :=
  Multiset.mem_coe.mp (Multiset.count_pos.mp h)

theorem mcount_pos_of_mem {l : List Edg} {v : Edg} (h : v ∈ l) :
    0 < Multiset.count v ↑l :=
  Multiset.count_pos.mpr (Multiset.mem_coe.mpr h)

theorem subperm_iff_mcount {l₁ l₂ : List Edg} :
    l₁.Subperm l₂ ↔
      ∀ v : Edg, Multiset.count v ↑l₁ ≤ Multiset.count v ↑l₂ := by
  rw [← Multiset.coe_le, Multiset.le_iff_count (α := Edg)]

theorem mle_iff_mcount {l₁ : List Edg} {s : Multiset Edg} :
    (↑l₁ : Multiset Edg) ≤ s ↔
      ∀ v : Edg, Multiset.count v ↑l₁ ≤ Multiset.count v s :=
  Multiset.le_iff_count (α := Edg)

theorem perm_of_mcount {l₁ l₂ : List Edg}
    (h : ∀ v : Edg, Multiset.count v ↑l₁ = Multiset.count v ↑l₂) :
    l₁.Perm l₂ :=
  Multiset.coe_eq_coe.mp (Multiset.ext.mpr h)

theorem weight_cons (g : Edg) (l : List Edg) :
    weight (g :: l) = g.2.2 + weight l := by
  unfold weight
  simp

end McountLemmas

section KruskalTInv

theorem mcount_singleton (a x : Edg) :
    Multiset.count x ↑[a] = if x = a then 1 else 0 := by
  rw [mcount_cons]
  simp

theorem kruskal_Tskip {E : List Edg} {ns : List ℕ} {mst : List Edg}
    {u v : ℕ} {w : ℚ} {rest : List Edg}
    (hnnE : ∀ g ∈ E, 0 ≤ g.2.2) (heE : ((u, v, w) : Edg) ∈ E)
    (hconn : Conn mst u v) :
    (∃ T, SpanningConn E ns T ∧
      (∀ T', SpanningConn E ns T' → weight T ≤ weight T') ∧
      mst.Subperm T ∧
      (↑T : Multiset Edg) ≤ ↑mst + ↑(((u, v, w) : Edg) :: rest)) →
    ∃ T, SpanningConn E ns T ∧
      (∀ T', SpanningConn E ns T' → weight T ≤ weight T') ∧
      mst.Subperm T ∧ (↑T : Multiset Edg) ≤ ↑mst + ↑rest := by
  rintro ⟨T, hsp, hmin, hsubm, hdom⟩
  rw [mle_iff_mcount] at hdom
  by_cases hcase : Multiset.count ((u, v, w) : Edg) ↑T ≤
      Multiset.count ((u, v, w) : Edg) ↑mst +
        Multiset.count ((u, v, w) : Edg) ↑rest
  · refine ⟨T, hsp, hmin, hsubm, ?_⟩
    rw [mle_iff_mcount]
    intro x
    have h1 := hdom x
    rw [Multiset.count_add, mcount_cons] at h1
    rw [Multiset.count_add]
    by_cases hx : x = ((u, v, w) : Edg)
    · rw [if_pos hx] at h1
      subst hx
      omega
    · rw [if_neg hx] at h1
      omega
  · have hcnt := hdom ((u, v, w) : Edg)
    rw [Multiset.count_add, mcount_cons, if_pos rfl] at hcnt
    have heT : ((u, v, w) : Edg) ∈ T := mem_of_mcount_pos (by omega)
    have hrmc := fun x : Edg => mcount_rmFirst (T := T) heT x
    have hsubmT' : mst.Subperm (rmFirst T ((u, v, w) : Edg)) := by
      rw [subperm_iff_mcount] at hsubm ⊢
      intro x
      have h1 := hsubm x
      have h2 := hrmc x
      by_cases hx : x = ((u, v, w) : Edg)
      · rw [if_pos hx] at h2
        have h3 := hdom x
        rw [Multiset.count_add, mcount_cons, if_pos hx] at h3
        subst hx
        omega
      · rw [if_neg hx] at h2
        omega
    have hspan' : SpanningConn E ns (rmFirst T ((u, v, w) : Edg)) := by
      constructor
      · exact ((rmFirst_sublist T _).subperm).trans hsp.1
      · intro a ha c hc
        refine conn_of_step_cover ?_ (hsp.2 a ha c hc)
        intro x' y' hst
        obtain ⟨w', hg⟩ := hst
        rcases hg with hm | hm
        · by_cases hef : ((x', y', w') : Edg) = ((u, v, w) : Edg)
          · have hx' : x' = u := congrArg Prod.fst hef
            have hy' : y' = v := congrArg (fun t : Edg => t.2.1) hef
            rw [hx', hy']
            exact conn_mono hsubmT'.subset hconn
          · exact conn_single ⟨w', Or.inl (mem_rmFirst_of_ne hm hef)⟩
        · by_cases hef : ((y', x', w') : Edg) = ((u, v, w) : Edg)
          · have hy' : y' = u := congrArg Prod.fst hef
            have hx' : x' = v := congrArg (fun t : Edg => t.2.1) hef
            rw [hx', hy']
            exact conn_symm (conn_mono hsubmT'.subset hconn)
          · exact conn_single ⟨w', Or.inr (mem_rmFirst_of_ne hm hef)⟩
    have hwT' : weight (rmFirst T ((u, v, w) : Edg)) ≤ weight T := by
      have hperm := weight_perm (rmFirst_perm heT)
      rw [weight_cons] at hperm
      have hw0 : 0 ≤ ((u, v, w) : Edg).2.2 := hnnE _ heE
      linarith
    refine ⟨rmFirst T ((u, v, w) : Edg), hspan', ?_, hsubmT', ?_⟩
    · intro T'' hT''
      exact le_trans hwT' (hmin T'' hT'')
    · rw [mle_iff_mcount]
      intro x
      have h1 := hdom x
      rw [Multiset.count_add, mcount_cons] at h1
      have h2 := hrmc x
      rw [Multiset.count_add]
      by_cases hx : x = ((u, v, w) : Edg)
      · rw [if_pos hx] at h1 h2
        omega
      · rw [if_neg hx] at h1 h2
        omega

theorem kruskal_Tstep {E : List Edg} {ns : List ℕ} {mst : List Edg}
    {u v : ℕ} {w : ℚ} {rest : List Edg}
    (hnnE : ∀ g ∈ E, 0 ≤ g.2.2)
    (hu_ns : u ∈ ns) (hv_ns : v ∈ ns)
    (heE : ((u, v, w) : Edg) ∈ E)
    (hnoconn : ¬ Conn mst u v)
    (hsorted : ∀ g ∈ rest, w ≤ g.2.2) :
    (∃ T, SpanningConn E ns T ∧
      (∀ T', SpanningConn E ns T' → weight T ≤ weight T') ∧
      mst.Subperm T ∧
      (↑T : Multiset Edg) ≤ ↑mst + ↑(((u, v, w) : Edg) :: rest)) →
    ∃ T, SpanningConn E ns T ∧
      (∀ T', SpanningConn E ns T' → weight T ≤ weight T') ∧
      (mst ++ [((u, v, w) : Edg)]).Subperm T ∧
      (↑T : Multiset Edg) ≤ ↑(mst ++ [((u, v, w) : Edg)]) + ↑rest := by
  rintro ⟨T, hsp, hmin, hsubm, hdom⟩
  rw [mle_iff_mcount] at hdom
  have hemst : ((u, v, w) : Edg) ∉ mst := by
    intro hm
    exact hnoconn (conn_single ⟨w, Or.inl hm⟩)
  by_cases heT : ((u, v, w) : Edg) ∈ T
  · refine ⟨T, hsp, hmin, ?_, ?_⟩
    · rw [subperm_iff_mcount] at hsubm ⊢
      intro x
      have h1 := hsubm x
      have h2 := mcount_append mst [((u, v, w) : Edg)] x
      rw [mcount_singleton] at h2
      by_cases hx : x = ((u, v, w) : Edg)
      · subst hx
        rw [if_pos rfl] at h2
        have h3 := mcount_eq_zero hemst
        have h4 := mcount_pos_of_mem heT
        omega
      · rw [if_neg hx] at h2
        omega
    · rw [mle_iff_mcount]
      intro x
      have h1 := hdom x
      rw [Multiset.count_add, mcount_cons] at h1
      rw [Multiset.count_add, mcount_append, mcount_singleton]
      by_cases hx : x = ((u, v, w) : Edg)
      · rw [if_pos hx] at h1 ⊢
        omega
      · rw [if_neg hx] at h1 ⊢
        omega
  · have hconnT : Conn T u v := hsp.2 u hu_ns v hv_ns
    have hAcl : ∀ g ∈ mst, (Conn mst u g.1 ↔ Conn mst u g.2.1) := by
      intro g hg
      have hstep : Conn mst g.1 g.2.1 := conn_single ⟨g.2.2, Or.inl hg⟩
      exact ⟨fun h => conn_trans h hstep,
        fun h => conn_trans h (conn_symm hstep)⟩
    obtain ⟨f, hfT, hcross, hsubrm, hcover⟩ :=
      exchange_edge (T := T) (A := mst) (e := ((u, v, w) : Edg))
        (S := fun z => Conn mst u z)
        (conn_refl mst u) hnoconn hconnT hsubm (fun z hz => hz) hAcl
    have hfmst : f ∉ mst := by
      intro hm
      have := hAcl f hm
      rcases hcross with ⟨h1, h2⟩ | ⟨h1, h2⟩
      · exact h2 (this.mp h1)
      · exact h2 (this.mpr h1)
    have hfe : f ≠ ((u, v, w) : Edg) := fun he => heT (he ▸ hfT)
    have hfrest : f ∈ rest := by
      have h1 := hdom f
      rw [Multiset.count_add, mcount_cons, if_neg hfe] at h1
      have h2 := mcount_pos_of_mem hfT
      have h3 := mcount_eq_zero (l := mst) hfmst
      have h4 : f ∈ ((u, v, w) : Edg) :: rest := by
        have h5 : 0 < Multiset.count f ↑(((u, v, w) : Edg) :: rest) := by
          rw [mcount_cons, if_neg hfe]
          omega
        exact mem_of_mcount_pos h5
      rcases List.mem_cons.1 h4 with he | hm
      · exact absurd he hfe
      · exact hm
    have hwf : w ≤ f.2.2 := hsorted f hfrest
    have hrmc := fun x : Edg => mcount_rmFirst (T := T) hfT x
    have hcT' : ∀ x : Edg,
        Multiset.count x ↑(rmFirst T f ++ [((u, v, w) : Edg)]) =
          Multiset.count x ↑(rmFirst T f) +
            (if x = ((u, v, w) : Edg) then 1 else 0) := by
      intro x
      rw [mcount_append, mcount_singleton]
    have hTEc := subperm_iff_mcount.mp hsp.1
    have hspan' : SpanningConn E ns (rmFirst T f ++ [((u, v, w) : Edg)]) := by
      constructor
      · rw [subperm_iff_mcount]
        intro x
        have h1 := hTEc x
        have h2 := hrmc x
        have h3 := hcT' x
        by_cases hx : x = ((u, v, w) : Edg)
        · subst hx
          rw [if_pos rfl] at h3
          have h4 := mcount_eq_zero heT
          have h5 := mcount_pos_of_mem heE
          rw [if_neg (fun h => hfe h.symm)] at h2
          omega
        · rw [if_neg hx] at h3
          by_cases hxf : x = f
          · rw [if_pos hxf] at h2
            omega
          · rw [if_neg hxf] at h2
            omega
      · intro a ha c hc
        exact hcover a c (hsp.2 a ha c hc)
    have hwT' : weight (rmFirst T f ++ [((u, v, w) : Edg)]) ≤ weight T := by
      have hperm := weight_perm (rmFirst_perm hfT)
      rw [weight_cons] at hperm
      rw [weight_append, weight_single]
      have : ((u, v, w) : Edg).2.2 = w := rfl
      rw [this]
      linarith
    refine ⟨rmFirst T f ++ [((u, v, w) : Edg)], hspan', ?_, ?_, ?_⟩
    · intro T'' hT''
      exact le_trans hwT' (hmin T'' hT'')
    · rw [subperm_iff_mcount] at hsubm ⊢
      intro x
      have h1 := hsubm x
      have h2 := hrmc x
      have h3 := hcT' x
      have h4 := mcount_append mst [((u, v, w) : Edg)] x
      rw [mcount_singleton] at h4
      by_cases hx : x = ((u, v, w) : Edg)
      · subst hx
        rw [if_pos rfl] at h3 h4
        have h5 := mcount_eq_zero hemst
        rw [if_neg (fun h => hfe h.symm)] at h2
        omega
      · rw [if_neg hx] at h3 h4
        by_cases hxf : x = f
        · subst hxf
          have h5 := mcount_eq_zero hfmst
          rw [if_pos rfl] at h2
          omega
        · rw [if_neg hxf] at h2
          omega
    · rw [mle_iff_mcount]
      intro x
      have h1 := hdom x
      rw [Multiset.count_add, mcount_cons] at h1
      have h2 := hrmc x
      have h3 := hcT' x
      have h4 := mcount_append mst [((u, v, w) : Edg)] x
      rw [mcount_singleton] at h4
      rw [Multiset.count_add, h3, h4]
      by_cases hx : x = ((u, v, w) : Edg)
      · subst hx
        have h5 := mcount_eq_zero heT
        rw [if_pos rfl] at h1 ⊢
        rw [if_neg (fun h => hfe h.symm)] at h2
        omega
      · rw [if_neg hx] at h1 ⊢
        by_cases hxf : x = f
        · subst hxf
          rw [if_pos rfl] at h2
          omega
        · rw [if_neg hxf] at h2
          omega

end KruskalTInv

section KruskalInv

theorem kruskal6Go_inv {ns : List ℕ} {E : List Edg} (hnd : ns.Nodup)
    {fuel : ℕ} (hfuel : ns.length < fuel) :
    ∀ (rem : List Edg) (uf : Prac6.UF) (mst : List Edg) (tot : ℚ),
      PInv ns uf.parent uf.rank →
      (∀ g ∈ rem, g.1 ∈ ns ∧ g.2.1 ∈ ns) →
      (∀ g ∈ rem, g ∈ E) →
      (∀ g ∈ mst, g.1 ∈ ns ∧ g.2.1 ∈ ns) →
      Forest mst →
      (∀ u ∈ ns, ∀ v ∈ ns, (sameRoot uf.parent u v ↔ Conn mst u v)) →
      rootsCount ns uf.parent + mst.length = ns.length →
      rem.Sorted (fun a b : Edg => a.2.2 ≤ b.2.2) →
      Forest (Prac6.kruskalGo fuel ns.length rem uf mst tot).1 ∧
      (∀ g ∈ (Prac6.kruskalGo fuel ns.length rem uf mst tot).1,
        g.1 ∈ ns ∧ g.2.1 ∈ ns) ∧
      (∃ Δ, (Prac6.kruskalGo fuel ns.length rem uf mst tot).1 = mst ++ Δ ∧
        ∀ g ∈ Δ, g ∈ rem) ∧
      (((Prac6.kruskalGo fuel ns.length rem uf mst tot).1.length + 1 =
          ns.length ∧
         ∀ u ∈ ns, ∀ v ∈ ns,
           Conn (Prac6.kruskalGo fuel ns.length rem uf mst tot).1 u v) ∨
        (∀ g ∈ rem,
          Conn (Prac6.kruskalGo fuel ns.length rem uf mst tot).1 g.1 g.2.1)) ∧
      (∃ ufF : Prac6.UF, PInv ns ufF.parent ufF.rank ∧
        (∀ u ∈ ns, ∀ v ∈ ns, (sameRoot ufF.parent u v ↔
          Conn (Prac6.kruskalGo fuel ns.length rem uf mst tot).1 u v)) ∧
        rootsCount ns ufF.parent +
          (Prac6.kruskalGo fuel ns.length rem uf mst tot).1.length =
            ns.length) ∧
      ((∀ g ∈ E, 0 ≤ g.2.2) →
        (∃ T, SpanningConn E ns T ∧
          (∀ T', SpanningConn E ns T' → weight T ≤ weight T') ∧
          mst.Subperm T ∧ (↑T : Multiset Edg) ≤ ↑mst + ↑rem) →
        ∃ T, SpanningConn E ns T ∧
          (∀ T', SpanningConn E ns T' → weight T ≤ weight T') ∧
          (Prac6.kruskalGo fuel ns.length rem uf mst tot).1.Subperm T ∧
          ((Prac6.kruskalGo fuel ns.length rem uf mst tot).1.length + 1 =
              ns.length ∨
            (↑T : Multiset Edg) ≤
              ↑(Prac6.kruskalGo fuel ns.length rem uf mst tot).1)) := by
  intro rem
  induction rem with
  | nil =>
    intro uf mst tot hinv hremIn hremE hmstIn hForest hcorr hcnt hsorted
    simp only [Prac6.kruskalGo]
    refine ⟨hForest, hmstIn, ⟨[], by simp, by simp⟩, Or.inr (by simp),
      ⟨uf, hinv, hcorr, hcnt⟩, ?_⟩
    rintro - ⟨T, hsp, hmin, hsubm, hdom⟩
    refine ⟨T, hsp, hmin, hsubm, Or.inr ?_⟩
    simpa using hdom
  | cons e rest ih =>
    intro uf mst tot hinv hremIn hremE hmstIn hForest hcorr hcnt hsorted
    obtain ⟨u, v, w⟩ := e
    obtain ⟨hu_ns, hv_ns⟩ := hremIn (u, v, w) (List.mem_cons_self _ _)
    have heE : ((u, v, w) : Edg) ∈ E := hremE _ (List.mem_cons_self _ _)
    have hsorted_tail : rest.Sorted (fun a b : Edg => a.2.2 ≤ b.2.2) :=
      hsorted.of_cons
    have hsorted_head : ∀ g ∈ rest, w ≤ g.2.2 :=
      (List.sorted_cons.mp hsorted).1
    have hremIn' : ∀ g ∈ rest, g.1 ∈ ns ∧ g.2.1 ∈ ns :=
      fun g hg => hremIn g (List.mem_cons_of_mem _ hg)
    have hremE' : ∀ g ∈ rest, g ∈ E :=
      fun g hg => hremE g (List.mem_cons_of_mem _ hg)
    cases hu : Prac6.union fuel uf u v with
    | mk b uf' =>
      obtain ⟨hinv', hbiff, hfalse, htrue⟩ :=
        union6_partition hnd hinv hu_ns hv_ns hfuel hu
      cases b with
      | false =>
        have hsame : sameRoot uf.parent u v := by
          by_contra hns
          exact absurd (hbiff.mpr hns) (by simp)
        have hconn_uv : Conn mst u v := (hcorr u hu_ns v hv_ns).mp hsame
        obtain ⟨hiffp, hrc⟩ := hfalse rfl
        have hcorr' : ∀ a ∈ ns, ∀ c ∈ ns,
            (sameRoot uf'.parent a c ↔ Conn mst a c) := by
          intro a ha c hc
          rw [hiffp a ha c hc]
          exact hcorr a ha c hc
        have hcnt' : rootsCount ns uf'.parent + mst.length = ns.length := by
          rw [hrc]
          exact hcnt
        obtain ⟨ihF, ihIn, ⟨Δ, hΔeq, hΔmem⟩, ihDisj, ihUf, ihMin⟩ :=
          ih uf' mst tot hinv' hremIn' hremE' hmstIn hForest hcorr'
            hcnt' hsorted_tail
        simp only [Prac6.kruskalGo, hu]
        refine ⟨ihF, ihIn, ⟨Δ, hΔeq, fun g hg =>
          List.mem_cons_of_mem _ (hΔmem g hg)⟩, ?_, ihUf, ?_⟩
        · rcases ihDisj with hL | hR
          · exact Or.inl hL
          · refine Or.inr ?_
            intro g hg
            rcases List.mem_cons.1 hg with he | hm
            · rw [he]
              rw [hΔeq]
              exact conn_append_left hconn_uv
            · exact hR g hm
        · intro hnnE hex
          exact ihMin hnnE (kruskal_Tskip hnnE heE hconn_uv hex)
      | true =>
        have hnosame : ¬ sameRoot uf.parent u v := hbiff.mp rfl
        have hnoconn : ¬ Conn mst u v :=
          fun hc => hnosame ((hcorr u hu_ns v hv_ns).mpr hc)
        obtain ⟨hiffp, hrc1, hsame'⟩ := htrue rfl
        have hForest' : Forest (mst ++ [((u, v, w) : Edg)]) :=
          Forest.snoc mst ((u, v, w) : Edg) hForest hnoconn
        have hmstIn' : ∀ g ∈ mst ++ [((u, v, w) : Edg)],
            g.1 ∈ ns ∧ g.2.1 ∈ ns := by
          intro g hg
          rcases List.mem_append.1 hg with hm | hm
          · exact hmstIn g hm
          · rw [List.mem_singleton.mp hm]
            exact ⟨hu_ns, hv_ns⟩
        have hcorr' : ∀ a ∈ ns, ∀ c ∈ ns,
            (sameRoot uf'.parent a c ↔
              Conn (mst ++ [((u, v, w) : Edg)]) a c) := by
          intro a ha c hc
          rw [hiffp a ha c hc, conn_snoc_iff]
          constructor
          · rintro (h | ⟨h1, h2⟩ | ⟨h1, h2⟩)
            · exact Or.inl ((hcorr a ha c hc).mp h)
            · exact Or.inr (Or.inl ⟨(hcorr a ha u hu_ns).mp h1,
                conn_symm ((hcorr c hc v hv_ns).mp h2)⟩)
            · exact Or.inr (Or.inr ⟨(hcorr a ha v hv_ns).mp h1,
                conn_symm ((hcorr c hc u hu_ns).mp h2)⟩)
          · rintro (h | ⟨h1, h2⟩ | ⟨h1, h2⟩)
            · exact Or.inl ((hcorr a ha c hc).mpr h)
            · exact Or.inr (Or.inl ⟨(hcorr a ha u hu_ns).mpr h1,
                (hcorr c hc v hv_ns).mpr (conn_symm h2)⟩)
            · exact Or.inr (Or.inr ⟨(hcorr a ha v hv_ns).mpr h1,
                (hcorr c hc u hu_ns).mpr (conn_symm h2)⟩)
        have hcnt' : rootsCount ns uf'.parent +
            (mst ++ [((u, v, w) : Edg)]).length = ns.length := by
          rw [List.length_append]
          simp only [List.length_singleton]
          omega
        simp only [Prac6.kruskalGo, hu]
        by_cases hbr : (((mst ++ [((u, v, w) : Edg)]).length : ℤ) =
            (ns.length : ℤ) - 1)
        · rw [if_pos hbr]
          have hlen : (mst ++ [((u, v, w) : Edg)]).length + 1 = ns.length := by
            rw [List.length_append] at hbr ⊢
            simp only [List.length_singleton] at hbr ⊢
            omega
          have hrc1' : rootsCount ns uf'.parent = 1 := by
            rw [List.length_append] at hcnt' hlen
            simp only [List.length_singleton] at hcnt' hlen
            omega
          have hallconn : ∀ a ∈ ns, ∀ c ∈ ns,
              Conn (mst ++ [((u, v, w) : Edg)]) a c := by
            intro a ha c hc
            exact (hcorr' a ha c hc).mp (roots_count_one hnd hinv' hrc1' a ha c hc)
          refine ⟨hForest', hmstIn',
            ⟨[((u, v, w) : Edg)], rfl, fun g hg =>
              List.mem_singleton.mp hg ▸ List.mem_cons_self _ _⟩,
            Or.inl ⟨hlen, hallconn⟩, ⟨uf', hinv', hcorr', hcnt'⟩, ?_⟩
          intro hnnE hex
          obtain ⟨T, hsp, hmin, hsub', -⟩ :=
            kruskal_Tstep hnnE hu_ns hv_ns heE hnoconn hsorted_head hex
          exact ⟨T, hsp, hmin, hsub', Or.inl hlen⟩
        · rw [if_neg hbr]
          obtain ⟨ihF, ihIn, ⟨Δ, hΔeq, hΔmem⟩, ihDisj, ihUf, ihMin⟩ :=
            ih uf' (mst ++ [((u, v, w) : Edg)]) (tot + w) hinv' hremIn'
              hremE' hmstIn' hForest' hcorr' hcnt' hsorted_tail
          refine ⟨ihF, ihIn, ?_, ?_, ihUf, ?_⟩
          · refine ⟨((u, v, w) : Edg) :: Δ, ?_, ?_⟩
            · rw [hΔeq, List.append_assoc]
              rfl
            · intro g hg
              rcases List.mem_cons.1 hg with he | hm
              · exact he ▸ List.mem_cons_self _ _
              · exact List.mem_cons_of_mem _ (hΔmem g hm)
          · rcases ihDisj with hL | hR
            · exact Or.inl hL
            · refine Or.inr ?_
              intro g hg
              rcases List.mem_cons.1 hg with he | hm
              · rw [he]
                refine conn_single ⟨w, Or.inl ?_⟩
                rw [hΔeq]
                exact List.mem_append_left _
                  (List.mem_append_right _ (List.mem_singleton.mpr rfl))
              · exact hR g hm
          · intro hnnE hex
            exact ihMin hnnE
              (kruskal_Tstep hnnE hu_ns hv_ns heE hnoconn hsorted_head hex)

end KruskalInv


section KruskalTop

theorem chainTo_id {x y : ℕ} (h : ChainTo (fun n => n) x y) : y = x := by
  induction h with
  | refl => rfl
  | tail _ h2 ih => rw [h2]; exact ih

theorem sameRoot_id {u v : ℕ} : sameRoot (fun n => n) u v ↔ u = v := by
  constructor
  · rintro ⟨r, ⟨hc1, -⟩, ⟨hc2, -⟩⟩
    rw [← chainTo_id hc1, ← chainTo_id hc2]
  · intro he
    subst he
    exact ⟨u, ⟨chainTo_refl _ u, rfl⟩, ⟨chainTo_refl _ u, rfl⟩⟩

theorem conn_nil_iff {u v : ℕ} : Conn [] u v ↔ u = v := by
  constructor
  · intro h
    induction h with
    | refl => rfl
    | tail _ hstep ih =>
      obtain ⟨w, hm⟩ := hstep
      rcases hm with hm | hm <;> exact absurd hm (List.not_mem_nil _)
  · intro he
    exact he ▸ conn_refl [] u

theorem rootsCount_id (ns : List ℕ) :
    rootsCount ns (fun n => n) = ns.length := by
  unfold rootsCount
  rw [List.filter_eq_self.mpr]
  intro a _
  simp

theorem nodup_all_eq_length {l : List ℕ} {r : ℕ} (hnd : l.Nodup)
    (hall : ∀ x ∈ l, x = r) (hne : r ∈ l) : l.length = 1 := by
  cases l with
  | nil => exact absurd hne (List.not_mem_nil r)
  | cons a t =>
    have ha : a = r := hall a (List.mem_cons_self a t)
    cases t with
    | nil => rfl
    | cons b t' =>
      have hb : b = r := hall b (List.mem_cons_of_mem a (List.mem_cons_self b t'))
      have : a ∉ b :: t' := (List.nodup_cons.mp hnd).1
      exact absurd (by rw [ha, ← hb]; exact List.mem_cons_self b t') this

theorem roots_count_eq_one {ns : List ℕ} {p rk : ℕ → ℕ} (hnd : ns.Nodup)
    (hinv : PInv ns p rk) {a : ℕ} (ha : a ∈ ns)
    (hall : ∀ u ∈ ns, ∀ v ∈ ns, sameRoot p u v) :
    rootsCount ns p = 1 := by
  obtain ⟨ra, hra⟩ := root_exists hinv a ha
  have hrans : ra ∈ ns := chain_in_ns hinv ha hra.1
  refine nodup_all_eq_length (r := ra) (hnd.filter _) ?_ ?_
  · intro z hz
    obtain ⟨hzns, hzfix⟩ := List.mem_filter.mp hz
    have hzfix' : p z = z := of_decide_eq_true hzfix
    obtain ⟨r, hz1, ha1⟩ := hall z hzns a ha
    have h1 : z = r := root_unique (root_fix hzfix') hz1
    have h2 : ra = r := root_unique hra ha1
    rw [h1, h2]
  · exact List.mem_filter.mpr ⟨hrans, decide_eq_true hra.2⟩

theorem sortedE_sorted (E : List Edg) :
    (E.mergeSort (fun a b => decide (a.2.2 ≤ b.2.2))).Sorted
      (fun a b : Edg => a.2.2 ≤ b.2.2) := by
  have h := @List.sorted_mergeSort Edg (fun a b : Edg => decide (a.2.2 ≤ b.2.2))
    (fun a b c h1 h2 => by
      simp only [decide_eq_true_eq] at h1 h2 ⊢
      linarith)
    (fun a b => by
      simp only [Bool.or_eq_true, decide_eq_true_eq]
      exact le_total _ _) E
  refine List.Pairwise.imp ?_ h
  intro a b hab
  simpa using hab

theorem kruskal6_spec {E : List Edg} {ns : List ℕ} (hWF : WFGraph E ns) :
    Forest (Prac6.kruskal_mst E ns).1 ∧
    (∀ g ∈ (Prac6.kruskal_mst E ns).1, g ∈ E) ∧
    (∀ u ∈ ns, ∀ v ∈ ns,
      (Conn (Prac6.kruskal_mst E ns).1 u v ↔ Conn E u v)) ∧
    ((∀ g ∈ E, 0 ≤ g.2.2) → (∀ u ∈ ns, ∀ v ∈ ns, Conn E u v) → ns ≠ [] →
      (Prac6.kruskal_mst E ns).1.length + 1 = ns.length ∧
      SpanningConn E ns (Prac6.kruskal_mst E ns).1 ∧
      ∀ T', SpanningConn E ns T' →
        weight (Prac6.kruskal_mst E ns).1 ≤ weight T') := by
  classical
  obtain ⟨hnd, hE⟩ := hWF
  have hperm : (E.mergeSort (fun a b : Edg => decide (a.2.2 ≤ b.2.2))).Perm E :=
    List.mergeSort_perm E _
  have hK : Prac6.kruskal_mst E ns =
      Prac6.kruskalGo (ns.length + 1) ns.length
        (E.mergeSort (fun a b : Edg => decide (a.2.2 ≤ b.2.2)))
        ⟨fun n => n, fun _ => 0⟩ [] 0 := rfl
  have h := @kruskal6Go_inv ns E hnd (ns.length + 1) (Nat.lt_succ_self _)
    (E.mergeSort (fun a b : Edg => decide (a.2.2 ≤ b.2.2)))
    ⟨fun n => n, fun _ => 0⟩ [] 0
    (fun x hx => ⟨hx, fun hne => absurd rfl hne⟩)
    (fun g hg => hE g (hperm.subset hg))
    (fun g hg => hperm.subset hg)
    (by simp)
    Forest.nil
    (fun u hu v hv => sameRoot_id.trans conn_nil_iff.symm)
    (by simpa using rootsCount_id ns)
    (sortedE_sorted E)
  rw [← hK] at h
  obtain ⟨hF, hIn, ⟨Δ, hDeq, hDmem⟩, hdisj, ⟨ufF, hinvF, hcorrF, hcntF⟩, hmin⟩ := h
  have hKE : ∀ g ∈ (Prac6.kruskal_mst E ns).1, g ∈ E := by
    intro g hg
    rw [hDeq] at hg
    exact hperm.subset (hDmem g (by simpa using hg))
  have hiff : ∀ u ∈ ns, ∀ v ∈ ns,
      (Conn (Prac6.kruskal_mst E ns).1 u v ↔ Conn E u v) := by
    intro u hu v hv
    constructor
    · exact conn_mono hKE
    · intro hEuv
      rcases hdisj with ⟨-, hall⟩ | hcov
      · exact hall u hu v hv
      · refine conn_of_step_cover ?_ hEuv
        intro x y hs
        obtain ⟨w, hw⟩ := hs
        rcases hw with hm | hm
        · exact hcov (x, y, w) (hperm.mem_iff.mpr hm)
        · exact conn_symm (hcov (y, x, w) (hperm.mem_iff.mpr hm))
  refine ⟨hF, hKE, hiff, ?_⟩
  intro hnn hconn hne
  obtain ⟨T0, hsp0, hmin0⟩ := exists_min_spanning (E := E) hconn
  have hdom0 : (↑T0 : Multiset Edg) ≤
      ↑([] : List Edg) +
        ↑(E.mergeSort (fun a b : Edg => decide (a.2.2 ≤ b.2.2))) := by
    have h1 : (↑T0 : Multiset Edg) ≤ ↑E := Multiset.coe_le.mpr hsp0.1
    have h2 : (↑(E.mergeSort (fun a b : Edg => decide (a.2.2 ≤ b.2.2))) :
        Multiset Edg) = ↑E := Multiset.coe_eq_coe.mpr hperm
    rw [h2]
    simpa using h1
  obtain ⟨T, hspT, hminT, hsubK, -⟩ :=
    hmin hnn ⟨T0, hsp0, hmin0, List.nil_subperm, hdom0⟩
  have hallK : ∀ u ∈ ns, ∀ v ∈ ns, Conn (Prac6.kruskal_mst E ns).1 u v :=
    fun u hu v hv => (hiff u hu v hv).mpr (hconn u hu v hv)
  have hallSame : ∀ u ∈ ns, ∀ v ∈ ns, sameRoot ufF.parent u v :=
    fun u hu v hv => (hcorrF u hu v hv).mpr (hallK u hu v hv)
  obtain ⟨a, ha⟩ : ∃ a, a ∈ ns := by
    cases ns with
    | nil => exact absurd rfl hne
    | cons a t => exact ⟨a, List.mem_cons_self a t⟩
  have h1 : rootsCount ns ufF.parent = 1 :=
    roots_count_eq_one hnd hinvF ha hallSame
  have hlen : (Prac6.kruskal_mst E ns).1.length + 1 = ns.length := by omega
  have hKsub : (Prac6.kruskal_mst E ns).1.Subperm E := hsubK.trans hspT.1
  refine ⟨hlen, ⟨hKsub, hallK⟩, ?_⟩
  intro q hq
  have hTnn : ∀ g ∈ T, 0 ≤ g.2.2 := fun g hg => hnn g (hspT.1.subset hg)
  exact le_trans (weight_subperm_le hsubK hTnn) (hminT q hq)

end KruskalTop

section PrimBase

theorem adjGet_eq_nil_of_not_key {adj : Prac6.Adj} {x : ℕ}
    (hx : x ∉ adj.map Prod.fst) : Prac6.adjGet adj x = [] := by
  unfold Prac6.adjGet
  rw [lookup_eq_none_of_not_mem hx]
  rfl

theorem adjGet_key {adj : Prac6.Adj} {x : ℕ} {nc : ℕ × ℚ}
    (h : nc ∈ Prac6.adjGet adj x) : x ∈ adj.map Prod.fst := by
  by_contra hx
  rw [adjGet_eq_nil_of_not_key hx] at h
  exact List.not_mem_nil nc h

theorem edgesOfAdj_cons (k : ℕ) (l : List (ℕ × ℚ)) (rest : Prac6.Adj) :
    edgesOfAdj ((k, l) :: rest) =
      (l.map (fun nc => (k, nc.1, nc.2))) ++ edgesOfAdj rest := rfl

theorem adjGet_cons_self (k : ℕ) (l : List (ℕ × ℚ)) (rest : Prac6.Adj) :
    Prac6.adjGet ((k, l) :: rest) k = l := by
  unfold Prac6.adjGet
  simp [List.lookup]

theorem adjGet_cons_ne {k u : ℕ} (hne : u ≠ k) (l : List (ℕ × ℚ))
    (rest : Prac6.Adj) :
    Prac6.adjGet ((k, l) :: rest) u = Prac6.adjGet rest u := by
  unfold Prac6.adjGet
  simp only [List.lookup]
  rw [beq_eq_false_iff_ne.mpr hne]

theorem adjGet_mem_edges {adj : Prac6.Adj} {u : ℕ} {nc : ℕ × ℚ}
    (h : nc ∈ Prac6.adjGet adj u) : (u, nc.1, nc.2) ∈ edgesOfAdj adj := by
  induction adj with
  | nil =>
    rw [adjGet_eq_nil_of_not_key (by simp)] at h
    exact absurd h (List.not_mem_nil nc)
  | cons p rest ih =>
    obtain ⟨k, l⟩ := p
    rw [edgesOfAdj_cons]
    by_cases hk : u = k
    · subst hk
      rw [adjGet_cons_self] at h
      exact List.mem_append_left _ (List.mem_map.mpr ⟨nc, h, rfl⟩)
    · rw [adjGet_cons_ne hk] at h
      exact List.mem_append_right _ (ih h)

theorem mem_edges_adjGet {adj : Prac6.Adj} (hkeys : (adj.map Prod.fst).Nodup)
    {g : Edg} (h : g ∈ edgesOfAdj adj) :
    (g.2.1, g.2.2) ∈ Prac6.adjGet adj g.1 := by
  induction adj with
  | nil => exact absurd h (List.not_mem_nil g)
  | cons p rest ih =>
    obtain ⟨k, l⟩ := p
    rw [edgesOfAdj_cons] at h
    simp only [List.map_cons, List.nodup_cons] at hkeys
    rcases List.mem_append.mp h with hm | hm
    · obtain ⟨nc, hnc, hg⟩ := List.mem_map.mp hm
      have h1 : g.1 = k := by rw [← hg]
      have h2 : (g.2.1, g.2.2) = nc := by rw [← hg]
      rw [h1, adjGet_cons_self, h2]
      exact hnc
    · have hrest := ih hkeys.2 hm
      have hgk : g.1 ∈ rest.map Prod.fst := adjGet_key hrest
      have hne : g.1 ≠ k := fun he => hkeys.1 (he ▸ hgk)
      rw [adjGet_cons_ne hne]
      exact hrest

theorem weight_rmFirst {T : List Edg} {f : Edg} (h : f ∈ T) :
    weight (rmFirst T f) + f.2.2 = weight T := by
  rw [weight_perm (rmFirst_perm h)]
  simp [weight]
  ring

theorem subperm_append_singleton {A B : List Edg} (h : A.Subperm B) (e : Edg) :
    (A ++ [e]).Subperm (B ++ [e]) := by
  rw [subperm_iff_mcount] at h ⊢
  intro x
  rw [mcount_append, mcount_append]
  exact Nat.add_le_add_right (h x) _

theorem primGo_succ_none {adj : Prac6.Adj} {fuel : ℕ} {heap : List HEntry}
    {vis : List ℕ} {mst : List Edg} {tot : ℚ} (h : popMin heap = none) :
    Prac6.primGo adj (fuel + 1) heap vis mst tot = (mst, tot, vis) := by
  simp [Prac6.primGo, h]

theorem primGo_succ_skip {adj : Prac6.Adj} {fuel : ℕ} {heap : List HEntry}
    {vis : List ℕ} {mst : List Edg} {tot : ℚ} {w : ℚ} {u v : ℕ}
    {rest : List HEntry}
    (h : popMin heap = some ((w, u, v), rest)) (hv : v ∈ vis) :
    Prac6.primGo adj (fuel + 1) heap vis mst tot =
      Prac6.primGo adj fuel rest vis mst tot := by
  simp [Prac6.primGo, h, hv]

theorem primGo_succ_add {adj : Prac6.Adj} {fuel : ℕ} {heap : List HEntry}
    {vis : List ℕ} {mst : List Edg} {tot : ℚ} {w : ℚ} {u v : ℕ}
    {rest : List HEntry}
    (h : popMin heap = some ((w, u, v), rest)) (hv : v ∉ vis) :
    Prac6.primGo adj (fuel + 1) heap vis mst tot =
      Prac6.primGo adj fuel
        (rest ++ ((Prac6.adjGet adj v).filter
          (fun nc => decide (nc.1 ∉ vis ++ [v]))).map
            (fun nc => (nc.2, v, nc.1)))
        (vis ++ [v]) (mst ++ [(u, v, w)]) (tot + w) := by
  simp [Prac6.primGo, h, hv]

theorem psiP_skip (adj : Prac6.Adj) {heap : List HEntry} (vis : List ℕ)
    {m : HEntry} {rest : List HEntry} (h : popMin heap = some (m, rest)) :
    psiP adj rest vis + 1 = psiP adj heap vis := by
  unfold psiP
  have := popMin_length h
  omega

theorem psiP_add (adj : Prac6.Adj) {heap : List HEntry} (vis : List ℕ)
    {w : ℚ} {u v : ℕ} {rest : List HEntry}
    (h : popMin heap = some ((w, u, v), rest)) (hv : v ∉ vis) :
    psiP adj (rest ++ ((Prac6.adjGet adj v).filter
          (fun nc => decide (nc.1 ∉ vis ++ [v]))).map
            (fun nc => (nc.2, v, nc.1)))
        (vis ++ [v]) + 1 ≤ psiP adj heap vis := by
  have hlen := popMin_length h
  have hdrop := filter_map_sum_drop (fun k => (Prac6.adjGet adj k).length) v
    ((adj.map Prod.fst).dedup) vis (List.nodup_dedup _) hv
  have hbeta : ((fun k => (Prac6.adjGet adj k).length) v) =
      (Prac6.adjGet adj v).length := rfl
  unfold psiP
  rw [List.length_append, List.length_map]
  by_cases hvk : v ∈ (adj.map Prod.fst).dedup
  · rw [if_pos hvk] at hdrop
    have hf := List.length_filter_le
      (fun nc : ℕ × ℚ => decide (nc.1 ∉ vis ++ [v])) (Prac6.adjGet adj v)
    omega
  · rw [if_neg hvk] at hdrop
    have hnil : Prac6.adjGet adj v = [] :=
      adjGet_eq_nil_of_not_key (fun hm => hvk (List.mem_dedup.mpr hm))
    rw [hnil]
    simp only [List.filter_nil, List.length_nil]
    omega

end PrimBase

section PrimStep

theorem prim_Tstep {adj : Prac6.Adj} (hkeys : (adj.map Prod.fst).Nodup)
    (hsym : SymAdj adj) {heap : List HEntry} {vnew : List ℕ} {mst : List Edg}
    {w : ℚ} {u v : ℕ}
    (hinv : PrimInv adj heap [] vnew mst)
    (hmem : (w, u, v) ∈ heap)
    (hle : ∀ x ∈ heap, hLe (w, u, v) x)
    (hv : v ∉ vnew)
    (hnn : ∀ g ∈ edgesOfAdj adj, 0 ≤ g.2.2)
    (hM : PrimMin adj mst) : PrimMin adj (mst ++ [(u, v, w)]) := by
  obtain ⟨T, hsp, hmin, hsub⟩ := hM
  obtain ⟨hu, hadj⟩ := hinv.heapReal (w, u, v) hmem
  by_cases he : (mst ++ [(u, v, w)]).Subperm T
  · exact ⟨T, hsp, hmin, he⟩
  have hemst : ((u, v, w) : Edg) ∉ mst := fun hm => hv (hinv.mstReal _ hm).2.1
  have hcm : Multiset.count ((u, v, w) : Edg) ↑mst = 0 := by
    rw [Multiset.count_eq_zero]
    simpa using hemst
  have hcT : Multiset.count ((u, v, w) : Edg) ↑T = 0 := by
    rw [subperm_iff_mcount] at he hsub
    push_neg at he
    obtain ⟨x, hx⟩ := he
    rw [mcount_append, mcount_singleton] at hx
    have hsx := hsub x
    by_cases hxe : x = ((u, v, w) : Edg)
    · subst hxe
      rw [if_pos rfl] at hx
      omega
    · rw [if_neg hxe] at hx
      omega
  have heT : ((u, v, w) : Edg) ∉ T := by
    simpa using Multiset.count_eq_zero.mp hcT
  have hukey : u ∈ adj.map Prod.fst := hinv.keysNew u hu
  have hmir : (u, w) ∈ Prac6.adjGet adj v := hsym u hukey (v, w) hadj
  have hvkey : v ∈ adj.map Prod.fst := adjGet_key hmir
  have hconnT : Conn T u v := hsp.2 u hukey v hvkey
  obtain ⟨f, hfT, hcross, hsub', hpres⟩ :=
    exchange_edge (T := T) (A := mst) (e := ((u, v, w) : Edg))
      (S := fun z => z ∈ vnew) hu hv hconnT hsub
      (fun z hz => hinv.connNew u hu z hz)
      (fun g hg => ⟨fun _ => (hinv.mstReal g hg).2.1,
        fun _ => (hinv.mstReal g hg).1⟩)
  have hfe : f ≠ ((u, v, w) : Edg) := fun h => heT (h ▸ hfT)
  have hfE : f ∈ edgesOfAdj adj := hsp.1.subset hfT
  have hwf : w ≤ f.2.2 := by
    rcases hcross with ⟨h1, h2⟩ | ⟨h1, h2⟩
    · have hfa := mem_edges_adjGet hkeys hfE
      rcases hinv.closure f.1 h1 (f.2.1, f.2.2) hfa with hin | hheap
      · exact absurd (by simpa using hin) h2
      · exact hLe_fst (hle _ hheap)
    · have hfa := mem_edges_adjGet hkeys hfE
      have hf1key : f.1 ∈ adj.map Prod.fst := adjGet_key hfa
      have hmir2 : (f.1, f.2.2) ∈ Prac6.adjGet adj f.2.1 :=
        hsym f.1 hf1key (f.2.1, f.2.2) hfa
      rcases hinv.closure f.2.1 h1 (f.1, f.2.2) hmir2 with hin | hheap
      · exact absurd (by simpa using hin) h2
      · exact hLe_fst (hle _ hheap)
  have heE : ((u, v, w) : Edg) ∈ edgesOfAdj adj := adjGet_mem_edges hadj
  refine ⟨rmFirst T f ++ [(u, v, w)], ⟨?_, ?_⟩, ?_, ?_⟩
  · rw [subperm_iff_mcount]
    intro x
    rw [mcount_append, mcount_singleton]
    have hTx := mcount_rmFirst hfT x
    have hTE := (subperm_iff_mcount.mp hsp.1) x
    by_cases hxe : x = ((u, v, w) : Edg)
    · subst hxe
      rw [if_pos rfl]
      rw [if_neg (fun h => hfe h.symm)] at hTx
      have h1 : (1 : ℕ) ≤ Multiset.count ((u, v, w) : Edg) ↑(edgesOfAdj adj) :=
        Multiset.one_le_count_iff_mem.mpr (Multiset.mem_coe.mpr heE)
      omega
    · rw [if_neg hxe]
      have hge : (0 : ℕ) ≤ if x = f then 1 else 0 := Nat.zero_le _
      by_cases hxf : x = f
      · rw [if_pos hxf] at hTx
        omega
      · rw [if_neg hxf] at hTx
        omega
  · intro a ha b hb
    exact hpres a b (hsp.2 a ha b hb)
  · intro q hq
    have hwr := weight_rmFirst hfT
    have h1 : weight (rmFirst T f ++ [(u, v, w)]) =
        weight (rmFirst T f) + ((u, v, w) : Edg).2.2 := by
      rw [weight_append, weight_single]
    have h2 := hmin q hq
    rw [h1]
    have h3 : ((u, v, w) : Edg).2.2 = w := rfl
    rw [h3]
    linarith
  · exact subperm_append_singleton hsub' (u, v, w)

end PrimStep

section PrimLoop

theorem primGo_inv {adj : Prac6.Adj} (hkeys : (adj.map Prod.fst).Nodup)
    (hsym : SymAdj adj) :
    ∀ (fuel : ℕ) (heap : List HEntry) (vis0 vnew : List ℕ) (mst : List Edg)
      (tot : ℚ),
      PrimInv adj heap vis0 vnew mst →
      psiP adj heap (vis0 ++ vnew) < fuel →
      ∃ dv dm,
        (Prac6.primGo adj fuel heap (vis0 ++ vnew) mst tot).2.2 =
          vis0 ++ (vnew ++ dv) ∧
        (Prac6.primGo adj fuel heap (vis0 ++ vnew) mst tot).1 = mst ++ dm ∧
        (∀ x ∈ dv, x ∉ vis0 ++ vnew) ∧
        PrimInv adj [] vis0 (vnew ++ dv)
          (Prac6.primGo adj fuel heap (vis0 ++ vnew) mst tot).1 ∧
        (vis0 = [] → (∀ g ∈ edgesOfAdj adj, 0 ≤ g.2.2) →
          PrimMin adj mst →
          PrimMin adj (Prac6.primGo adj fuel heap (vis0 ++ vnew) mst tot).1) := by
  intro fuel
  induction fuel with
  | zero =>
    intro heap vis0 vnew mst tot hinv hfuel
    exact absurd hfuel (Nat.not_lt_zero _)
  | succ fuel ih =>
    intro heap vis0 vnew mst tot hinv hfuel
    cases hpm : popMin heap with
    | none =>
      have hnil := popMin_eq_none.mp hpm
      subst hnil
      rw [primGo_succ_none hpm]
      refine ⟨[], [], by simp, by simp, by simp, ?_, ?_⟩
      · rw [List.append_nil]
        exact hinv
      · intro h0 hnn hM
        exact hM
    | some pr =>
      obtain ⟨⟨w, u, v⟩, rest⟩ := pr
      obtain ⟨hmem, hrest, hle, hperm⟩ := popMin_some hpm
      by_cases hv : v ∈ vis0 ++ vnew
      · rw [primGo_succ_skip hpm hv]
        have hinv2 : PrimInv adj rest vis0 vnew mst := by
          refine ⟨?_, hinv.mstReal, hinv.connNew, hinv.forest, ?_,
            hinv.keysNew, hinv.count, hinv.nodup⟩
          · intro e he
            rw [hrest] at he
            exact hinv.heapReal e (rmFirst_subset he)
          · intro x hx nc hnc
            rcases hinv.closure x hx nc hnc with hin | hh
            · exact Or.inl hin
            · by_cases heq : ((nc.2, x, nc.1) : HEntry) = (w, u, v)
              · left
                have hncv : nc.1 = v := congrArg (fun t : HEntry => t.2.2) heq
                rw [hncv]
                exact hv
              · right
                rw [hrest]
                exact mem_rmFirst_of_ne hh heq
        have hps := psiP_skip adj (vis0 ++ vnew) hpm
        exact ih rest vis0 vnew mst tot hinv2 (by omega)
      · rw [primGo_succ_add hpm hv, List.append_assoc]
        have hm := hinv.heapReal (w, u, v) hmem
        have hvnew : v ∉ vnew := fun h => hv (List.mem_append_right _ h)
        have hukey : u ∈ adj.map Prod.fst := hinv.keysNew u hm.1
        have hvkey : v ∈ adj.map Prod.fst := adjGet_key (hsym u hukey (v, w) hm.2)
        have hsubm : ∀ m ∈ mst, m ∈ mst ++ [((u, v, w) : Edg)] :=
          fun m hmm => List.mem_append_left _ hmm
        have hedge : Conn (mst ++ [((u, v, w) : Edg)]) u v :=
          conn_single ⟨w, Or.inl (List.mem_append_right _
            (List.mem_singleton.mpr rfl))⟩
        have hcv : ∀ x ∈ vnew, Conn (mst ++ [((u, v, w) : Edg)]) x v :=
          fun x hx =>
            conn_trans (conn_mono hsubm (hinv.connNew x hx u hm.1)) hedge
        have hinv2 : PrimInv adj
            (rest ++ ((Prac6.adjGet adj v).filter
              (fun nc => decide (nc.1 ∉ vis0 ++ (vnew ++ [v])))).map
                (fun nc => (nc.2, v, nc.1)))
            vis0 (vnew ++ [v]) (mst ++ [(u, v, w)]) := by
          refine ⟨?_, ?_, ?_, ?_, ?_, ?_, ?_, ?_⟩
          · intro e he
            rcases List.mem_append.mp he with hr | hp
            · rw [hrest] at hr
              obtain ⟨h1, h2⟩ := hinv.heapReal e (rmFirst_subset hr)
              exact ⟨List.mem_append_left _ h1, h2⟩
            · obtain ⟨nc, hnc, rfl⟩ := List.mem_map.mp hp
              refine ⟨List.mem_append_right _ (List.mem_singleton.mpr rfl), ?_⟩
              simpa using List.mem_of_mem_filter hnc
          · intro g hg
            rcases List.mem_append.mp hg with hgm | hge
            · obtain ⟨h1, h2, h3⟩ := hinv.mstReal g hgm
              exact ⟨List.mem_append_left _ h1, List.mem_append_left _ h2, h3⟩
            · rw [List.mem_singleton] at hge
              subst hge
              exact ⟨List.mem_append_left _ hm.1,
                List.mem_append_right _ (List.mem_singleton.mpr rfl), hm.2⟩
          · intro x hx y hy
            rcases List.mem_append.mp hx with hx1 | hx2 <;>
              rcases List.mem_append.mp hy with hy1 | hy2
            · exact conn_mono hsubm (hinv.connNew x hx1 y hy1)
            · rw [List.mem_singleton] at hy2
              subst hy2
              exact hcv x hx1
            · rw [List.mem_singleton] at hx2
              subst hx2
              exact conn_symm (hcv y hy1)
            · rw [List.mem_singleton] at hx2 hy2
              subst hx2
              subst hy2
              exact conn_refl _ _
          · refine Forest.snoc mst ((u, v, w) : Edg) hinv.forest ?_
            intro hcon
            rcases conn_support (fun m hmm => ⟨(hinv.mstReal m hmm).1,
              (hinv.mstReal m hmm).2.1⟩) hcon with he | ⟨-, h2⟩
            · have he2 : u = v := he
              exact hvnew (he2 ▸ hm.1)
            · exact hvnew h2
          · intro x hx nc hnc
            rcases List.mem_append.mp hx with hx1 | hx2
            · rcases hinv.closure x hx1 nc hnc with hin | hh
              · left
                rcases List.mem_append.mp hin with h1 | h2
                · exact List.mem_append_left _ h1
                · exact List.mem_append_right _ (List.mem_append_left _ h2)
              · by_cases heq : ((nc.2, x, nc.1) : HEntry) = (w, u, v)
                · left
                  have hncv : nc.1 = v := congrArg (fun t : HEntry => t.2.2) heq
                  rw [hncv]
                  exact List.mem_append_right _
                    (List.mem_append_right _ (List.mem_singleton.mpr rfl))
                · right
                  refine List.mem_append_left _ ?_
                  rw [hrest]
                  exact mem_rmFirst_of_ne hh heq
            · rw [List.mem_singleton] at hx2
              subst hx2
              by_cases hin : nc.1 ∈ vis0 ++ (vnew ++ [x])
              · exact Or.inl hin
              · right
                refine List.mem_append_right _ ?_
                refine List.mem_map.mpr ⟨nc, List.mem_filter.mpr ⟨hnc, ?_⟩, rfl⟩
                simpa using hin
          · intro x hx
            rcases List.mem_append.mp hx with h1 | h2
            · exact hinv.keysNew x h1
            · rw [List.mem_singleton] at h2
              subst h2
              exact hvkey
          · simp [List.length_append, hinv.count]
          · rw [← List.append_assoc]
            refine List.Nodup.append hinv.nodup (List.nodup_singleton v) ?_
            intro a ha hav
            rw [List.mem_singleton] at hav
            subst hav
            exact hv ha
        have hps := psiP_add adj (vis0 ++ vnew) hpm hv
        rw [List.append_assoc] at hps
        obtain ⟨dv', dm', hA, hB, hC, hD, hE⟩ :=
          ih _ vis0 (vnew ++ [v]) (mst ++ [(u, v, w)]) (tot + w) hinv2
            (by omega)
        have hl : (vnew ++ [v]) ++ dv' = vnew ++ (v :: dv') := by simp
        have hl2 : (mst ++ [((u, v, w) : Edg)]) ++ dm' =
            mst ++ ((u, v, w) :: dm') := by simp
        refine ⟨v :: dv', (u, v, w) :: dm', ?_, ?_, ?_, ?_, ?_⟩
        · rw [hl] at hA
          exact hA
        · rw [hl2] at hB
          exact hB
        · intro x hx
          rcases List.mem_cons.mp hx with rfl | hx2
          · exact hv
          · intro hmem2
            refine hC x hx2 ?_
            rcases List.mem_append.mp hmem2 with h1 | h2
            · exact List.mem_append_left _ h1
            · exact List.mem_append_right _ (List.mem_append_left _ h2)
        · rw [hl] at hD
          exact hD
        · intro h0 hnn hM
          subst h0
          exact hE rfl hnn (prim_Tstep hkeys hsym hinv hmem hle hvnew hnn hM)

end PrimLoop

section PrimSingle

theorem prim_mst_eq {adj : Prac6.Adj} (hne : adj ≠ []) {s : ℕ}
    {vis0 : List ℕ} (hs0 : s ∉ vis0) :
    Prac6.prim_mst adj (some s) (some vis0) =
      (((Prac6.primGo adj
          (Prac6.primFuel adj ((Prac6.adjGet adj s).map
            (fun nc => (nc.2, s, nc.1))))
          ((Prac6.adjGet adj s).map (fun nc => (nc.2, s, nc.1)))
          (vis0 ++ [s]) [] 0).1,
        (Prac6.primGo adj
          (Prac6.primFuel adj ((Prac6.adjGet adj s).map
            (fun nc => (nc.2, s, nc.1))))
          ((Prac6.adjGet adj s).map (fun nc => (nc.2, s, nc.1)))
          (vis0 ++ [s]) [] 0).2.1),
       (Prac6.primGo adj
          (Prac6.primFuel adj ((Prac6.adjGet adj s).map
            (fun nc => (nc.2, s, nc.1))))
          ((Prac6.adjGet adj s).map (fun nc => (nc.2, s, nc.1)))
          (vis0 ++ [s]) [] 0).2.2) := by
  cases adj with
  | nil => exact absurd rfl hne
  | cons p rest =>
    obtain ⟨k, l⟩ := p
    simp [Prac6.prim_mst, hs0]

theorem psiP_lt_primFuel (adj : Prac6.Adj) (heap : List HEntry)
    (vis : List ℕ) : psiP adj heap vis < Prac6.primFuel adj heap := by
  unfold psiP Prac6.primFuel
  have hsub : ((((adj.map Prod.fst).dedup).filter
      (fun k => decide (k ∉ vis))).map
        (fun k => (Prac6.adjGet adj k).length)).Sublist
      (((adj.map Prod.fst).dedup).map (fun k => (Prac6.adjGet adj k).length)) :=
    (List.filter_sublist _).map _
  have hle := hsub.sum_le_sum (fun a _ => Nat.zero_le a)
  omega

theorem prim6_spec {adj : Prac6.Adj} (hkeys : (adj.map Prod.fst).Nodup)
    (hsym : SymAdj adj) {s : ℕ} {vis0 : List ℕ}
    (hs : s ∈ adj.map Prod.fst) (hs0 : s ∉ vis0) (hnd0 : vis0.Nodup) :
    ∃ vne,
      (Prac6.prim_mst adj (some s) (some vis0)).2 = vis0 ++ vne ∧
      s ∈ vne ∧
      (∀ x ∈ vne, x ∉ vis0) ∧
      PrimInv adj [] vis0 vne (Prac6.prim_mst adj (some s) (some vis0)).1.1 ∧
      (vis0 = [] → (∀ g ∈ edgesOfAdj adj, 0 ≤ g.2.2) →
        (∀ x ∈ adj.map Prod.fst, ∀ y ∈ adj.map Prod.fst,
          Conn (edgesOfAdj adj) x y) →
        PrimMin adj (Prac6.prim_mst adj (some s) (some vis0)).1.1) := by
  have hne : adj ≠ [] := by
    intro h
    rw [h] at hs
    exact List.not_mem_nil s hs
  have hinv0 : PrimInv adj
      ((Prac6.adjGet adj s).map (fun nc => (nc.2, s, nc.1)))
      vis0 [s] [] := by
    refine ⟨?_, ?_, ?_, Forest.nil, ?_, ?_, rfl, ?_⟩
    · intro e he
      obtain ⟨nc, hnc, rfl⟩ := List.mem_map.mp he
      exact ⟨List.mem_singleton.mpr rfl, by simpa using hnc⟩
    · intro g hg
      exact absurd hg (List.not_mem_nil g)
    · intro x hx y hy
      rw [List.mem_singleton] at hx hy
      subst hx
      subst hy
      exact conn_refl _ _
    · intro x hx nc hnc
      rw [List.mem_singleton] at hx
      subst hx
      exact Or.inr (List.mem_map.mpr ⟨nc, hnc, rfl⟩)
    · intro x hx
      rw [List.mem_singleton] at hx
      subst hx
      exact hs
    · refine List.Nodup.append hnd0 (List.nodup_singleton s) ?_
      intro a ha hav
      rw [List.mem_singleton] at hav
      subst hav
      exact hs0 ha
  obtain ⟨dv, dm, hA, hB, hC, hD, hE⟩ := primGo_inv hkeys hsym
    (Prac6.primFuel adj ((Prac6.adjGet adj s).map (fun nc => (nc.2, s, nc.1))))
    ((Prac6.adjGet adj s).map (fun nc => (nc.2, s, nc.1)))
    vis0 [s] [] 0 hinv0 (psiP_lt_primFuel adj _ _)
  rw [prim_mst_eq hne hs0]
  refine ⟨[s] ++ dv, ?_, List.mem_append_left _ (List.mem_singleton.mpr rfl),
    ?_, ?_, ?_⟩
  · exact hA
  · intro x hx
    rcases List.mem_append.mp hx with h1 | h2
    · rw [List.mem_singleton] at h1
      subst h1
      exact hs0
    · intro hx0
      exact hC x h2 (List.mem_append_left _ hx0)
  · exact hD
  · intro h0 hnn hconn
    refine hE h0 hnn ?_
    obtain ⟨T, hsp, hmin⟩ := exists_min_spanning (E := edgesOfAdj adj) hconn
    exact ⟨T, hsp, hmin, List.nil_subperm⟩

end PrimSingle

section PrimFull

theorem conn_stays {adj : Prac6.Adj} (hkeys : (adj.map Prod.fst).Nodup)
    (hsym : SymAdj adj) {vis vne : List ℕ}
    (hdis : ∀ x, x ∈ vis → x ∈ vne → False)
    (hclosV : ∀ b ∈ vis, ∀ nc ∈ Prac6.adjGet adj b, nc.1 ∈ vis)
    (hclosN : ∀ b ∈ vne, ∀ nc ∈ Prac6.adjGet adj b, nc.1 ∈ vis ++ vne)
    {u z : ℕ} (hu : u ∈ vne) (h : Conn (edgesOfAdj adj) u z) : z ∈ vne := by
  induction h with
  | refl => exact hu
  | @tail b c hub hbc ih =>
    obtain ⟨w, hw⟩ := hbc
    have hadjb : (c, w) ∈ Prac6.adjGet adj b := by
      rcases hw with hm | hm
      · exact mem_edges_adjGet hkeys hm
      · have h1 := mem_edges_adjGet hkeys hm
        have hckey := adjGet_key h1
        exact hsym c hckey (b, w) h1
    have hc2 := hclosN b ih (c, w) hadjb
    rcases List.mem_append.mp hc2 with hcv | hcn
    · have hbkey := adjGet_key hadjb
      have hmir := hsym b hbkey (c, w) hadjb
      have hbv := hclosV c hcv (b, w) hmir
      exact absurd ih (hdis b hbv)
    · exact hcn

theorem primFullGo_cons_skip {adj : Prac6.Adj} {k : ℕ} {l : List (ℕ × ℚ)}
    {rest : List (ℕ × List (ℕ × ℚ))} {acc : List Edg} {tot : ℚ}
    {vis : List ℕ} (hk : k ∈ vis) :
    Prac6.primFullGo adj ((k, l) :: rest) acc tot vis =
      Prac6.primFullGo adj rest acc tot vis := by
  simp [Prac6.primFullGo, hk]

theorem primFullGo_cons_go {adj : Prac6.Adj} {k : ℕ} {l : List (ℕ × ℚ)}
    {rest : List (ℕ × List (ℕ × ℚ))} {acc : List Edg} {tot : ℚ}
    {vis : List ℕ} (hk : k ∉ vis) :
    Prac6.primFullGo adj ((k, l) :: rest) acc tot vis =
      Prac6.primFullGo adj rest
        (acc ++ (Prac6.prim_mst adj (some k) (some vis)).1.1)
        (tot + (Prac6.prim_mst adj (some k) (some vis)).1.2)
        (Prac6.prim_mst adj (some k) (some vis)).2 := by
  simp [Prac6.primFullGo, hk]

theorem primFullGo_inv {adj : Prac6.Adj} (hkeys : (adj.map Prod.fst).Nodup)
    (hsym : SymAdj adj) :
    ∀ (todo : List (ℕ × List (ℕ × ℚ))) (acc : List Edg) (tot : ℚ)
      (vis : List ℕ),
      (∀ p ∈ todo, p ∈ adj) →
      vis.Nodup →
      (∀ x ∈ vis, x ∈ adj.map Prod.fst) →
      (∀ b ∈ vis, ∀ nc ∈ Prac6.adjGet adj b, nc.1 ∈ vis) →
      (∀ g ∈ acc, g.1 ∈ vis ∧ g.2.1 ∈ vis ∧
        (g.2.1, g.2.2) ∈ Prac6.adjGet adj g.1) →
      Forest acc →
      (∀ u ∈ vis, ∀ z, Conn (edgesOfAdj adj) u z → Conn acc u z) →
      Forest (Prac6.primFullGo adj todo acc tot vis).1 ∧
      (∀ g ∈ (Prac6.primFullGo adj todo acc tot vis).1,
        (g.2.1, g.2.2) ∈ Prac6.adjGet adj g.1) ∧
      (∀ p ∈ todo, p.1 ∈ (Prac6.primFullGo adj todo acc tot vis).2.2) ∧
      (∀ u ∈ (Prac6.primFullGo adj todo acc tot vis).2.2, ∀ z,
        Conn (edgesOfAdj adj) u z →
          Conn (Prac6.primFullGo adj todo acc tot vis).1 u z) ∧
      (∀ x ∈ vis, x ∈ (Prac6.primFullGo adj todo acc tot vis).2.2) := by
  intro todo
  induction todo with
  | nil =>
    intro acc tot vis htodo hnd hkv hclosV haccR hF hCC
    simp only [Prac6.primFullGo]
    refine ⟨hF, fun g hg => (haccR g hg).2.2, ?_, hCC, fun x hx => hx⟩
    intro p hp
    exact absurd hp (List.not_mem_nil p)
  | cons p rest ih =>
    obtain ⟨k, l⟩ := p
    intro acc tot vis htodo hnd hkv hclosV haccR hF hCC
    by_cases hk : k ∈ vis
    · rw [primFullGo_cons_skip hk]
      obtain ⟨c1, c2, c3, c4, c5⟩ := ih acc tot vis
        (fun q hq => htodo q (List.mem_cons_of_mem _ hq))
        hnd hkv hclosV haccR hF hCC
      refine ⟨c1, c2, ?_, c4, c5⟩
      intro q hq
      rcases List.mem_cons.mp hq with rfl | hq2
      · exact c5 k hk
      · exact c3 q hq2
    · rw [primFullGo_cons_go hk]
      have hkkey : k ∈ adj.map Prod.fst :=
        List.mem_map.mpr ⟨(k, l), htodo (k, l) (List.mem_cons_self _ _), rfl⟩
      obtain ⟨vne, hEq, hsmem, hnotin, hPI, -⟩ :=
        prim6_spec hkeys hsym hkkey hk hnd
      rw [hEq]
      have hdis : ∀ x, x ∈ vis → x ∈ vne → False :=
        fun x hxv hxn => (List.nodup_append.mp hPI.nodup).2.2 hxv hxn
      have hclosN : ∀ b ∈ vne, ∀ nc ∈ Prac6.adjGet adj b,
          nc.1 ∈ vis ++ vne := by
        intro b hb nc hnc
        rcases hPI.closure b hb nc hnc with hin | habs
        · exact hin
        · exact absurd habs (List.not_mem_nil _)
      have hsubL : ∀ m ∈ acc,
          m ∈ acc ++ (Prac6.prim_mst adj (some k) (some vis)).1.1 :=
        fun m hm => List.mem_append_left _ hm
      have hsubR : ∀ m ∈ (Prac6.prim_mst adj (some k) (some vis)).1.1,
          m ∈ acc ++ (Prac6.prim_mst adj (some k) (some vis)).1.1 :=
        fun m hm => List.mem_append_right _ hm
      obtain ⟨c1, c2, c3, c4, c5⟩ := ih
        (acc ++ (Prac6.prim_mst adj (some k) (some vis)).1.1)
        (tot + (Prac6.prim_mst adj (some k) (some vis)).1.2)
        (vis ++ vne)
        (fun q hq => htodo q (List.mem_cons_of_mem _ hq))
        hPI.nodup
        (by
          intro x hx
          rcases List.mem_append.mp hx with h1 | h2
          · exact hkv x h1
          · exact hPI.keysNew x h2)
        (by
          intro b hb nc hnc
          rcases List.mem_append.mp hb with h1 | h2
          · exact List.mem_append_left _ (hclosV b h1 nc hnc)
          · exact hclosN b h2 nc hnc)
        (by
          intro g hg
          rcases List.mem_append.mp hg with h1 | h2
          · obtain ⟨ha, hb, hc⟩ := haccR g h1
            exact ⟨List.mem_append_left _ ha, List.mem_append_left _ hb, hc⟩
          · obtain ⟨ha, hb, hc⟩ := hPI.mstReal g h2
            exact ⟨List.mem_append_right _ ha, List.mem_append_right _ hb, hc⟩)
        (forest_append hF hPI.forest
          (fun m hm => ⟨(haccR m hm).1, (haccR m hm).2.1⟩)
          (fun m hm => ⟨(hPI.mstReal m hm).1, (hPI.mstReal m hm).2.1⟩)
          hdis)
        (by
          intro x hx z hconn
          rcases List.mem_append.mp hx with h1 | h2
          · exact conn_mono hsubL (hCC x h1 z hconn)
          · have hz := conn_stays hkeys hsym hdis hclosV hclosN h2 hconn
            exact conn_mono hsubR (hPI.connNew x h2 z hz))
      refine ⟨c1, c2, ?_, c4, ?_⟩
      · intro q hq
        rcases List.mem_cons.mp hq with rfl | hq2
        · exact c5 k (List.mem_append_right _ hsmem)
        · exact c3 q hq2
      · intro x hx
        exact c5 x (List.mem_append_left _ hx)

theorem prim_full_spec {adj : Prac6.Adj} (hkeys : (adj.map Prod.fst).Nodup)
    (hsym : SymAdj adj) :
    Forest (Prac6.prim_full adj).1 ∧
    (∀ g ∈ (Prac6.prim_full adj).1, g ∈ edgesOfAdj adj) ∧
    (∀ u ∈ adj.map Prod.fst, ∀ v ∈ adj.map Prod.fst,
      (Conn (Prac6.prim_full adj).1 u v ↔ Conn (edgesOfAdj adj) u v)) := by
  obtain ⟨c1, c2, c3, c4, -⟩ := primFullGo_inv hkeys hsym adj [] 0 []
    (fun p hp => hp) List.nodup_nil (by simp) (by simp) (by simp)
    Forest.nil (by simp)
  have hmemE : ∀ g ∈ (Prac6.primFullGo adj adj [] 0 []).1,
      g ∈ edgesOfAdj adj := by
    intro g hg
    have := adjGet_mem_edges (c2 g hg)
    simpa using this
  refine ⟨c1, hmemE, ?_⟩
  intro u hu v hv
  constructor
  · exact conn_mono hmemE
  · intro hconn
    have hukey : ∃ lu, (u, lu) ∈ adj := by
      obtain ⟨p, hp, hp1⟩ := List.mem_map.mp hu
      exact ⟨p.2, by rw [← hp1]; exact hp⟩
    obtain ⟨lu, hlu⟩ := hukey
    exact c4 u (c3 (u, lu) hlu) v hconn

end PrimFull

section C8

theorem numComponents_congr_on {ns : List ℕ} {E1 E2 : List Edg} {n : ℕ}
    (hiff : ∀ u ∈ ns, ∀ v ∈ ns, (Conn E1 u v ↔ Conn E2 u v))
    (h : NumComponents ns E1 n) : NumComponents ns E2 n := by
  obtain ⟨reps, hl, h1, h2, h3⟩ := h
  refine ⟨reps, hl, h1, ?_, ?_⟩
  · refine List.Pairwise.imp_of_mem ?_ h2
    intro a b ha hb hnc hcon
    exact hnc ((hiff a (h1 a ha) b (h1 b hb)).mpr hcon)
  · intro x hx
    obtain ⟨r, hr, hcon⟩ := h3 x hx
    exact ⟨r, hr, (hiff r (h1 r hr) x hx).mp hcon⟩

/-- C8: for every input graph (connected or not) — a registered-node list
with an edge list for the Union-Find constructor `kruskal_mst`, a
symmetric adjacency dict for the frontier-growth forest constructor
`prim_full` — the returned edge set is acyclic, and its number of
connected components over the graph's node set equals the number of
connected components of the original graph. -/
theorem c8_theorem {E : List Edg} {ns : List ℕ} {adj : Prac6.Adj}
    (hWF : WFGraph E ns) (hkeys : (adj.map Prod.fst).Nodup)
    (hsym : SymAdj adj) :
    (Acyclic (Prac6.kruskal_mst E ns).1 ∧
      ∃ n, NumComponents ns (Prac6.kruskal_mst E ns).1 n ∧
        NumComponents ns E n) ∧
    (Acyclic (Prac6.prim_full adj).1 ∧
      ∃ n, NumComponents (adj.map Prod.fst) (Prac6.prim_full adj).1 n ∧
        NumComponents (adj.map Prod.fst) (edgesOfAdj adj) n) := by
  obtain ⟨hF, hKE, hiffk, -⟩ := kruskal6_spec hWF
  obtain ⟨hFp, hPE, hiffp⟩ := prim_full_spec hkeys hsym
  refine ⟨⟨forest_acyclic hF, ?_⟩, ⟨forest_acyclic hFp, ?_⟩⟩
  · obtain ⟨n, hn⟩ := numComponents_exists ns (Prac6.kruskal_mst E ns).1
    exact ⟨n, hn, numComponents_congr_on hiffk hn⟩
  · obtain ⟨n, hn⟩ :=
      numComponents_exists (adj.map Prod.fst) (Prac6.prim_full adj).1
    exact ⟨n, hn, numComponents_congr_on hiffp hn⟩

/-- Witness for C8 at a concrete two-node graph. -/
theorem c8_witness :
    (WFGraph [(0, 1, 1)] [0, 1] ∧
      (([(0, [(1, 1)]), (1, [(0, 1)])] : Prac6.Adj).map Prod.fst).Nodup ∧
      SymAdj [(0, [(1, 1)]), (1, [(0, 1)])]) ∧
    ((Acyclic (Prac6.kruskal_mst [(0, 1, 1)] [0, 1]).1 ∧
      ∃ n, NumComponents [0, 1] (Prac6.kruskal_mst [(0, 1, 1)] [0, 1]).1 n ∧
        NumComponents [0, 1] [(0, 1, 1)] n) ∧
    (Acyclic (Prac6.prim_full [(0, [(1, 1)]), (1, [(0, 1)])]).1 ∧
      ∃ n, NumComponents (([(0, [(1, 1)]), (1, [(0, 1)])] : Prac6.Adj).map
          Prod.fst)
        (Prac6.prim_full [(0, [(1, 1)]), (1, [(0, 1)])]).1 n ∧
        NumComponents (([(0, [(1, 1)]), (1, [(0, 1)])] : Prac6.Adj).map
          Prod.fst)
        (edgesOfAdj [(0, [(1, 1)]), (1, [(0, 1)])]) n)) :=
  ⟨⟨by decide, by decide, by decide⟩,
    c8_theorem (by decide) (by decide) (by decide)⟩

end C8

section BuildAdj

theorem eflip_eflip (e : Edg) : eflip (eflip e) = e := rfl

theorem upsert_keys (adj : Prac6.Adj) (k : ℕ) (v : ℕ × ℚ) :
    (Prac6.upsert adj k v).map Prod.fst =
      if k ∈ adj.map Prod.fst then adj.map Prod.fst
      else adj.map Prod.fst ++ [k] := by
  induction adj with
  | nil => simp [Prac6.upsert]
  | cons p rest ih =>
    obtain ⟨q, l⟩ := p
    by_cases he : q = k
    · subst he
      simp [Prac6.upsert]
    · have hne : k ≠ q := fun h => he h.symm
      by_cases hm : k ∈ rest.map Prod.fst <;>
        simp [Prac6.upsert, he, ih, hm, hne]

theorem mem_upsert_keys (adj : Prac6.Adj) (k : ℕ) (v : ℕ × ℚ) (x : ℕ) :
    x ∈ (Prac6.upsert adj k v).map Prod.fst ↔
      (x ∈ adj.map Prod.fst ∨ x = k) := by
  rw [upsert_keys]
  by_cases hm : k ∈ adj.map Prod.fst
  · rw [if_pos hm]
    exact ⟨Or.inl, fun h => h.elim id (fun he => he ▸ hm)⟩
  · rw [if_neg hm]
    simp

theorem upsert_nodup {adj : Prac6.Adj} (h : (adj.map Prod.fst).Nodup)
    (k : ℕ) (v : ℕ × ℚ) :
    ((Prac6.upsert adj k v).map Prod.fst).Nodup := by
  rw [upsert_keys]
  by_cases hm : k ∈ adj.map Prod.fst
  · rw [if_pos hm]
    exact h
  · rw [if_neg hm]
    refine List.Nodup.append h (List.nodup_singleton k) ?_
    intro a ha hav
    rw [List.mem_singleton] at hav
    subst hav
    exact hm ha

theorem perm_shuffle {α : Type} (A B C : List α) :
    ((A ++ B) ++ C).Perm ((A ++ C) ++ B) := by
  rw [List.append_assoc, List.append_assoc]
  exact List.Perm.append_left A List.perm_append_comm

theorem upsert_edges (adj : Prac6.Adj) (k : ℕ) (v : ℕ × ℚ) :
    (edgesOfAdj (Prac6.upsert adj k v)).Perm
      (edgesOfAdj adj ++ [(k, v.1, v.2)]) := by
  induction adj with
  | nil => simp [Prac6.upsert, edgesOfAdj]
  | cons p rest ih =>
    obtain ⟨q, l⟩ := p
    by_cases he : q = k
    · subst he
      rw [show Prac6.upsert ((q, l) :: rest) q v = (q, l ++ [v]) :: rest from
        by simp [Prac6.upsert]]
      rw [edgesOfAdj_cons, edgesOfAdj_cons, List.map_append]
      have := perm_shuffle (l.map (fun nc => (q, nc.1, nc.2)))
        ([v].map (fun nc => (q, nc.1, nc.2))) (edgesOfAdj rest)
      simpa using this
    · rw [show Prac6.upsert ((q, l) :: rest) k v =
        (q, l) :: Prac6.upsert rest k v from by simp [Prac6.upsert, he]]
      rw [edgesOfAdj_cons, edgesOfAdj_cons]
      refine (List.Perm.append_left _ ih).trans ?_
      rw [List.append_assoc]

theorem build_adj_edges :
    ∀ (E : List Edg) (adj : Prac6.Adj),
      (edgesOfAdj (E.foldl (fun a e =>
        Prac6.upsert (Prac6.upsert a e.1 (e.2.1, e.2.2)) e.2.1
          (e.1, e.2.2)) adj)).Perm
      (edgesOfAdj adj ++ E.flatMap (fun e => [e, eflip e])) := by
  intro E
  induction E with
  | nil =>
    intro adj
    simp
  | cons e E ih =>
    intro adj
    simp only [List.foldl_cons]
    refine (ih _).trans ?_
    have h1 : (edgesOfAdj (Prac6.upsert
        (Prac6.upsert adj e.1 (e.2.1, e.2.2)) e.2.1 (e.1, e.2.2))).Perm
        ((edgesOfAdj adj ++ [(e.1, e.2.1, e.2.2)]) ++ [(e.2.1, e.1, e.2.2)]) :=
      (upsert_edges _ _ _).trans
        ((upsert_edges adj e.1 (e.2.1, e.2.2)).append_right _)
    refine (h1.append_right _).trans ?_
    have h2 : (((edgesOfAdj adj ++ [(e.1, e.2.1, e.2.2)]) ++
        [(e.2.1, e.1, e.2.2)]) ++ E.flatMap (fun g => [g, eflip g])) =
        edgesOfAdj adj ++ (e :: E).flatMap (fun g => [g, eflip g]) := by
      simp [List.append_assoc, eflip]
    rw [h2]

theorem build_adj_from_edges_eq (E : List Edg) :
    Prac6.build_adj_from_edges E = E.foldl (fun a e =>
      Prac6.upsert (Prac6.upsert a e.1 (e.2.1, e.2.2)) e.2.1
        (e.1, e.2.2)) [] := rfl

theorem build_adj_perm (E : List Edg) :
    (edgesOfAdj (Prac6.build_adj_from_edges E)).Perm
      (E.flatMap (fun e => [e, eflip e])) := by
  rw [build_adj_from_edges_eq]
  simpa using build_adj_edges E []

theorem flat_pair_perm :
    ∀ E : List Edg, (E.flatMap (fun e => [e, eflip e])).Perm
      (E ++ E.map eflip) := by
  intro E
  induction E with
  | nil => simp
  | cons e E ih =>
    simp only [List.flatMap_cons, List.map_cons, List.cons_append]
    exact List.Perm.cons e ((List.Perm.cons _ ih).trans List.perm_middle.symm)

theorem build_adj_nodup (E : List Edg) :
    ((Prac6.build_adj_from_edges E).map Prod.fst).Nodup := by
  rw [build_adj_from_edges_eq]
  have main : ∀ (L : List Edg) (adj : Prac6.Adj),
      (adj.map Prod.fst).Nodup →
      ((L.foldl (fun a e => Prac6.upsert (Prac6.upsert a e.1 (e.2.1, e.2.2))
        e.2.1 (e.1, e.2.2)) adj).map Prod.fst).Nodup := by
    intro L
    induction L with
    | nil => intro adj h; exact h
    | cons e L ih =>
      intro adj h
      simp only [List.foldl_cons]
      exact ih _ (upsert_nodup (upsert_nodup h e.1 (e.2.1, e.2.2)) e.2.1
        (e.1, e.2.2))
  exact main E [] (by simp)

theorem build_adj_keys (E : List Edg) (x : ℕ) :
    x ∈ (Prac6.build_adj_from_edges E).map Prod.fst ↔
      ∃ e ∈ E, x = e.1 ∨ x = e.2.1 := by
  rw [build_adj_from_edges_eq]
  have main : ∀ (L : List Edg) (adj : Prac6.Adj),
      (x ∈ (L.foldl (fun a e => Prac6.upsert (Prac6.upsert a e.1 (e.2.1, e.2.2))
        e.2.1 (e.1, e.2.2)) adj).map Prod.fst ↔
      (x ∈ adj.map Prod.fst ∨ ∃ e ∈ L, x = e.1 ∨ x = e.2.1)) := by
    intro L
    induction L with
    | nil =>
      intro adj
      simp
    | cons e L ih =>
      intro adj
      simp only [List.foldl_cons]
      rw [ih, mem_upsert_keys, mem_upsert_keys]
      constructor
      · rintro (((h | h) | h) | h)
        · exact Or.inl h
        · exact Or.inr ⟨e, List.mem_cons_self _ _, Or.inl h⟩
        · exact Or.inr ⟨e, List.mem_cons_self _ _, Or.inr h⟩
        · obtain ⟨g, hg, hx⟩ := h
          exact Or.inr ⟨g, List.mem_cons_of_mem _ hg, hx⟩
      · rintro (h | ⟨g, hg, hx⟩)
        · exact Or.inl (Or.inl (Or.inl h))
        · rcases List.mem_cons.mp hg with rfl | hg2
          · rcases hx with h | h
            · exact Or.inl (Or.inl (Or.inr h))
            · exact Or.inl (Or.inr h)
          · exact Or.inr ⟨g, hg2, hx⟩
  rw [main E []]
  simp

theorem mem_edges_flip {E : List Edg} {g : Edg}
    (h : g ∈ edgesOfAdj (Prac6.build_adj_from_edges E)) :
    g ∈ E ∨ eflip g ∈ E := by
  have hm := (build_adj_perm E).subset h
  obtain ⟨e, he, hg⟩ := List.mem_flatMap.mp hm
  rcases List.mem_cons.mp hg with rfl | hg2
  · exact Or.inl he
  · rw [List.mem_singleton] at hg2
    subst hg2
    rw [eflip_eflip]
    exact Or.inr he

theorem mem_edges_of_mem {E : List Edg} {g : Edg} (h : g ∈ E) :
    g ∈ edgesOfAdj (Prac6.build_adj_from_edges E) := by
  refine (build_adj_perm E).mem_iff.mpr ?_
  exact List.mem_flatMap.mpr ⟨g, h, List.mem_cons_self _ _⟩

theorem mem_edges_of_flip {E : List Edg} {g : Edg} (h : eflip g ∈ E) :
    g ∈ edgesOfAdj (Prac6.build_adj_from_edges E) := by
  refine (build_adj_perm E).mem_iff.mpr ?_
  refine List.mem_flatMap.mpr ⟨eflip g, h, ?_⟩
  rw [show (eflip (eflip g)) = g from rfl]
  exact List.mem_cons_of_mem _ (List.mem_singleton.mpr (eflip_eflip g).symm)

theorem build_adj_sym (E : List Edg) :
    SymAdj (Prac6.build_adj_from_edges E) := by
  intro u hu nc hnc
  have hE : ((u, nc.1, nc.2) : Edg) ∈
      edgesOfAdj (Prac6.build_adj_from_edges E) := adjGet_mem_edges hnc
  have hF : ((nc.1, u, nc.2) : Edg) ∈
      edgesOfAdj (Prac6.build_adj_from_edges E) := by
    rcases mem_edges_flip hE with hm | hm
    · exact mem_edges_of_flip (by simpa [eflip] using hm)
    · exact mem_edges_of_mem (by simpa [eflip] using hm)
  have := mem_edges_adjGet (build_adj_nodup E) hF
  simpa using this

end BuildAdj

section MinBridge

theorem min_bridge {E : List Edg} {ns : List ℕ}
    (hnn : ∀ g ∈ E, 0 ≤ g.2.2)
    {E2 : List Edg} (hperm : E2.Perm (E ++ E.map eflip))
    {T T2 : List Edg}
    (hT : SpanningConn E ns T)
    (hminT : ∀ q, SpanningConn E ns q → weight T ≤ weight q)
    (hT2 : SpanningConn E2 ns T2)
    (hminT2 : ∀ q, SpanningConn E2 ns q → weight T2 ≤ weight q) :
    weight T = weight T2 := by
  classical
  have hTsub2 : T.Subperm E2 :=
    hT.1.trans ((List.sublist_append_left E (E.map eflip)).subperm.trans
      hperm.symm.subperm)
  have h2le : weight T2 ≤ weight T := hminT2 T ⟨hTsub2, hT.2⟩
  have hmemE2 : ∀ g ∈ T2, g ∈ E ∨ eflip g ∈ E := by
    intro g hg
    have hgm := hperm.subset (hT2.1.subset hg)
    rcases List.mem_append.mp hgm with hm | hm
    · exact Or.inl hm
    · obtain ⟨e, he, hge⟩ := List.mem_map.mp hm
      right
      rw [← hge, eflip_eflip]
      exact he
  have hLE : ∀ g ∈ T2.map (fun g => if g ∈ E then g else eflip g), g ∈ E := by
    intro g hg
    obtain ⟨t, ht, hgt⟩ := List.mem_map.mp hg
    by_cases hmem : t ∈ E
    · rw [if_pos hmem] at hgt
      rw [← hgt]
      exact hmem
    · rw [if_neg hmem] at hgt
      rw [← hgt]
      rcases hmemE2 t ht with hm | hm
      · exact absurd hm hmem
      · exact hm
  have hstep12 : ∀ x y, estep T2 x y →
      estep (T2.map (fun g => if g ∈ E then g else eflip g)) x y := by
    intro x y hs
    obtain ⟨w, hw⟩ := hs
    rcases hw with hm | hm
    · by_cases hmem : ((x, y, w) : Edg) ∈ E
      · exact ⟨w, Or.inl (List.mem_map.mpr ⟨(x, y, w), hm, by
          rw [if_pos hmem]⟩)⟩
      · refine ⟨w, Or.inr (List.mem_map.mpr ⟨(x, y, w), hm, ?_⟩)⟩
        rw [if_neg hmem]
        rfl
    · by_cases hmem : ((y, x, w) : Edg) ∈ E
      · exact ⟨w, Or.inr (List.mem_map.mpr ⟨(y, x, w), hm, by
          rw [if_pos hmem]⟩)⟩
      · refine ⟨w, Or.inl (List.mem_map.mpr ⟨(y, x, w), hm, ?_⟩)⟩
        rw [if_neg hmem]
        rfl
  have hwL : weight (T2.map (fun g => if g ∈ E then g else eflip g)) =
      weight T2 := by
    show ((T2.map (fun g => if g ∈ E then g else eflip g)).map
      (fun e => e.2.2)).sum = (T2.map (fun e => e.2.2)).sum
    rw [List.map_map]
    congr 1
    apply List.map_congr_left
    intro t ht
    by_cases hmem : t ∈ E <;> simp [hmem, eflip, Function.comp]
  have hT3sub : (T2.map (fun g => if g ∈ E then g else eflip g)).dedup.Subperm
      E :=
    (List.nodup_dedup _).subperm (fun x hx => hLE x (List.mem_dedup.mp hx))
  have hstepL3 : ∀ x y,
      estep (T2.map (fun g => if g ∈ E then g else eflip g)) x y →
      estep (T2.map (fun g => if g ∈ E then g else eflip g)).dedup x y := by
    intro x y hs
    obtain ⟨w, hw⟩ := hs
    rcases hw with hm | hm
    · exact ⟨w, Or.inl (List.mem_dedup.mpr hm)⟩
    · exact ⟨w, Or.inr (List.mem_dedup.mpr hm)⟩
  have hconn3 : ∀ u v, Conn T2 u v →
      Conn (T2.map (fun g => if g ∈ E then g else eflip g)).dedup u v := by
    intro u v h
    refine conn_of_step_cover ?_ h
    intro a b hs
    exact conn_single (hstepL3 a b (hstep12 a b hs))
  have hw3 : weight (T2.map (fun g => if g ∈ E then g else eflip g)).dedup ≤
      weight (T2.map (fun g => if g ∈ E then g else eflip g)) :=
    weight_sublist_le (List.dedup_sublist _) (fun g hg => hnn g (hLE g hg))
  have hsp3 : SpanningConn E ns
      (T2.map (fun g => if g ∈ E then g else eflip g)).dedup :=
    ⟨hT3sub, fun u hu v hv => hconn3 u v (hT2.2 u hu v hv)⟩
  have h1le := hminT _ hsp3
  linarith

end MinBridge

section C1

theorem prim_mst_none_eq (adj : Prac6.Adj) (s : ℕ) :
    Prac6.prim_mst adj (some s) none = Prac6.prim_mst adj (some s) (some []) := by
  cases adj with
  | nil => rfl
  | cons p rest =>
    obtain ⟨k, l⟩ := p
    simp [Prac6.prim_mst]

/-- C1: on a connected graph with non-negative weights, the Union-Find
constructor `kruskal_mst` and the frontier-growth constructor `prim_mst`
(run on the adjacency dict built from the same edge list, from any
registered start node, as the repo's cross-validation does) return the
same total weight, and each returns exactly `node count - 1` edges. -/
theorem c1_theorem {E : List Edg} {ns : List ℕ} {s : ℕ}
    (hWF : WFGraph E ns) (hnn : ∀ g ∈ E, 0 ≤ g.2.2)
    (hconn : ∀ u ∈ ns, ∀ v ∈ ns, Conn E u v) (hs : s ∈ ns) :
    (Prac6.kruskal_mst E ns).2 =
      (Prac6.prim_mst (Prac6.build_adj_from_edges E) (some s) none).1.2 ∧
    (Prac6.kruskal_mst E ns).1.length + 1 = ns.length ∧
    (Prac6.prim_mst (Prac6.build_adj_from_edges E) (some s) none).1.1.length
      + 1 = ns.length := by
  classical
  obtain ⟨hFk, hKE, hiffk, hcond⟩ := kruskal6_spec hWF
  obtain ⟨hlenK, hspK, hminK⟩ := hcond hnn hconn (List.ne_nil_of_mem hs)
  have hKw : (Prac6.kruskal_mst E ns).2 = weight (Prac6.kruskal_mst E ns).1 := by
    have H := kruskal6Go_weight (ns.length + 1) ns.length
      (E.mergeSort (fun a b => decide (a.2.2 ≤ b.2.2)))
      ⟨fun n => n, fun _ => 0⟩ [] 0
    rw [weight_nil] at H
    simpa [Prac6.kruskal_mst] using H
  by_cases hadj : Prac6.build_adj_from_edges E = []
  · have hE0 : E = [] := by
      cases E with
      | nil => rfl
      | cons e E2 =>
        exfalso
        have hm := (build_adj_keys (e :: E2) e.1).mpr
          ⟨e, List.mem_cons_self _ _, Or.inl rfl⟩
        rw [hadj] at hm
        simp at hm
    subst hE0
    have hnsl : ns.length = 1 :=
      nodup_all_eq_length hWF.1
        (fun x hx => conn_nil_iff.mp (hconn x hx s hs)) hs
    rw [hadj]
    refine ⟨?_, ?_, ?_⟩
    · rw [hKw]
      have h1 : (Prac6.kruskal_mst [] ns).1 = [] := by
        simp [Prac6.kruskal_mst, Prac6.kruskalGo]
      rw [h1]
      simp [Prac6.prim_mst, weight]
    · have h1 : (Prac6.kruskal_mst [] ns).1 = [] := by
        simp [Prac6.kruskal_mst, Prac6.kruskalGo]
      rw [h1]
      simpa using hnsl.symm
    · have h2 : (Prac6.prim_mst [] (some s) none).1.1 = [] := by
        simp [Prac6.prim_mst]
      rw [h2]
      simpa using hnsl.symm
  · have hskey : s ∈ (Prac6.build_adj_from_edges E).map Prod.fst := by
      rw [build_adj_keys]
      by_cases hone : ∀ x ∈ ns, x = s
      · have hEne : E ≠ [] := fun h => hadj (by rw [h]; rfl)
        cases E with
        | nil => exact absurd rfl hEne
        | cons e E2 =>
          exact ⟨e, List.mem_cons_self _ _,
            Or.inl (hone e.1 (hWF.2 e (List.mem_cons_self _ _)).1).symm⟩
      · push_neg at hone
        obtain ⟨t, ht, hts⟩ := hone
        have hcst : Conn E s t := hconn s hs t ht
        rcases Relation.ReflTransGen.cases_head hcst with he | ⟨c, hstep, -⟩
        · exact absurd he.symm hts
        · obtain ⟨w, hw⟩ := hstep
          rcases hw with hm | hm
          · exact ⟨(s, c, w), hm, Or.inl rfl⟩
          · exact ⟨(c, s, w), hm, Or.inr rfl⟩
    have hkeysN := build_adj_nodup E
    have hsymA := build_adj_sym E
    have hkeysNs : ∀ x, x ∈ (Prac6.build_adj_from_edges E).map Prod.fst →
        x ∈ ns := by
      intro x hx
      rw [build_adj_keys] at hx
      obtain ⟨e, he, hxe⟩ := hx
      rcases hxe with rfl | rfl
      · exact (hWF.2 e he).1
      · exact (hWF.2 e he).2
    have hperm2 : (edgesOfAdj (Prac6.build_adj_from_edges E)).Perm
        (E ++ E.map eflip) := (build_adj_perm E).trans (flat_pair_perm E)
    have hnnE2 : ∀ g ∈ edgesOfAdj (Prac6.build_adj_from_edges E),
        0 ≤ g.2.2 := by
      intro g hg
      rcases List.mem_append.mp (hperm2.subset hg) with hm | hm
      · exact hnn g hm
      · obtain ⟨e, he, hge⟩ := List.mem_map.mp hm
        rw [← hge]
        exact hnn e he
    have hEsub : ∀ m ∈ E, m ∈ edgesOfAdj (Prac6.build_adj_from_edges E) :=
      fun m hm => mem_edges_of_mem hm
    have hconnE2 : ∀ x ∈ (Prac6.build_adj_from_edges E).map Prod.fst,
        ∀ y ∈ (Prac6.build_adj_from_edges E).map Prod.fst,
        Conn (edgesOfAdj (Prac6.build_adj_from_edges E)) x y := by
      intro x hx y hy
      exact conn_mono hEsub (hconn x (hkeysNs x hx) y (hkeysNs y hy))
    rw [prim_mst_none_eq]
    obtain ⟨vne, hEq, hsmem, -, hPI, hMin⟩ :=
      prim6_spec hkeysN hsymA hskey (List.not_mem_nil s) List.nodup_nil
    obtain ⟨T2, hspT2, hminT2, hsubP⟩ := hMin rfl hnnE2 hconnE2
    have hclosN : ∀ b ∈ vne,
        ∀ nc ∈ Prac6.adjGet (Prac6.build_adj_from_edges E) b,
        nc.1 ∈ ([] : List ℕ) ++ vne := by
      intro b hb nc hnc
      rcases hPI.closure b hb nc hnc with hin | habs
      · exact hin
      · exact absurd habs (List.not_mem_nil _)
    have hnsVne : ∀ x ∈ ns, x ∈ vne := by
      intro x hx
      refine conn_stays hkeysN hsymA
        (fun z hz _ => absurd hz (List.not_mem_nil z))
        (fun b hb => absurd hb (List.not_mem_nil b)) hclosN hsmem ?_
      exact conn_mono hEsub (hconn s hs x hx)
    have hvneNs : ∀ x ∈ vne, x ∈ ns :=
      fun x hx => hkeysNs x (hPI.keysNew x hx)
    have hvneNd : vne.Nodup := by simpa using hPI.nodup
    have hlen2 : vne.length = ns.length :=
      le_antisymm (hvneNd.subperm hvneNs).length_le
        (hWF.1.subperm hnsVne).length_le
    have hcnt := hPI.count
    have hspP : SpanningConn (edgesOfAdj (Prac6.build_adj_from_edges E)) ns
        (Prac6.prim_mst (Prac6.build_adj_from_edges E) (some s)
          (some [])).1.1 :=
      ⟨hsubP.trans hspT2.1,
        fun u hu v hv => hPI.connNew u (hnsVne u hu) v (hnsVne v hv)⟩
    have hwPT2 : weight (Prac6.prim_mst (Prac6.build_adj_from_edges E)
        (some s) (some [])).1.1 ≤ weight T2 :=
      weight_subperm_le hsubP (fun g hg => hnnE2 g (hspT2.1.subset hg))
    have hminT2ns : ∀ q,
        SpanningConn (edgesOfAdj (Prac6.build_adj_from_edges E)) ns q →
        weight T2 ≤ weight q := by
      intro q hq
      exact hminT2 q ⟨hq.1,
        fun u hu v hv => hq.2 u (hkeysNs u hu) v (hkeysNs v hv)⟩
    have hwT2P : weight T2 ≤ weight (Prac6.prim_mst
        (Prac6.build_adj_from_edges E) (some s) (some [])).1.1 :=
      hminT2ns _ hspP
    have hspT2ns : SpanningConn (edgesOfAdj (Prac6.build_adj_from_edges E))
        ns T2 :=
      ⟨hspT2.1, fun u hu v hv => hspT2.2 u (hPI.keysNew u (hnsVne u hu))
        v (hPI.keysNew v (hnsVne v hv))⟩
    have hKT2 : weight (Prac6.kruskal_mst E ns).1 = weight T2 :=
      min_bridge hnn hperm2 hspK hminK hspT2ns hminT2ns
    have hPw := prim_mst_weight (Prac6.build_adj_from_edges E) (some s)
      (some [])
    refine ⟨?_, hlenK, ?_⟩
    · rw [hKw, hPw, hKT2]
      linarith
    · omega

theorem conn01 : ∀ u ∈ ([0, 1] : List ℕ), ∀ v ∈ ([0, 1] : List ℕ),
    Conn [((0 : ℕ), (1 : ℕ), (1 : ℚ))] u v := by
  have hstep : estep [((0 : ℕ), (1 : ℕ), (1 : ℚ))] 0 1 :=
    ⟨1, Or.inl (List.mem_singleton.mpr rfl)⟩
  intro u hu v hv
  simp only [List.mem_cons, List.not_mem_nil, or_false] at hu hv
  rcases hu with rfl | rfl <;> rcases hv with rfl | rfl
  · exact conn_refl _ _
  · exact conn_single hstep
  · exact conn_symm (conn_single hstep)
  · exact conn_refl _ _

/-- Witness for C1 at the two-node graph with a single unit edge. -/
theorem c1_witness :
    (WFGraph [(0, 1, 1)] [0, 1] ∧
      (∀ g ∈ ([((0 : ℕ), (1 : ℕ), (1 : ℚ))] : List Edg), 0 ≤ g.2.2) ∧
      (0 : ℕ) ∈ ([0, 1] : List ℕ)) ∧
    ((Prac6.kruskal_mst [(0, 1, 1)] [0, 1]).2 =
      (Prac6.prim_mst (Prac6.build_adj_from_edges [(0, 1, 1)]) (some 0)
        none).1.2 ∧
    (Prac6.kruskal_mst [(0, 1, 1)] [0, 1]).1.length + 1 =
      ([0, 1] : List ℕ).length ∧
    (Prac6.prim_mst (Prac6.build_adj_from_edges [(0, 1, 1)]) (some 0)
      none).1.1.length + 1 = ([0, 1] : List ℕ).length) :=
  ⟨⟨by decide, by decide, by decide⟩,
    c1_theorem (by decide) (by decide) conn01 (by decide)⟩

end C1
